import Mathlib

/-!
# MacDevTools: the workspace file store, the XML codec and the Base64 tool

A shallow embedding of the file-system operations of `app.go`
(`CreateFile`, `CreateFolder`, `DeleteItem`, `RenameItem`, `ReadFileContent`,
`SaveFileContent`, `CopyItem`, `DuplicateItem`, `MoveItem`, `copyFile`,
`copyDir`, `ReadDirectory`, `readDirRecursive`, `GlobalSearch`), of `xmlToMap`
and of `DecodeBase64` with `isValidUTF8`, together with the parts of the Go
standard library they call.

* Go strings are lists of characters (`Str`).
* `path/filepath` (Unix flavour) is modelled on strings: `Clean`, `Join`,
  `Abs`, `Dir`, `Base`, `Ext`, `Rel`.
* The operating system is a `World`: a working directory and a directory tree
  whose entry names are compared character by character.  System calls resolve
  a path lexically: there are no symbolic links, no permission bits and no I/O
  failures, and `os.Getwd` always answers, so `filepath.Abs` returns no error.
  `os.Stat` distinguishes a missing name (`ENOENT`) from a path that runs
  through a regular file (`ENOTDIR`), because the source tests
  `os.IsNotExist(err)` in some places and `err == nil` in others.
* The system calls are modelled on the paths that the operating system takes
  (`legalPath`: no NUL character, no element longer than 255 bytes, fewer than
  1024 bytes in all).  On any other path the real calls fail with `EINVAL` or
  `ENAMETOOLONG`, which the model does not produce; a statement that rests on
  the answer of `os.Stat` at a path where nothing exists therefore takes
  `legalPath` as a hypothesis.
* Errors are printed as the text of their error number only.
* Calls to `log.Printf` have no effect on the state and are left out.
* Unbounded `for` loops and the recursions of `copyDir`, `readDirRecursive`,
  `filepath.Walk` and `xmlToMap` take a fuel argument; `none` means the fuel
  ran out before the loop stopped.
* An `xml.Decoder` is the list of tokens that its tokenizer is still to deliver
  together with the stack of open elements that `Decoder.Token` keeps; the
  tokenizer itself (from characters to tokens) is not modelled.
* Byte slices are lists of natural numbers below 256.
-/

namespace MacDevTools

/-! ## Strings (`strings`, `fmt`) -/

/-- A Go string. -/
abbrev Str := List Char

/-- Go's `strings.HasPrefix`. -/
def hasPrefix (s p : Str) : Bool := p.isPrefixOf s

/-- Go's `strings.HasSuffix`. -/
def hasSuffix (s suf : Str) : Bool := suf.isSuffixOf s

/-- Go's `strings.TrimSuffix`. -/
def trimSuffix (s suf : Str) : Str :=
  if hasSuffix s suf then s.take (s.length - suf.length) else s

/-- The `%d` verb of `fmt.Sprintf` on a non-negative counter. -/
def itoa (n : Nat) : Str := Nat.toDigits 10 n

/-! ## Paths (`path/filepath`, Unix) -/

/-- Splits a string at every `/`; the pieces may be empty. -/
def splitSep : Str → List Str
  | [] => [[]]
  | c :: cs =>
    if c = '/' then [] :: splitSep cs
    else
      match splitSep cs with
      | [] => [[c]]
      | h :: t => (c :: h) :: t

/-- Joins path elements with `/` in between. -/
def joinSep : List Str → Str
  | [] => []
  | [s] => s
  | s :: t => s ++ '/' :: joinSep t

/-- One step of `filepath.Clean`: `stack` holds the elements kept so far, the
last one first.  Empty elements and `.` are dropped, `..` removes the last kept
element; at the start of a rooted path `..` is dropped, at the start of a
relative path it is kept. -/
def cleanStep (rooted : Bool) (stack : List Str) (seg : Str) : List Str :=
  if seg = [] ∨ seg = ['.'] then stack
  else if seg = ['.', '.'] then
    match stack with
    | [] => if rooted then [] else [seg]
    | top :: rest =>
      if top = ['.', '.'] then (if rooted then stack else seg :: stack) else rest
  else seg :: stack

/-- The elements that `filepath.Clean` keeps, in order. -/
def cleanSegs (rooted : Bool) (p : Str) : List Str :=
  ((splitSep p).foldl (cleanStep rooted) []).reverse

/-- Go's `filepath.IsAbs`. -/
def isAbs (p : Str) : Bool := hasPrefix p ['/']

/-- Go's `filepath.Clean`. -/
def clean (p : Str) : Str :=
  if p = [] then ['.']
  else if isAbs p then '/' :: joinSep (cleanSegs true p)
  else
    match cleanSegs false p with
    | [] => ['.']
    | segs => joinSep segs

/-- Go's `filepath.Join` of two elements: empty elements are ignored, the result is
cleaned, and it is empty when both elements are. -/
def join (a b : Str) : Str :=
  if a ≠ [] then clean (a ++ '/' :: b)
  else if b ≠ [] then clean b
  else []

/-- Go's `filepath.Split`: the part up to and including the last `/`, and the rest. -/
def splitLast : Str → Str × Str
  | [] => ([], [])
  | c :: cs =>
    let r := splitLast cs
    if c = '/' ∨ r.1 ≠ [] then (c :: r.1, r.2) else ([], c :: r.2)

/-- Go's `filepath.Dir`. -/
def dir (p : Str) : Str := clean (splitLast p).1

/-- Removes the trailing `/` characters. -/
def stripTrailingSep : Str → Str
  | [] => []
  | c :: cs =>
    let r := stripTrailingSep cs
    if r = [] ∧ c = '/' then [] else c :: r

/-- Go's `filepath.Base`. -/
def base (p : Str) : Str :=
  if p = [] then ['.']
  else
    let f := (splitLast (stripTrailingSep p)).2
    if f = [] then ['/'] else f

/-- Go's `filepath.Ext`: the suffix starting at the last `.` of the last element,
empty when that element has no `.`. -/
def ext : Str → Str
  | [] => []
  | c :: cs =>
    if ext cs ≠ [] then ext cs
    else if c = '.' ∧ '/' ∉ cs then c :: cs
    else []

/-- Drops the longest common leading run of elements of two lists. -/
def dropCommon : List Str → List Str → List Str × List Str
  | a :: as, b :: bs => if a = b then dropCommon as bs else (a :: as, b :: bs)
  | as, bs => (as, bs)

/-- Go's `filepath.Rel`: `none` where Go returns an error. -/
def rel (basepath targpath : Str) : Option Str :=
  let b := clean basepath
  let t := clean targpath
  if t = b then some ['.']
  else if isAbs b ≠ isAbs t then none
  else
    let bs := if b = ['.'] then [] else (splitSep b).filter (· ≠ [])
    let ts := (splitSep t).filter (· ≠ [])
    let r := dropCommon bs ts
    if r.1.head? = some ['.', '.'] then none
    else some (joinSep (r.1.map (fun _ => ['.', '.']) ++ r.2))

/-! ## The file system -/

/-- A node of the directory tree: a regular file with its content, or a
directory with its named entries. -/
inductive Node where
  | file (content : Str)
  | dir (entries : List (Str × Node))

instance : Inhabited Node := ⟨.file []⟩

/-- The error numbers the model distinguishes. -/
inductive Errno where
  | ENOENT | ENOTDIR | EEXIST | EISDIR | EINVAL | ENOTEMPTY | EBUSY
  deriving DecidableEq

/-- The text of an error number, as `%v` prints it (without the operation and
path that Go puts in front). -/
def Errno.text : Errno → Str
  | .ENOENT => "no such file or directory".toList
  | .ENOTDIR => "not a directory".toList
  | .EEXIST => "file exists".toList
  | .EISDIR => "is a directory".toList
  | .EINVAL => "invalid argument".toList
  | .ENOTEMPTY => "directory not empty".toList
  | .EBUSY => "resource busy".toList

/-- The first entry called `n`. -/
def lookupE (n : Str) : List (Str × Node) → Option Node
  | [] => none
  | (k, v) :: es => if k = n then some v else lookupE n es

/-- Replaces the node of the first entry called `n`. -/
def modifyE (n : Str) (f : Node → Node) : List (Str × Node) → List (Str × Node)
  | [] => []
  | (k, v) :: es => if k = n then (k, f v) :: es else (k, v) :: modifyE n f es

/-- Removes every entry called `n`. -/
def eraseE (n : Str) : List (Str × Node) → List (Str × Node)
  | [] => []
  | (k, v) :: es => if k = n then eraseE n es else (k, v) :: eraseE n es

/-- Sets (`some`) or removes (`none`) the entry called `n`; a new entry goes to
the end. -/
def setE (n : Str) : Option Node → List (Str × Node) → List (Str × Node)
  | none, es => eraseE n es
  | some v, es => if (lookupE n es).isSome then modifyE n (fun _ => v) es else es ++ [(n, v)]

/-- Whether a node is a directory (`FileInfo.IsDir`). -/
def Node.isDir : Node → Bool
  | .dir _ => true
  | .file _ => false

/-- What a lookup of a path sees of a node: a file with its content, or a
directory. -/
inductive Entry where
  | file (content : Str)
  | dir
  deriving DecidableEq

/-- The entry a node shows. -/
def Node.entry : Node → Entry
  | .file c => .file c
  | .dir _ => .dir

/-- Walks down from a node along path elements. -/
def Node.stat : Node → List Str → Except Errno Node
  | t, [] => .ok t
  | .file _, _ :: _ => .error .ENOTDIR
  | .dir es, s :: p =>
    match lookupE s es with
    | none => .error .ENOENT
    | some c => c.stat p

/-- What is found at a path below a node. -/
def Node.look (t : Node) (p : List Str) : Except Errno Entry :=
  match t.stat p with
  | .ok n => .ok n.entry
  | .error e => .error e

/-- Rewrites the entry at a non-empty path: `f` sees the node there (if any) and
answers with the node to put (or `none` to remove it), or with an error.  All
directories above the entry must exist. -/
def Node.updateAt (f : Option Node → Except Errno (Option Node)) :
    Node → List Str → Except Errno Node
  | _, [] => .error .EINVAL
  | .file _, _ :: _ => .error .ENOTDIR
  | .dir es, [n] => (f (lookupE n es)).map (fun r => .dir (setE n r es))
  | .dir es, s :: t :: p =>
    match lookupE s es with
    | none => .error .ENOENT
    | some c => (c.updateAt f (t :: p)).map (fun c1 => .dir (modifyE s (fun _ => c1) es))

/-- Creates the directories of a path that are missing (`os.MkdirAll` below a
node). -/
def Node.mkdirAll : Node → List Str → Except Errno Node
  | .file _, _ => .error .ENOTDIR
  | .dir es, [] => .ok (.dir es)
  | .dir es, s :: p =>
    match lookupE s es with
    | some c => (c.mkdirAll p).map (fun c1 => .dir (modifyE s (fun _ => c1) es))
    | none => ((Node.dir []).mkdirAll p).map (fun c1 => .dir (es ++ [(s, c1)]))

/-- The state of the operating system: the working directory of the process
(its elements below `/`) and the directory tree at `/`. -/
structure World where
  cwd : List Str
  tree : Node

/-- Go's `os.Getwd`. -/
def getwd (w : World) : Str := '/' :: joinSep w.cwd

/-- Go's `filepath.Abs`. -/
def abs (w : World) (p : Str) : Str :=
  if isAbs p then clean p else join (getwd w) p

/-- The elements below `/` that a path names for a system call: relative paths
start at the working directory, `.` and `..` are resolved lexically. -/
def resolve (w : World) (p : Str) : List Str :=
  cleanSegs true (if isAbs p then p else getwd w ++ '/' :: p)

/-- Go's `os.Stat`, on the paths that the operating system takes (`legalPath`):
it finds the node at the path, or fails with `ENOENT` where a name is missing
and with `ENOTDIR` where the path runs through a regular file.  The failures
`EINVAL` (a NUL character in the path) and `ENAMETOOLONG` (an element or a
path that is too long) of the real call are not modelled: on such a path the
model answers as if the name were missing, which the real call does not. -/
def stat (w : World) (p : Str) : Except Errno Node :=
  if p = [] then .error .ENOENT else w.tree.stat (resolve w p)

/-- What `os.Stat` (and, for a file, `os.ReadFile`) finds at a path. -/
def lookAt (w : World) (p : Str) : Except Errno Entry :=
  match stat w p with
  | .ok n => .ok n.entry
  | .error e => .error e

/-- Go's `os.IsNotExist(err)` for the error of a call. -/
def isNotExist {α : Type} : Except Errno α → Bool
  | .error .ENOENT => true
  | _ => false

/-- The test `err == nil` for the error of a call. -/
def isOk {α : Type} : Except Errno α → Bool
  | .ok _ => true
  | .error _ => false

/-- Go's `os.MkdirAll`. -/
def mkdirAll (w : World) (p : Str) : Except Errno World :=
  if p = [] then .error .ENOENT
  else (w.tree.mkdirAll (resolve w p)).map (fun t => { w with tree := t })

/-- Runs `Node.updateAt` at the place a path names; `atRoot` is the error for
the path `/` itself. -/
def updatePath (w : World) (p : Str) (atRoot : Errno)
    (f : Option Node → Except Errno (Option Node)) : Except Errno World :=
  if p = [] then .error .ENOENT
  else if resolve w p = [] then .error atRoot
  else (w.tree.updateAt f (resolve w p)).map (fun t => { w with tree := t })

/-- What `os.Mkdir` does to the entry at its path. -/
def mkdirEntry : Option Node → Except Errno (Option Node)
  | none => .ok (some (.dir []))
  | some _ => .error .EEXIST

/-- Go's `os.Mkdir`. -/
def mkdir (w : World) (p : Str) : Except Errno World :=
  updatePath w p .EEXIST mkdirEntry

/-- What opening with `O_CREATE|O_TRUNC` and writing `content` does to the
entry at the path. -/
def writeEntry (content : Str) : Option Node → Except Errno (Option Node)
  | some (.dir _) => .error .EISDIR
  | _ => .ok (some (.file content))

/-- Go's `os.WriteFile`. -/
def writeFile (w : World) (p : Str) (content : Str) : Except Errno World :=
  updatePath w p .EISDIR (writeEntry content)

/-- Go's `os.Create` followed by `Close`: an empty file. -/
def create (w : World) (p : Str) : Except Errno World :=
  writeFile w p []

/-- Go's `os.ReadFile`. -/
def readFile (w : World) (p : Str) : Except Errno Str :=
  match stat w p with
  | .error e => .error e
  | .ok (.dir _) => .error .EISDIR
  | .ok (.file c) => .ok c

/-- Go's `os.ReadDir`: the entries of a directory, sorted by name, each with its
`IsDir` flag. -/
def readDir (w : World) (p : Str) : Except Errno (List (Str × Bool)) :=
  match stat w p with
  | .error e => .error e
  | .ok (.file _) => .error .ENOTDIR
  | .ok (.dir es) =>
    .ok ((es.map (fun e => (e.1, e.2.isDir))).insertionSort (fun a b => a.1 ≤ b.1))

/-- Go's `os.RemoveAll`: no error when nothing is there. -/
def removeAll (w : World) (p : Str) : Except Errno World :=
  if p = [] then .ok w
  else if p = ['.'] ∨ hasSuffix p ['/', '.'] then .error .EINVAL
  else
    match w.tree.stat (resolve w p) with
    | .error .ENOENT => .ok w
    | .error e => .error e
    | .ok _ => updatePath w p .EBUSY (fun _ => .ok none)

/-- What `rename(2)` puts at the new path: it replaces a file by a file and an
empty directory by a directory. -/
def renameEntry (src : Node) : Option Node → Except Errno (Option Node)
  | none => .ok (some src)
  | some (.file _) => if src.isDir then .error .ENOTDIR else .ok (some src)
  | some (.dir []) => if src.isDir then .ok (some src) else .error .EISDIR
  | some (.dir (_ :: _)) => if src.isDir then .error .ENOTEMPTY else .error .EISDIR

/-- Go's `os.Rename`. -/
def rename (w : World) (oldp newp : Str) : Except Errno World :=
  if oldp = [] ∨ newp = [] then .error .ENOENT
  else
    let po := resolve w oldp
    let pn := resolve w newp
    match w.tree.stat po with
    | .error e => .error e
    | .ok src =>
      if po = pn then .ok w
      else if po.isPrefixOf pn then .error .EINVAL
      else if pn.isPrefixOf po then .error .ENOTEMPTY
      else
        match w.tree.updateAt (fun _ => .ok none) po with
        | .error e => .error e
        | .ok t1 =>
          match t1.updateAt (renameEntry src) pn with
          | .error e => .error e
          | .ok t2 => .ok { w with tree := t2 }

/-! ## The application (`app.go`) -/

/-- The type `FileItem`: a file or folder as the front end sees it (`Typ` is the field
`Type`: `"file"` or `"folder"`). -/
inductive FileItem where
  | mk (ID Name Typ Path : Str) (Children : List FileItem) (Expanded : Bool)

/-- The `Data` field of a response: nothing, a `FileItem`, a
`map[string]string` (as its key/value pairs), a string or a `[]FileItem`. -/
inductive Data where
  | none
  | item (i : FileItem)
  | fields (kv : List (Str × Str))
  | text (s : Str)
  | items (l : List FileItem)

/-- The type `FileSystemResponse`. -/
structure FileSystemResponse where
  Success : Bool
  Error : Str
  Data : Data

/-- The type `App`: the receiver of every operation; only `storagePath` matters here. -/
structure App where
  storagePath : Str

/-- A response `{Success: false, Error: msg}`. -/
def failure (msg : Str) : FileSystemResponse := ⟨false, msg, .none⟩

/-- A response `{Success: true, Data: d}`. -/
def success (d : Data) : FileSystemResponse := ⟨true, [], d⟩

/-- The identifier of a path, `relPath, _ := filepath.Rel(a.storagePath, p)`:
the empty string where `Rel` fails. -/
def relID (a : App) (p : Str) : Str := (rel a.storagePath p).getD []

/-- The name-probing loop shared by `CreateFile`, `CreateFolder` and `CopyItem`:
`for { if free(cur) { break }; cur = next(counter); counter++ }`.  It returns
the candidate it stopped at and the counter, which is the number of probes
made; `none` when the fuel is used up first. -/
def probeLoop {α : Type} (isFree : α → Bool) (next : Nat → α) : Nat → Nat → α → Option (α × Nat)
  | 0, _, _ => none
  | fuel + 1, counter, cur =>
    if isFree cur then some (cur, counter)
    else probeLoop isFree next fuel (counter + 1) (next counter)

/-- The loop of `CreateFile` that generates a unique file name: the state is
`(finalName, filePath)`, the counter starts at 1. -/
def createFileProbe (fuel : Nat) (w : World) (dirPath fileName : Str) :
    Option ((Str × Str) × Nat) :=
  let baseName := trimSuffix fileName (ext fileName)
  let ext1 := ext fileName
  probeLoop (fun (c : Str × Str) => isNotExist (stat w c.2))
    (fun counter =>
      let finalName := baseName ++ '_' :: itoa counter ++ ext1
      (finalName, join dirPath finalName))
    fuel 1 (fileName, join dirPath fileName)

/-- The method `CreateFile`: creates a new file with auto-increment name if exists. -/
def CreateFile (fuel : Nat) (a : App) (w : World) (tool parentPath fileName : Str) :
    Option (FileSystemResponse × World) :=
  let dirPath := if parentPath = [] then join a.storagePath tool else parentPath
  match mkdirAll w dirPath with
  | .error e => some (failure ("Failed to create directory: ".toList ++ e.text), w)
  | .ok w1 =>
    match createFileProbe fuel w1 dirPath fileName with
    | none => none
    | some ((finalName, filePath), _) =>
      match create w1 filePath with
      | .error e => some (failure ("Failed to create file: ".toList ++ e.text), w1)
      | .ok w2 =>
        some (success (.item (.mk (relID a filePath) finalName "file".toList filePath [] false)),
          w2)

/-- The loop of `CreateFolder` that generates a unique folder name: the state is
`(finalName, folderPath)`, the counter starts at 1. -/
def createFolderProbe (fuel : Nat) (w : World) (dirPath folderName : Str) :
    Option ((Str × Str) × Nat) :=
  probeLoop (fun (c : Str × Str) => isNotExist (stat w c.2))
    (fun counter =>
      let finalName := folderName ++ '_' :: itoa counter
      (finalName, join dirPath finalName))
    fuel 1 (folderName, join dirPath folderName)

/-- The method `CreateFolder`: creates a new folder with auto-increment name if exists. -/
def CreateFolder (fuel : Nat) (a : App) (w : World) (tool parentPath folderName : Str) :
    Option (FileSystemResponse × World) :=
  let dirPath := if parentPath = [] then join a.storagePath tool else parentPath
  match mkdirAll w dirPath with
  | .error e => some (failure ("Failed to create parent directory: ".toList ++ e.text), w)
  | .ok w1 =>
    match createFolderProbe fuel w1 dirPath folderName with
    | none => none
    | some ((finalName, folderPath), _) =>
      match mkdir w1 folderPath with
      | .error e => some (failure ("Failed to create folder: ".toList ++ e.text), w1)
      | .ok w2 =>
        some (success (.item (.mk (relID a folderPath) finalName "folder".toList folderPath [] true)),
          w2)

/-- The method `DeleteItem`: deletes a file or folder. -/
def DeleteItem (a : App) (w : World) (itemPath : Str) : FileSystemResponse × World :=
  let absPath := abs w itemPath
  let absStorage := abs w a.storagePath
  if !hasPrefix absPath absStorage then
    (failure ("Access denied: path outside storage directory. Path: ".toList ++ absPath ++
      ", Storage: ".toList ++ absStorage), w)
  else if isNotExist (stat w absPath) then
    (failure ("File or folder does not exist: ".toList ++ absPath), w)
  else
    match removeAll w absPath with
    | .error e => (failure ("Failed to delete: ".toList ++ e.text), w)
    | .ok w1 => (success .none, w1)

/-- The method `RenameItem`: renames a file or folder. -/
def RenameItem (a : App) (w : World) (itemPath newName : Str) : FileSystemResponse × World :=
  let absPath := abs w itemPath
  let absStorage := abs w a.storagePath
  if !hasPrefix absPath absStorage then
    (failure "Access denied: path outside storage directory".toList, w)
  else
    let newPath := join (dir absPath) newName
    if isOk (stat w newPath) then
      (failure "A file or folder with that name already exists".toList, w)
    else
      match rename w absPath newPath with
      | .error e => (failure ("Failed to rename: ".toList ++ e.text), w)
      | .ok w1 =>
        (success (.fields [("id".toList, relID a newPath), ("path".toList, newPath),
          ("newName".toList, newName)]), w1)

/-- The method `ReadFileContent`: reads the content of a file. -/
def ReadFileContent (a : App) (w : World) (filePath : Str) : FileSystemResponse :=
  let absPath := abs w filePath
  let absStorage := abs w a.storagePath
  if !hasPrefix absPath absStorage then failure "Access denied".toList
  else
    match readFile w absPath with
    | .error e => failure ("Failed to read file: ".toList ++ e.text)
    | .ok content => success (.text content)

/-- The method `SaveFileContent`: saves content to a file. -/
def SaveFileContent (a : App) (w : World) (filePath content : Str) : FileSystemResponse × World :=
  let absPath := abs w filePath
  let absStorage := abs w a.storagePath
  if !hasPrefix absPath absStorage then (failure "Access denied".toList, w)
  else
    match writeFile w absPath content with
    | .error e => (failure ("Failed to save file: ".toList ++ e.text), w)
    | .ok w1 => (success .none, w1)

/-- The function `copyFile`: copies a single file.  The second component is the error
returned; the world is the state left behind, also on failure. -/
def copyFile (w : World) (src dst : Str) : World × Option Errno :=
  match stat w src with
  | .error e => (w, some e)
  | .ok _ =>
    match create w dst with
    | .error e => (w, some e)
    | .ok w1 =>
      match readFile w1 src with
      | .error e => (w1, some e)
      | .ok content =>
        match writeFile w1 dst content with
        | .error e => (w1, some e)
        | .ok w2 => (w2, none)

/-- The function `copyDir`: copies a directory recursively; the fuel bounds the depth of the
recursion.  The loop over the entries stops at the first error. -/
def copyDir : Nat → World → Str → Str → Option (World × Option Errno)
  | 0, _, _, _ => none
  | fuel + 1, w, src, dst =>
    match stat w src with
    | .error e => some (w, some e)
    | .ok _ =>
      match mkdirAll w dst with
      | .error e => some (w, some e)
      | .ok w1 =>
        match readDir w1 src with
        | .error e => some (w1, some e)
        | .ok entries =>
          entries.foldl
            (fun acc entry =>
              match acc with
              | none => none
              | some (wi, some e) => some (wi, some e)
              | some (wi, none) =>
                let srcPath := join src entry.1
                let dstPath := join dst entry.1
                if entry.2 then copyDir fuel wi srcPath dstPath
                else some (copyFile wi srcPath dstPath))
            (some (w1, none))

/-- The loop of `CopyItem` that generates a unique destination name: the state
is `finalPath`, the counter starts at 1. -/
def copyProbe (fuel : Nat) (w : World) (srcIsDir : Bool) (absDest : Str) : Option (Str × Nat) :=
  let destDir := dir absDest
  let destName := base absDest
  let ext1 := ext destName
  let baseName := trimSuffix destName ext1
  probeLoop (fun (p : Str) => isNotExist (stat w p))
    (fun counter =>
      if srcIsDir then join destDir (baseName ++ "_copy_".toList ++ itoa counter)
      else join destDir (baseName ++ "_copy_".toList ++ itoa counter ++ ext1))
    fuel 1 absDest

/-- The method `CopyItem`: copies a file or folder, with a `_copy_N` name when the
destination is taken. -/
def CopyItem (fuel : Nat) (a : App) (w : World) (srcPath destPath : Str) :
    Option (FileSystemResponse × World) :=
  let absSrc := abs w srcPath
  let absDest := abs w destPath
  let absStorage := abs w a.storagePath
  if !hasPrefix absSrc absStorage || !hasPrefix absDest absStorage then
    some (failure "Access denied: path outside storage directory".toList, w)
  else
    match stat w absSrc with
    | .error _ => some (failure "Source does not exist".toList, w)
    | .ok srcInfo =>
      match copyProbe fuel w srcInfo.isDir absDest with
      | none => none
      | some (finalPath, _) =>
        match (if srcInfo.isDir then copyDir fuel w absSrc finalPath
               else some (copyFile w absSrc finalPath)) with
        | none => none
        | some (w1, some e) => some (failure ("Failed to copy: ".toList ++ e.text), w1)
        | some (w1, none) =>
          some (success (.fields [("id".toList, relID a finalPath), ("path".toList, finalPath),
            ("name".toList, base finalPath)]), w1)

/-- The method `DuplicateItem`: creates a copy in the same directory. -/
def DuplicateItem (fuel : Nat) (a : App) (w : World) (srcPath : Str) :
    Option (FileSystemResponse × World) :=
  CopyItem fuel a w srcPath srcPath

/-- The method `MoveItem`: moves a file or folder to a new location. -/
def MoveItem (a : App) (w : World) (srcPath destDir : Str) : FileSystemResponse × World :=
  let absSrc := abs w srcPath
  let absDest := abs w destDir
  let absStorage := abs w a.storagePath
  if !hasPrefix absSrc absStorage || !hasPrefix absDest absStorage then
    (failure "Access denied: path outside storage directory".toList, w)
  else
    let fileName := base absSrc
    let newPath := join absDest fileName
    if isOk (stat w newPath) then
      (failure "A file with that name already exists in the destination".toList, w)
    else
      match rename w absSrc newPath with
      | .error e => (failure ("Failed to move: ".toList ++ e.text), w)
      | .ok w1 =>
        (success (.fields [("id".toList, relID a newPath), ("path".toList, newPath),
          ("name".toList, fileName)]), w1)

/-! ### Listing (`ReadDirectory`, `readDirRecursive`) -/

/-- Go's `sort.Slice(x, less)`.  The library does not promise a stable sort; the
model inserts one element after the other, which gives the only possible result
whenever `less` orders the elements strictly, as it does for directory entries,
whose names are distinct. -/
def sortSlice {α : Type} (less : α → α → Bool) (l : List α) : List α :=
  l.insertionSort (fun a b => less b a = false)

/-- The `less` function of `readDirRecursive` on entries given as name and
`IsDir` flag: `if iDir != jDir { return iDir }; return iName < jName`. -/
def entryLess (i j : Str × Bool) : Bool :=
  if i.2 ≠ j.2 then i.2 else decide (i.1 < j.1)

/-- The `for _, entry := range entries` loop of `readDirRecursive`; `recur` is the
recursive call on a sub-directory (`none`: out of fuel).  Children are left
empty when the recursive call returns an error. -/
def listLoop (a : App) (dirPath : Str)
    (recur : Str → Option (Except Errno (List FileItem))) :
    List (Str × Bool) → Option (List FileItem)
  | [] => some []
  | entry :: rest =>
    if hasPrefix entry.1 ['.'] then listLoop a dirPath recur rest
    else
      let fullPath := join dirPath entry.1
      let relPath := relID a fullPath
      if entry.2 then
        match recur fullPath with
        | Option.none => Option.none
        | some r =>
          let children := match r with
            | .ok c => c
            | .error _ => []
          (listLoop a dirPath recur rest).map
            (fun items => .mk relPath entry.1 "folder".toList fullPath children false :: items)
      else
        (listLoop a dirPath recur rest).map
          (fun items => .mk relPath entry.1 "file".toList fullPath [] false :: items)

/-- The method `readDirRecursive`: recursively reads a directory.  The file
system is only read.  `none` means the fuel ran out. -/
def readDirRecursive : Nat → App → World → Str → Str → Option (Except Errno (List FileItem))
  | 0, _, _, _, _ => Option.none
  | fuel + 1, a, w, dirPath, tool =>
    match readDir w dirPath with
    | .error e => some (.error e)
    | .ok entries =>
      (listLoop a dirPath (fun p => readDirRecursive fuel a w p tool)
        (sortSlice entryLess entries)).map .ok

/-- The method `ReadDirectory`: reads the directory structure for a tool. -/
def ReadDirectory (fuel : Nat) (a : App) (w : World) (tool : Str) :
    Option (FileSystemResponse × World) :=
  let toolPath := join a.storagePath tool
  match mkdirAll w toolPath with
  | .error e => some (failure ("Failed to create directory: ".toList ++ e.text), w)
  | .ok w1 =>
    match readDirRecursive fuel a w1 toolPath tool with
    | Option.none => Option.none
    | some (.error e) => some (failure ("Failed to read directory: ".toList ++ e.text), w1)
    | some (.ok items) => some (success (.items items), w1)

/-! ### Search (`GlobalSearch`) -/

/-- Go's `strings.ToLower`: every character is mapped by `unicode.ToLower`, here
the argument `lower`. -/
def toLower (lower : Char → Char) (s : Str) : Str := s.map lower

/-- Go's `strings.Index`: the position of the first instance of `substr` in a
string, `none` (Go: `-1`) when there is none. -/
def index (substr : Str) : Str → Option Nat
  | [] => if substr = [] then some 0 else Option.none
  | c :: cs =>
    if substr.isPrefixOf (c :: cs) then some 0 else (index substr cs).map (· + 1)

/-- The scan behind `strings.Count` for a non-empty `substr`: `skip` characters
of the last instance found are still to be passed over. -/
def countFrom (substr : Str) : Nat → Str → Nat
  | _, [] => 0
  | skip + 1, _ :: cs => countFrom substr skip cs
  | 0, c :: cs =>
    if substr.isPrefixOf (c :: cs) then countFrom substr (substr.length - 1) cs + 1
    else countFrom substr 0 cs

/-- Go's `strings.Count`: the number of non-overlapping instances of `substr`;
for the empty `substr`, one more than the number of characters. -/
def count (s substr : Str) : Nat :=
  if substr = [] then s.length + 1 else countFrom substr 0 s

/-- The type `SearchResult`. -/
structure SearchResult where
  FileID : Str
  FileName : Str
  ToolName : Str
  Count : Nat
  deriving DecidableEq

/-- The `for _, name := range names` loop of Go's `filepath.Walk` on the sorted
names of a directory; `recur` walks one of the entries. -/
def walkLoop {α : Type} (path : Str) (recur : Str → Option (List α)) :
    List (Str × Bool) → Option (List α)
  | [] => some []
  | entry :: rest =>
    match recur (join path entry.1) with
    | Option.none => Option.none
    | some rs => (walkLoop path recur rest).map (fun more => rs ++ more)

/-- Go's `filepath.Walk(root, fn)` for a callback `fn(path, info, err)` that
always returns `nil`, as the one of `GlobalSearch` does: the tree below `root`
is visited in lexical order, directories before their entries, and nothing is
skipped.  The callback is given the outcome of `os.Lstat`, or the error of
reading the directory, and answers with the results it appends.  `none` means
the fuel ran out. -/
def walk {α : Type} (fn : Str → Except Errno Node → List α) :
    Nat → World → Str → Option (List α)
  | 0, _, _ => Option.none
  | fuel + 1, w, path =>
    match stat w path with
    | .error e => some (fn path (.error e))
    | .ok node =>
      if !node.isDir then some (fn path (.ok node))
      else
        match readDir w path with
        | .error e => some (fn path (.error e))
        | .ok names =>
          (walkLoop path (fun p => walk fn fuel w p) names).map
            (fun more => fn path (.ok node) ++ more)

/-- The callback that `GlobalSearch` hands to `filepath.Walk`, as the results it
appends; `info.Name()` is the last element of the path.  `toLower` is
`strings.ToLower`. -/
def searchVisit (toLower : Str → Str) (a : App) (w : World) (query tool : Str)
    (path : Str) (info : Except Errno Node) : List SearchResult :=
  match info with
  | .error _ => []
  | .ok node =>
    if node.isDir then []
    else if hasPrefix (base path) ['.'] then []
    else
      match readFile w path with
      | .error _ => []
      | .ok contentBytes =>
        let content := toLower contentBytes
        let n := count content query
        if n > 0 then [⟨relID a path, base path, tool, n⟩] else []

/-- The tool scopes that `GlobalSearch` goes through. -/
def searchDirs : List Str := ["json".toList, "xml".toList, "base64".toList, "http".toList]

/-- The `for _, tool := range dirs` loop of `GlobalSearch`. -/
def searchLoop (toLower : Str → Str) (fuel : Nat) (a : App) (w : World) (query : Str) :
    List Str → Option (List SearchResult)
  | [] => some []
  | tool :: rest =>
    match walk (searchVisit toLower a w query tool) fuel w (join a.storagePath tool) with
    | Option.none => Option.none
    | some rs => (searchLoop toLower fuel a w query rest).map (fun more => rs ++ more)

/-- The method `GlobalSearch`: searches for a string in all files.  `lower` is
Go's `unicode.ToLower`, whose tables are not modelled.  `none` means the fuel
ran out. -/
def GlobalSearch (lower : Char → Char) (fuel : Nat) (a : App) (w : World) (query : Str) :
    Option (List SearchResult) :=
  if query = [] then some []
  else searchLoop (toLower lower) fuel a w (toLower lower query) searchDirs

/-! ## The XML codec (`xmlToMap`) -/

/-- Go's `unicode.IsSpace`. -/
def isSpace (c : Char) : Bool :=
  c = '\t' ∨ c = '\n' ∨ c.toNat = 0x0B ∨ c.toNat = 0x0C ∨ c = '\r' ∨ c = ' ' ∨
  c.toNat = 0x85 ∨ c.toNat = 0xA0 ∨ c.toNat = 0x1680 ∨
  (0x2000 ≤ c.toNat ∧ c.toNat ≤ 0x200A) ∨ c.toNat = 0x2028 ∨ c.toNat = 0x2029 ∨
  c.toNat = 0x202F ∨ c.toNat = 0x205F ∨ c.toNat = 0x3000

/-- Go's `strings.TrimSpace`: the string without leading and trailing white
space. -/
def trimSpace (s : Str) : Str :=
  ((s.dropWhile isSpace).reverse.dropWhile isSpace).reverse

/-- The type `xml.Name`. -/
structure Name where
  Space : Str
  Local : Str
  deriving DecidableEq

/-- The type `xml.Attr`. -/
structure Attr where
  Name : Name
  Value : Str
  deriving DecidableEq

/-- The type `xml.StartElement`. -/
structure StartElement where
  Name : Name
  Attr : List Attr
  deriving DecidableEq

/-- The tokens that `xmlToMap` passes over: `xml.Comment`, `xml.ProcInst` and
`xml.Directive`. -/
inductive OtherToken where
  | Comment (data : Str)
  | ProcInst (target inst : Str)
  | Directive (data : Str)
  deriving DecidableEq

/-- The type `xml.Token`. -/
inductive Token where
  | StartElement (t : StartElement)
  | EndElement (Name : Name)
  | CharData (data : Str)
  | Other (t : OtherToken)
  deriving DecidableEq

/-- The state of an `xml.Decoder` (strict, as `xml.NewDecoder` makes it): the
tokens that its tokenizer is still to deliver, the syntax error that the
tokenizer meets after them (`none`: the input ends there), and the names of
the elements that are open, the innermost first.  An empty element `<b/>` is a
start token followed by an end token.  The translation of name spaces changes
only `Name.Space` of the token that is returned, which `xmlToMap` never reads;
it is left out. -/
structure Decoder where
  input : List Token
  fail : Option Str
  stk : List Name

/-- What `Decoder.Token` returns: a token (and the decoder after it), `io.EOF`,
or a syntax error. -/
inductive TokenResult where
  | token (t : Token) (d : Decoder)
  | eof
  | error (msg : Str)

/-- The method `Decoder.Token`: the next token.  It keeps track of the open
elements: an end token must close the innermost open element, and the input
must not end while an element is open. -/
def Decoder.Token (d : Decoder) : TokenResult :=
  match d.input with
  | [] =>
    match d.fail with
    | some e => .error e
    | Option.none =>
      if d.stk ≠ [] then .error "XML syntax error: unexpected EOF".toList else .eof
  | .StartElement t :: rest => .token (.StartElement t) { d with input := rest, stk := t.Name :: d.stk }
  | .EndElement n :: rest =>
    match d.stk with
    | [] => .error ("XML syntax error: unexpected end element </".toList ++ n.Local ++ ['>'])
    | s :: st =>
      if s.Local ≠ n.Local then
        .error ("XML syntax error: element <".toList ++ s.Local ++ "> closed by </".toList
          ++ n.Local ++ ['>'])
      else if s.Space ≠ n.Space then
        .error ("XML syntax error: element <".toList ++ s.Local ++ "> in space ".toList
          ++ s.Space ++ " closed by </".toList ++ n.Local ++ "> in space ".toList ++ n.Space)
      else .token (.EndElement n) { d with input := rest, stk := st }
  | t :: rest => .token t { d with input := rest }

/-- The values that `xmlToMap` puts into its `map[string]interface{}`: a
`map[string]interface{}` (an element), a `[]interface{}` (repeated elements), a
`string` (text) and a `map[string]string` (attributes).  A map is the list of
its keys with their values, in the order in which the keys were first set. -/
inductive Value where
  | object (kv : List (Str × Value))
  | array (xs : List Value)
  | string (s : Str)
  | attrs (kv : List (Str × Str))

/-- Reading a map: `v, ok := m[k]`. -/
def mapGet {β : Type} (k : Str) : List (Str × β) → Option β
  | [] => Option.none
  | (k1, v) :: m => if k1 = k then some v else mapGet k m

/-- Writing a map: `m[k] = v`. -/
def mapSet {β : Type} (k : Str) (v : β) : List (Str × β) → List (Str × β)
  | [] => [(k, v)]
  | (k1, v1) :: m => if k1 = k then (k, v) :: m else (k1, v1) :: mapSet k v m

/-- The block `// Add attributes` of `xmlToMap`:
`for _, attr := range t.Attr { attrs[attr.Name.Local] = attr.Value }`. -/
def attrsOf (attr : List Attr) : List (Str × Str) :=
  attr.foldl (fun attrs x => mapSet x.Name.Local x.Value attrs) []

/-- The block `// Add attributes` of `xmlToMap`, with its test
`len(t.Attr) > 0`. -/
def addAttributes (t : StartElement) (child : List (Str × Value)) : List (Str × Value) :=
  if t.Attr.length > 0 then mapSet "@attributes".toList (.attrs (attrsOf t.Attr)) child
  else child

/-- The block `// Handle multiple elements with same name` of `xmlToMap`. -/
def mergeChild (currentElement : Str) (child : List (Str × Value))
    (result : List (Str × Value)) : List (Str × Value) :=
  match mapGet currentElement result with
  | some (.array v) => mapSet currentElement (.array (v ++ [.object child])) result
  | some v => mapSet currentElement (.array [v, .object child]) result
  | Option.none => mapSet currentElement (.object child) result

/-- The block `// Return text content if no children` of `xmlToMap`. -/
def addText (textContent : Str) (result : List (Str × Value)) : List (Str × Value) :=
  if result.length = 0 ∧ textContent.length > 0 then
    mapSet "#text".toList (.string textContent) result
  else if textContent.length > 0 then mapSet "#text".toList (.string textContent) result
  else result

/-- The `for` loop of `xmlToMap` with its state: the decoder, `result` and
`textContent`.  It returns the map and the decoder as it is left, or the
error; `none` means the fuel ran out. -/
def xmlLoop : Nat → Decoder → Option StartElement → List (Str × Value) → Str →
    Option (Except Str (List (Str × Value) × Decoder))
  | 0, _, _, _, _ => Option.none
  | fuel + 1, d, start, result, textContent =>
    match d.Token with
    | .eof => some (.ok (result, d))
    | .error e => some (.error e)
    | .token (.StartElement t) d1 =>
      match xmlLoop fuel d1 (some t) [] [] with
      | Option.none => Option.none
      | some (.error e) => some (.error e)
      | some (.ok (child, d2)) =>
        match start with
        | Option.none =>
          xmlLoop fuel d2 start (mapSet t.Name.Local (.object (addAttributes t child)) result)
            textContent
        | some _ =>
          xmlLoop fuel d2 start (mergeChild t.Name.Local (addAttributes t child) result)
            textContent
    | .token (.CharData data) d1 =>
      let text := trimSpace data
      xmlLoop fuel d1 start result (if text ≠ [] then textContent ++ text else textContent)
    | .token (.EndElement n) d1 =>
      match start with
      | some s =>
        if n.Local = s.Name.Local then some (.ok (addText textContent result, d1))
        else xmlLoop fuel d1 start result textContent
      | Option.none => xmlLoop fuel d1 start result textContent
    | .token (.Other _) d1 => xmlLoop fuel d1 start result textContent

/-- The function `xmlToMap`: recursively converts XML to a map structure. -/
def xmlToMap (fuel : Nat) (decoder : Decoder) (start : Option StartElement) :
    Option (Except Str (List (Str × Value) × Decoder)) :=
  xmlLoop fuel decoder start [] []

/-! ## The Base64 tool (`DecodeBase64`, `isValidUTF8`) -/

/-- The body of the loop of `isValidUTF8` up to its test: the rune `r` and the
`size` that it works out for the front of a non-empty `data`.  A byte is a
natural number below 256; a rune (`int32`) is a natural number, as the shifts
stay below `2^21`. -/
def decodeFront (data : List Nat) : Nat × Nat :=
  let b0 := data.getD 0 0
  if b0 ≥ 0x80 then
    if b0 &&& 0xE0 = 0xC0 ∧ data.length ≥ 2 ∧ data.getD 1 0 &&& 0xC0 = 0x80 then
      ((b0 &&& 0x1F) <<< 6 ||| (data.getD 1 0 &&& 0x3F), 2)
    else if b0 &&& 0xF0 = 0xE0 ∧ data.length ≥ 3 ∧ data.getD 1 0 &&& 0xC0 = 0x80 ∧
        data.getD 2 0 &&& 0xC0 = 0x80 then
      ((b0 &&& 0x0F) <<< 12 ||| (data.getD 1 0 &&& 0x3F) <<< 6 ||| (data.getD 2 0 &&& 0x3F), 3)
    else if b0 &&& 0xF8 = 0xF0 ∧ data.length ≥ 4 ∧ data.getD 1 0 &&& 0xC0 = 0x80 ∧
        data.getD 2 0 &&& 0xC0 = 0x80 ∧ data.getD 3 0 &&& 0xC0 = 0x80 then
      ((b0 &&& 0x07) <<< 18 ||| (data.getD 1 0 &&& 0x3F) <<< 12 |||
        (data.getD 2 0 &&& 0x3F) <<< 6 ||| (data.getD 3 0 &&& 0x3F), 4)
    else (0xFFFD, 1)
  else (b0, 1)

/-- The function `isValidUTF8`: checks if byte slice is valid UTF-8.  `none`
means the fuel ran out. -/
def isValidUTF8 : Nat → List Nat → Option Bool
  | 0, _ => Option.none
  | fuel + 1, data =>
    if data.length > 0 then
      let rs := decodeFront data
      if rs.1 = 0xFFFD ∧ rs.2 = 1 then some false
      else isValidUTF8 fuel (data.drop rs.2)
    else some true

/-- What a run of `isValidUTF8` comes to when the run-time checks of Go are
counted: a result, a run-time panic (an index or a slice bound out of range),
or the fuel running out. -/
inductive Run where
  | result (b : Bool)
  | panic
  | outOfFuel
  deriving DecidableEq

/-- Go's index expression `data[i]`: `none` is the run-time panic for an index
out of range. -/
def byteAt (data : List Nat) (i : Nat) : Option Nat := data[i]?

/-- Go's slice expression `data[n:]`: `none` is the run-time panic for a bound
out of range. -/
def sliceFrom (data : List Nat) (n : Nat) : Option (List Nat) :=
  if n ≤ data.length then some (data.drop n) else Option.none

/-- Go's `a && b`, where evaluating `b` may panic: `b` is not evaluated when `a`
is false. -/
def andAlso (a : Bool) (b : Option Bool) : Option Bool := if a then b else some false

/-- The body of the loop of `isValidUTF8` up to its test, as `decodeFront`, with
every index expression checked: `none` is a run-time panic. -/
def decodeFrontChecked (data : List Nat) : Option (Nat × Nat) :=
  (byteAt data 0).bind fun b0 =>
  if b0 ≥ 0x80 then
    (andAlso (b0 &&& 0xE0 = 0xC0) (andAlso (data.length ≥ 2)
      ((byteAt data 1).map fun b1 => decide (b1 &&& 0xC0 = 0x80)))).bind fun c2 =>
    if c2 then
      (byteAt data 1).map fun b1 => ((b0 &&& 0x1F) <<< 6 ||| (b1 &&& 0x3F), 2)
    else
      (andAlso (b0 &&& 0xF0 = 0xE0) (andAlso (data.length ≥ 3)
        ((byteAt data 1).bind fun b1 => andAlso (b1 &&& 0xC0 = 0x80)
          ((byteAt data 2).map fun b2 => decide (b2 &&& 0xC0 = 0x80))))).bind fun c3 =>
      if c3 then
        (byteAt data 1).bind fun b1 => (byteAt data 2).map fun b2 =>
          ((b0 &&& 0x0F) <<< 12 ||| (b1 &&& 0x3F) <<< 6 ||| (b2 &&& 0x3F), 3)
      else
        (andAlso (b0 &&& 0xF8 = 0xF0) (andAlso (data.length ≥ 4)
          ((byteAt data 1).bind fun b1 => andAlso (b1 &&& 0xC0 = 0x80)
            ((byteAt data 2).bind fun b2 => andAlso (b2 &&& 0xC0 = 0x80)
              ((byteAt data 3).map fun b3 => decide (b3 &&& 0xC0 = 0x80)))))).bind fun c4 =>
        if c4 then
          (byteAt data 1).bind fun b1 => (byteAt data 2).bind fun b2 =>
            (byteAt data 3).map fun b3 =>
              ((b0 &&& 0x07) <<< 18 ||| (b1 &&& 0x3F) <<< 12 ||| (b2 &&& 0x3F) <<< 6 |||
                (b3 &&& 0x3F), 4)
        else some (0xFFFD, 1)
  else some (b0, 1)

/-- The function `isValidUTF8` with the run-time checks of its index and slice
expressions. -/
def isValidUTF8Checked : Nat → List Nat → Run
  | 0, _ => .outOfFuel
  | fuel + 1, data =>
    if data.length > 0 then
      match decodeFrontChecked data with
      | Option.none => .panic
      | some rs =>
        if rs.1 = 0xFFFD ∧ rs.2 = 1 then .result false
        else
          match sliceFrom data rs.2 with
          | Option.none => .panic
          | some rest => isValidUTF8Checked fuel rest
    else .result true

/-- The type `JSONFormatResponse`; `Result` is a Go string, given by the bytes
it holds. -/
structure JSONFormatResponse where
  Result : List Nat
  Error : Str
  deriving DecidableEq

/-- The method `DecodeBase64`: decodes base64 to string.  `decodeString` is
Go's `base64.StdEncoding.DecodeString`, which is not modelled. -/
def DecodeBase64 (decodeString : Str → Except Str (List Nat)) (fuel : Nat) (content : Str) :
    Option JSONFormatResponse :=
  let content := trimSpace content
  match decodeString content with
  | .error e => some ⟨[], "Invalid Base64: ".toList ++ e⟩
  | .ok decoded =>
    match isValidUTF8 fuel decoded with
    | Option.none => Option.none
    | some false =>
      some ⟨decoded, "Warning: Decoded content contains non-UTF-8 characters".toList⟩
    | some true => some ⟨decoded, []⟩

/-! ## Notions of the specification

These follow the words of the specification, not the source. -/

/-- A single path element that names an entry: not empty, not `.` or `..`, and
without a separator. -/
def validSeg (s : Str) : Prop := s ≠ [] ∧ s ≠ ['.'] ∧ s ≠ ['.', '.'] ∧ '/' ∉ s

instance : DecidablePred validSeg := fun s => by unfold validSeg; infer_instance

/-- Whether the normalized form of a path is the workspace root or a descendant
of it, compared element by element. -/
def insideRoot (a : App) (w : World) (p : Str) : Bool :=
  (resolve w a.storagePath).isPrefixOf (resolve w p)

/-- Splits a name at its last `.` into stem and extension; the extension is
empty when the name has no `.`. -/
def splitExt : Str → Str × Str
  | [] => ([], [])
  | c :: cs =>
    let r := splitExt cs
    if r.2 ≠ [] then (c :: r.1, r.2)
    else if c = '.' then ([], c :: cs)
    else (c :: r.1, [])

/-- The names to try for a new file, in order: `desiredName`, `stem_1ext`,
`stem_2ext`, ... -/
def fileCandidate (desiredName : Str) (k : Nat) : Str :=
  if k = 0 then desiredName
  else (splitExt desiredName).1 ++ '_' :: itoa k ++ (splitExt desiredName).2

/-- The names to try for a new folder, in order: `desiredName`, `desiredName_1`,
`desiredName_2`, ... -/
def folderCandidate (desiredName : Str) (k : Nat) : Str :=
  if k = 0 then desiredName else desiredName ++ '_' :: itoa k

/-- The names to try for the copy of a file called `name`, in order: `name`,
`stem_copy_1ext`, `stem_copy_2ext`, ... -/
def copyCandidate (name : Str) (k : Nat) : Str :=
  if k = 0 then name
  else (splitExt name).1 ++ "_copy_".toList ++ itoa k ++ (splitExt name).2

/-! ### Listing and search -/

/-- The hidden-entry marker: a name beginning with `.`. -/
def isHidden (name : Str) : Bool := hasPrefix name ['.']

mutual
/-- A directory tree as a file system holds it: every entry name is a single
path element, and no directory holds a name twice. -/
def Node.wf : Node → Bool
  | .file _ => true
  | .dir es => wfEntries es
/-- The entries of a directory of such a tree. -/
def wfEntries : List (Str × Node) → Bool
  | [] => true
  | e :: es => decide (validSeg e.1) && (lookupE e.1 es).isNone && e.2.wf && wfEntries es
end

mutual
/-- The number of directory levels of a tree: it bounds the recursion of a
traversal. -/
def Node.depth : Node → Nat
  | .file _ => 0
  | .dir es => depthEntries es + 1
/-- The largest depth among the entries of a directory. -/
def depthEntries : List (Str × Node) → Nat
  | [] => 0
  | e :: es => max e.2.depth (depthEntries es)
end

/-- The field `ID` of a `FileItem`. -/
def FileItem.ID : FileItem → Str
  | .mk id _ _ _ _ _ => id

/-- The field `Name` of a `FileItem`. -/
def FileItem.Name : FileItem → Str
  | .mk _ name _ _ _ _ => name

/-- The field `Type` of a `FileItem`. -/
def FileItem.Typ : FileItem → Str
  | .mk _ _ typ _ _ _ => typ

/-- The field `Path` of a `FileItem`. -/
def FileItem.Path : FileItem → Str
  | .mk _ _ _ path _ _ => path

/-- The field `Children` of a `FileItem`. -/
def FileItem.Children : FileItem → List FileItem
  | .mk _ _ _ _ children _ => children

/-- The name of a listed entry and whether it is listed as a folder. -/
def FileItem.kind (it : FileItem) : Str × Bool := (it.Name, decide (it.Typ = "folder".toList))

/-- The order of a listing on entries given as name and folder flag: a folder
comes before a file, and within one kind the smaller name comes first. -/
def listedBefore (x y : Str × Bool) : Prop :=
  (x.2 = true ∧ y.2 = false) ∨ (x.2 = y.2 ∧ x.1 < y.1)

/-- What the specification asks of the listing `items` of the directory at
`dirPath`: it holds exactly the entries of the directory that are not hidden,
each under its name, kind and path; folders come before files and names ascend
within each kind; and the children of every listed folder are a listing of
that folder in the same sense, while a listed file has no children. -/
inductive Listing (w : World) : Str → List FileItem → Prop where
  | intro (dirPath : Str) (items : List FileItem) (es : List (Str × Node))
      (hdir : stat w dirPath = .ok (.dir es))
      (hexact : ∀ n d, (n, d) ∈ items.map FileItem.kind ↔
        (isHidden n = false ∧ ∃ c, (n, c) ∈ es ∧ c.isDir = d))
      (hsorted : (items.map FileItem.kind).Pairwise listedBefore)
      (htyp : ∀ it ∈ items, it.Typ = "folder".toList ∨ it.Typ = "file".toList)
      (hpath : ∀ it ∈ items, it.Path = join dirPath it.Name)
      (hfile : ∀ it ∈ items, it.Typ = "file".toList → it.Children = [])
      (hfolder : ∀ it ∈ items, it.Typ = "folder".toList → Listing w it.Path it.Children) :
      Listing w dirPath items

mutual
/-- The identifiers of an entry and of everything listed below it. -/
def FileItem.ids : FileItem → List Str
  | .mk id _ _ _ children _ => id :: idsList children
/-- The identifiers of all entries of a returned tree. -/
def idsList : List FileItem → List Str
  | [] => []
  | it :: rest => it.ids ++ idsList rest
end

/-- What the specification asks of the identifiers in a listing whose parent has
the identifier `pid`: the identifier of every entry is `pid`, a separator and
the name of the entry; it is the path of the entry relative to the workspace
root; and the same holds for the children of every entry, with the entry as
parent. -/
inductive IdsFrom (root : Str) : Str → List FileItem → Prop where
  | intro (pid : Str) (items : List FileItem)
      (hid : ∀ it ∈ items, it.ID = pid ++ '/' :: it.Name)
      (hrel : ∀ it ∈ items, rel root it.Path = some it.ID)
      (hchildren : ∀ it ∈ items, IdsFrom root it.ID it.Children) :
      IdsFrom root pid items

/-- The names of the entries of a listing, in order. -/
def itemNames (items : List FileItem) : List Str := items.map FileItem.Name

mutual
/-- The regular files of a tree in the order of a lexical walk, each with the
path elements that lead to it (after the elements `p` of the tree itself) and
its content. -/
def Node.files : List Str → Node → List (List Str × Str)
  | p, .file c => [(p, c)]
  | p, .dir es =>
    (((filesEntries p es).insertionSort (fun x y => x.1 ≤ y.1)).map (fun x => x.2)).flatten
/-- The files below each entry of a directory, by entry name. -/
def filesEntries : List Str → List (Str × Node) → List (Str × List (List Str × Str))
  | _, [] => []
  | p, e :: es => (e.1, e.2.files (p ++ [e.1])) :: filesEntries p es
end

/-- The files that the search looks into for one tool scope: every regular file
at or below `root/tool` whose own name is not hidden. -/
def searchedFiles (w : World) (root : List Str) (tool : Str) : List (List Str × Str) :=
  match w.tree.stat (root ++ [tool]) with
  | .ok node => (node.files (root ++ [tool])).filter (fun f => !isHidden (f.1.getLastD []))
  | .error _ => []

/-- The result the specification asks for a searched file: none when the
lower-cased content has no occurrence of the lower-cased query; else the path
relative to the root, the name, the tool scope and the number of occurrences. -/
def searchHit (lower : Char → Char) (root : List Str) (query tool : Str)
    (f : List Str × Str) : Option SearchResult :=
  let n := count (toLower lower f.2) (toLower lower query)
  if n > 0 then some ⟨joinSep (f.1.drop root.length), f.1.getLastD [], tool, n⟩ else Option.none

/-- The results the specification asks of a search: the hits of the searched
files, tool scope by tool scope. -/
def searchSpec (lower : Char → Char) (a : App) (w : World) (query : Str) : List SearchResult :=
  (searchDirs.map (fun tool =>
    (searchedFiles w (resolve w a.storagePath) tool).filterMap
      (searchHit lower (resolve w a.storagePath) query tool))).flatten

/-! ### XML documents -/

/-- The content of an XML document as a tree: an element with its name, its
attributes and what it holds, a chunk of character data, or a comment,
processing instruction or directive. -/
inductive Content where
  | elem (name : Name) (attr : List Attr) (children : List Content)
  | text (data : Str)
  | other (t : OtherToken)

mutual
/-- The token stream of a piece of content. -/
def Content.tokens : Content → List Token
  | .elem n as cs => .StartElement ⟨n, as⟩ :: (tokensList cs ++ [.EndElement n])
  | .text s => [.CharData s]
  | .other t => [.Other t]
/-- The token stream of a sequence of content. -/
def tokensList : List Content → List Token
  | [] => []
  | c :: cs => c.tokens ++ tokensList cs
end

/-- The local tag name of a piece of content, if it is an element. -/
def Content.tag : Content → Option Str
  | .elem n _ _ => some n.Local
  | _ => Option.none

/-- The character data of a chunk directly inside an element, trimmed; empty
for anything else. -/
def Content.chunk : Content → Str
  | .text s => trimSpace s
  | _ => []

/-- The text of an element: its trimmed chunks, concatenated in document
order. -/
def textOf (cs : List Content) : Str := (cs.map Content.chunk).flatten

mutual
/-- The node that the specification describes for an element: its child
elements merged by tag name, then `#text` if it has text, then `@attributes`
if its start tag has attributes. -/
def Content.node : Content → List (Str × Value)
  | .elem n as cs => addAttributes ⟨n, as⟩ (addText (textOf cs) (mergeAll cs []))
  | _ => []
/-- Merging the child elements among `cs` into a parent node, in document
order, by the sibling-normalization rule. -/
def mergeAll : List Content → List (Str × Value) → List (Str × Value)
  | [], r => r
  | c :: cs, r =>
    mergeAll cs (match c.tag with
      | some tag => mergeChild tag c.node r
      | Option.none => r)
end

/-- The nodes of the child elements with a given local tag name, in document
order. -/
def childNodes (tag : Str) (cs : List Content) : List (List (Str × Value)) :=
  (cs.filter (fun c => c.tag = some tag)).map Content.node

/-- Putting the top-level elements among `cs` into the mapping that `xmlToMap`
returns for a document, in document order: each by the plain assignment
`result[t.Name.Local] = child`, so that an element replaces what an earlier
element of the same local tag name has put (the sibling rule of `mergeAll` is
not applied at the top level). -/
def putAll : List Content → List (Str × Value) → List (Str × Value)
  | [], r => r
  | c :: cs, r =>
    putAll cs (match c.tag with
      | some tag => mapSet tag (.object c.node) r
      | Option.none => r)

/-- The node, as a value, of the last element with a given local tag name
among `cs`; nothing when no element among them has that name. -/
def lastNode (tag : Str) (cs : List Content) : Option Value :=
  (childNodes tag cs).getLast?.map .object

/-- The open elements after a run of tokens, starting from the open elements
`stk`; `none` when an end tag does not close the innermost open element. -/
def scan : List Name → List Token → Option (List Name)
  | stk, [] => some stk
  | stk, .StartElement t :: rest => scan (t.Name :: stk) rest
  | [], .EndElement _ :: _ => Option.none
  | s :: stk, .EndElement n :: rest => if s = n then scan stk rest else Option.none
  | stk, _ :: rest => scan stk rest

/-- A token stream is well nested when its start and end tags are balanced and
no element is open at its end. -/
def wellNested (tokens : List Token) : Bool := scan [] tokens = some []

/-- A name as the tokenizer delivers it holds neither `@` nor `#`, so that it
differs from the keys `@attributes` and `#text`. -/
def xmlName (s : Str) : Prop := '@' ∉ s ∧ '#' ∉ s

instance : DecidablePred xmlName := fun s => by unfold xmlName; infer_instance

/-- The value that sibling normalization asks under a tag for the nodes of the
child elements with that tag: nothing when there is none, the node itself when
there is one, and an array of the nodes in document order when there are
more. -/
def siblings : List (List (Str × Value)) → Option Value
  | [] => Option.none
  | [x] => some (.object x)
  | xs => some (.array (xs.map .object))

/-- The value of the last attribute with a given local name. -/
def lastAttr (k : Str) (attr : List Attr) : Option Str :=
  (attr.reverse.find? (fun x => x.Name.Local = k)).map (fun x => x.Value)

/-! ### UTF-8 -/

/-- Whether a byte is a continuation byte within given bounds. -/
def inRange (lo hi b : Nat) : Bool := lo ≤ b ∧ b ≤ hi

/-- Well-formed UTF-8 (the Unicode Standard, table 3-7): a sequence of encoded
scalar values, each in its shortest form; no continuation byte stands alone, no
sequence is cut short, and there are no surrogates (`U+D800` to `U+DFFF`) and
nothing above `U+10FFFF`. -/
def wellFormedUTF8 : List Nat → Bool
  | [] => true
  | b0 :: t =>
    if b0 ≤ 0x7F then wellFormedUTF8 t
    else
      match t with
      | [] => false
      | b1 :: t1 =>
        if inRange 0xC2 0xDF b0 && inRange 0x80 0xBF b1 then wellFormedUTF8 t1
        else
          match t1 with
          | [] => false
          | b2 :: t2 =>
            if (b0 = 0xE0 && inRange 0xA0 0xBF b1 && inRange 0x80 0xBF b2)
                || (inRange 0xE1 0xEC b0 && inRange 0x80 0xBF b1 && inRange 0x80 0xBF b2)
                || (b0 = 0xED && inRange 0x80 0x9F b1 && inRange 0x80 0xBF b2)
                || (inRange 0xEE 0xEF b0 && inRange 0x80 0xBF b1 && inRange 0x80 0xBF b2) then
              wellFormedUTF8 t2
            else
              match t2 with
              | [] => false
              | b3 :: t3 =>
                if (b0 = 0xF0 && inRange 0x90 0xBF b1 && inRange 0x80 0xBF b2
                      && inRange 0x80 0xBF b3)
                    || (inRange 0xF1 0xF3 b0 && inRange 0x80 0xBF b1 && inRange 0x80 0xBF b2
                      && inRange 0x80 0xBF b3)
                    || (b0 = 0xF4 && inRange 0x80 0x8F b1 && inRange 0x80 0xBF b2
                      && inRange 0x80 0xBF b3) then
                  wellFormedUTF8 t3
                else false

/-- The UTF-8 encoding of a code point below `2^21` (as Go's `utf8.EncodeRune`
and RFC 3629 give it): one to four bytes. -/
def encodeRune (c : Nat) : List Nat :=
  if c < 0x80 then [c]
  else if c < 0x800 then [0xC0 ||| (c >>> 6), 0x80 ||| (c &&& 0x3F)]
  else if c < 0x10000 then
    [0xE0 ||| (c >>> 12), 0x80 ||| ((c >>> 6) &&& 0x3F), 0x80 ||| (c &&& 0x3F)]
  else
    [0xF0 ||| (c >>> 18), 0x80 ||| ((c >>> 12) &&& 0x3F), 0x80 ||| ((c >>> 6) &&& 0x3F),
      0x80 ||| (c &&& 0x3F)]

/-- The UTF-8 encoding of a string of Unicode scalar values (the characters of
Lean are the Unicode scalar values): the bytes of the string. -/
def encodeUTF8 (s : Str) : List Nat := (s.map (fun c => encodeRune c.toNat)).flatten

/-! ### Paths that the operating system takes -/

/-- The longest element of a path, in bytes (`NAME_MAX`). -/
def nameMax : Nat := 255

/-- The bound on the length of a whole path in bytes, the terminating NUL
counted (`PATH_MAX`): the value of macOS, the smaller one, so that a path
within it is within the 4096 of Linux too. -/
def pathMax : Nat := 1024

/-- A path that a system call takes as it is: it holds no NUL character (Go
answers `EINVAL` to one before it makes the call), it is shorter than
`pathMax` bytes and none of its elements is longer than `nameMax` bytes (the
kernel answers `ENAMETOOLONG` otherwise).  Lengths are those of the UTF-8
encoding. -/
def legalPath (p : Str) : Bool :=
  !p.contains (Char.ofNat 0) &&
  decide ((encodeUTF8 p).length < pathMax) &&
  (splitSep p).all (fun s => decide ((encodeUTF8 s).length ≤ nameMax))

/-- What lies in a tree at a path, if anything does. -/
def Node.find : Node → List Str → Option Node
  | t, [] => some t
  | .file _, _ :: _ => Option.none
  | .dir es, s :: p =>
    match lookupE s es with
    | Option.none => Option.none
    | some c => c.find p

/-- Whether a path runs through a regular file: some element of the path but
the last names a regular file, with further elements to follow. -/
def Node.throughFile : Node → List Str → Bool
  | _, [] => false
  | .file _, _ :: _ => true
  | .dir es, s :: p =>
    match lookupE s es with
    | Option.none => false
    | some c => c.throughFile p

/-- Whether something exists at a path: a file or a directory lies where the
normalized path leads. -/
def existsAt (w : World) (p : Str) : Bool := (w.tree.find (resolve w p)).isSome

/-- Whether a path leads below a regular file. -/
def belowFile (w : World) (p : Str) : Bool := w.tree.throughFile (resolve w p)

/-! ## Observations and auxiliary definitions -/

/-- The value of a key of a `map[string]string` response. -/
def Data.field : Data → Str → Option Str
  | .fields kv, k => (kv.find? (fun e => e.1 = k)).map Prod.snd
  | _, _ => Option.none

/-- The `Name` of the `FileItem` of a response. -/
def Data.itemName : Data → Option Str
  | .item (.mk _ name _ _ _ _) => some name
  | _ => Option.none

/-- The `Path` of the `FileItem` of a response. -/
def Data.itemPath : Data → Option Str
  | .item (.mk _ _ _ path _ _) => some path
  | _ => Option.none

/-- The directory `CreateFile` and `CreateFolder` work in: the parent path, or
the tool's directory below the root when the parent path is empty. -/
def targetDir (a : App) (tool parentPath : Str) : Str :=
  if parentPath = [] then join a.storagePath tool else parentPath

/-- The candidates a probing loop visits: the starting one, then `next c`,
`next (c + 1)`, ... where `c` is the starting value of the counter. -/
def probeSeq {α : Type} (next : Nat → α) (c : Nat) (cur : α) : Nat → α
  | 0 => cur
  | j + 1 => next (c + j)

/-- What a lookup finds where an entry was put (`some`) or removed (`none`). -/
def foundAt : Option Node → Except Errno Node
  | some v => .ok v
  | none => .error .ENOENT

/-- The value of a decimal digit character. -/
def digitVal (c : Char) : Nat := c.toNat - 48

/-- The number a string of decimal digits stands for. -/
def atoi (s : Str) : Nat := s.foldl (fun acc c => 10 * acc + digitVal c) 0

/-! ## A sample world -/

/-- A sample application: the workspace root is `/a/b`. -/
def sampleApp : App := ⟨"/a/b".toList⟩

/-- The entries of the sample folder `v1.0`: one folder `d` holding the files
`x` and `x_1`. -/
def sampleFolder : List (Str × Node) :=
  [("d".toList, .dir [("x".toList, .file []), ("x_1".toList, .file [])])]

/-- The entries of the sample workspace: the files `note.txt`, `x.txt` and
`x_1.txt` and the folder `v1.0`. -/
def sampleWorkspace : List (Str × Node) :=
  [("note.txt".toList, .file "hello".toList),
   ("x.txt".toList, .file "one".toList),
   ("x_1.txt".toList, .file []),
   ("v1.0".toList, .dir sampleFolder)]

/-- A sample world: the workspace lies at `/a/b`; next to it lies the directory
`/a/bc` with a file `secret`; the working directory is `/home`. -/
def sampleWorld : World :=
  { cwd := ["home".toList]
    tree := .dir
      [("a".toList, .dir
        [("b".toList, .dir sampleWorkspace),
         ("bc".toList, .dir [("secret".toList, .file "s".toList)])]),
       ("home".toList, .dir [])] }

/-- A sample application: the workspace root is `/ws`. -/
def listApp : App := ⟨"/ws".toList⟩

/-- The entries of the sample tool scope `json`: the hidden file `.hidden`, the
files `b.txt` and `f1.json`, the folder `A` (with a file, a hidden folder and an
empty folder) and the hidden folder `.git` with the file `config`. -/
def listScope : List (Str × Node) :=
  [(".hidden".toList, .file "a needle".toList),
   ("b.txt".toList, .file "hay".toList),
   ("f1.json".toList, .file "A needle and a NEEDLE".toList),
   ("A".toList, .dir
     [("z.txt".toList, .file "straw".toList),
      (".cache".toList, .dir [("tmp".toList, .file "hay".toList)]),
      ("a".toList, .dir [])]),
   (".git".toList, .dir [("config".toList, .file "secret key".toList)])]

/-- A sample world: below the workspace root `/ws` lie the tool scopes `json`
(see `listScope`), `xml` (one file) and `http` (empty); `base64` is missing. -/
def listWorld : World :=
  { cwd := []
    tree := .dir
      [("ws".toList, .dir
        [("json".toList, .dir listScope),
         ("xml".toList, .dir [("a.xml".toList, .file "<hay/>".toList)]),
         ("http".toList, .dir [])])] }

/-- The directory of the example of the specification: the hidden file
`.hidden`, the file `b.txt` and the folder `A`, as the tool scope `json` below
the workspace root `/ws`. -/
def exampleWorld : World :=
  { cwd := []
    tree := .dir
      [("ws".toList, .dir
        [("json".toList, .dir
          [(".hidden".toList, .file []),
           ("b.txt".toList, .file []),
           ("A".toList, .dir [])])])] }

/-- A stand-in for `base64.StdEncoding.DecodeString` that knows three Base64
texts: `wIA=` (the bytes `C0 80`), `7aCA` (`ED A0 80`) and `9JCAgA==`
(`F4 90 80 80`). -/
def sampleDecodeString (s : Str) : Except Str (List Nat) :=
  if s = "wIA=".toList then .ok [0xC0, 0x80]
  else if s = "7aCA".toList then .ok [0xED, 0xA0, 0x80]
  else if s = "9JCAgA==".toList then .ok [0xF4, 0x90, 0x80, 0x80]
  else .error "illegal base64 data".toList

/-! ## Facts about paths -/


theorem splitSep_ne_nil (s : Str) : splitSep s ≠ [] := by
  cases s with
  | nil => simp [splitSep]
  | cons c cs =>
    unfold splitSep
    split
    · simp
    · split <;> simp

theorem splitSep_append (a b : Str) : splitSep (a ++ '/' :: b) = splitSep a ++ splitSep b := by
  induction a with
  | nil => simp [splitSep]
  | cons c cs ih =>
    by_cases hc : c = '/'
    · simp [splitSep, hc, ih]
    · have h1 := splitSep_ne_nil cs
      rcases hs : splitSep cs with _ | ⟨h, t⟩
      · exact absurd hs h1
      · simp [splitSep, hc, ih, hs]

theorem splitSep_of_noSep {s : Str} (h : '/' ∉ s) : splitSep s = [s] := by
  induction s with
  | nil => rfl
  | cons c cs ih =>
    have hc : c ≠ '/' := fun e => h (by simp [e])
    have hcs : '/' ∉ cs := fun e => h (List.mem_cons_of_mem _ e)
    simp [splitSep, hc, ih hcs]

theorem noSep_of_mem_splitSep (s : Str) : ∀ x ∈ splitSep s, '/' ∉ x := by
  induction s with
  | nil => simp [splitSep]
  | cons c cs ih =>
    by_cases hc : c = '/'
    · simp only [splitSep, hc, if_true]
      intro x hx
      rcases List.mem_cons.1 hx with rfl | hx
      · simp
      · exact ih x hx
    · rcases hs : splitSep cs with _ | ⟨h, t⟩
      · exact absurd hs (splitSep_ne_nil cs)
      · simp only [splitSep, hc, if_false, hs]
        intro x hx
        rw [hs] at ih
        rcases List.mem_cons.1 hx with rfl | hx
        · have := ih h (by simp)
          simp only [List.mem_cons, not_or]
          exact ⟨fun e => hc e.symm, this⟩
        · exact ih x (List.mem_cons_of_mem _ hx)

theorem splitSep_joinSep (l : List Str) (hl : l ≠ []) (h : ∀ x ∈ l, '/' ∉ x) :
    splitSep (joinSep l) = l := by
  induction l with
  | nil => exact absurd rfl hl
  | cons a t ih =>
    cases t with
    | nil => simpa [joinSep] using splitSep_of_noSep (h a (by simp))
    | cons b t =>
      have h1 : joinSep (a :: b :: t) = a ++ '/' :: joinSep (b :: t) := rfl
      rw [h1, splitSep_append, splitSep_of_noSep (h a (by simp)),
        ih (by simp) (fun x hx => h x (List.mem_cons_of_mem _ hx))]
      rfl


theorem isAbs_cons (c : Char) (cs : Str) : isAbs (c :: cs) = decide (c = '/') := by
  simp [isAbs, hasPrefix, List.isPrefixOf]
  by_cases h : c = '/' <;> simp [h]
  exact fun e => h e.symm

theorem isAbs_nil : isAbs [] = false := by simp [isAbs, hasPrefix, List.isPrefixOf]

theorem isAbs_iff (p : Str) : isAbs p = true ↔ ∃ t, p = '/' :: t := by
  cases p with
  | nil => simp [isAbs_nil]
  | cons c cs => simp [isAbs_cons]

theorem cleanStep_valid (r : Bool) (st : List Str) {n : Str} (h : validSeg n) :
    cleanStep r st n = n :: st := by
  obtain ⟨h1, h2, h3, _⟩ := h
  simp [cleanStep, h1, h2, h3]

theorem foldl_cleanStep_valid (r : Bool) (l : List Str) (h : ∀ x ∈ l, validSeg x) :
    ∀ st, l.foldl (cleanStep r) st = l.reverse ++ st := by
  induction l with
  | nil => simp
  | cons a t ih =>
    intro st
    rw [List.foldl_cons, cleanStep_valid r st (h a (by simp)),
      ih (fun x hx => h x (List.mem_cons_of_mem _ hx))]
    simp

theorem cleanStep_true_valid (st : List Str) (seg : Str) (hst : ∀ x ∈ st, validSeg x)
    (hseg : '/' ∉ seg) : ∀ x ∈ cleanStep true st seg, validSeg x := by
  unfold cleanStep
  split
  · exact hst
  · rename_i h1
    split
    · cases st with
      | nil => simp
      | cons top rest =>
        have htop := hst top (by simp)
        have : top ≠ ['.', '.'] := htop.2.2.1
        simp only [this, if_false]
        exact fun x hx => hst x (List.mem_cons_of_mem _ hx)
    · rename_i h2
      intro x hx
      rcases List.mem_cons.1 hx with rfl | hx
      · exact ⟨fun e => h1 (Or.inl e), fun e => h1 (Or.inr e), h2, hseg⟩
      · exact hst x hx

theorem foldl_cleanStep_true_valid (l : List Str) (hl : ∀ x ∈ l, '/' ∉ x) :
    ∀ st, (∀ x ∈ st, validSeg x) → ∀ x ∈ l.foldl (cleanStep true) st, validSeg x := by
  induction l with
  | nil => intro st hst; simpa using hst
  | cons a t ih =>
    intro st hst
    rw [List.foldl_cons]
    exact ih (fun x hx => hl x (List.mem_cons_of_mem _ hx)) _
      (cleanStep_true_valid st a hst (hl a (by simp)))

theorem cleanSegs_true_valid (p : Str) : ∀ x ∈ cleanSegs true p, validSeg x := by
  intro x hx
  unfold cleanSegs at hx
  rw [List.mem_reverse] at hx
  exact foldl_cleanStep_true_valid _ (noSep_of_mem_splitSep p) [] (by simp) x hx

theorem cleanSegs_render (l : List Str) (h : ∀ x ∈ l, validSeg x) :
    cleanSegs true ('/' :: joinSep l) = l := by
  unfold cleanSegs
  cases l with
  | nil => simp [joinSep, splitSep, cleanStep]
  | cons a t =>
    have h1 : splitSep ('/' :: joinSep (a :: t)) = [] :: (a :: t) := by
      simp only [splitSep, if_true]
      rw [splitSep_joinSep _ (by simp) (fun x hx => (h x hx).2.2.2)]
    rw [h1, List.foldl_cons]
    have h2 : cleanStep true [] ([] : Str) = [] := by simp [cleanStep]
    rw [h2, foldl_cleanStep_valid true _ h]
    simp

theorem cleanSegs_clean (p : Str) (h : isAbs p = true) :
    cleanSegs true (clean p) = cleanSegs true p := by
  obtain ⟨t, rfl⟩ := (isAbs_iff p).1 h
  have : clean ('/' :: t) = '/' :: joinSep (cleanSegs true ('/' :: t)) := by
    simp [clean, isAbs_cons]
  rw [this, cleanSegs_render _ (cleanSegs_true_valid _)]

theorem cleanSegs_append_valid (a : Str) {n : Str} (hn : validSeg n) :
    cleanSegs true (a ++ '/' :: n) = cleanSegs true a ++ [n] := by
  unfold cleanSegs
  rw [splitSep_append, List.foldl_append, splitSep_of_noSep hn.2.2.2]
  simp [cleanStep_valid true _ hn]


theorem cleanStep_false_inv (st : List Str) (seg : Str)
    (hst : ∀ x ∈ st, x ≠ [] ∧ x ≠ ['.']) :
    ∀ x ∈ cleanStep false st seg, x ≠ [] ∧ x ≠ ['.'] := by
  unfold cleanStep
  split
  · exact hst
  · rename_i h1
    split
    · rename_i h2
      cases st with
      | nil => subst h2; simp
      | cons top rest =>
        simp only
        split
        · subst h2
          intro x hx
          rcases List.mem_cons.1 hx with rfl | hx
          · simp
          · exact hst x hx
        · exact fun x hx => hst x (List.mem_cons_of_mem _ hx)
    · intro x hx
      rcases List.mem_cons.1 hx with rfl | hx
      · exact ⟨fun e => h1 (Or.inl e), fun e => h1 (Or.inr e)⟩
      · exact hst x hx

theorem foldl_cleanStep_false_inv (l : List Str) :
    ∀ st, (∀ x ∈ st, x ≠ [] ∧ x ≠ ['.']) →
      ∀ x ∈ l.foldl (cleanStep false) st, x ≠ [] ∧ x ≠ ['.'] := by
  induction l with
  | nil => intro st hst; simpa using hst
  | cons a t ih =>
    intro st hst
    rw [List.foldl_cons]
    exact ih _ (cleanStep_false_inv st a hst)

/-- Cleaning a relative path first and resolving it below a directory afterwards
gives what resolving the uncleaned path gives. -/
theorem foldl_cleanStep_rel (G : List Str) (L : List Str) :
    ((L.foldl (cleanStep false) []).reverse).foldl (cleanStep true) G
      = L.foldl (cleanStep true) G := by
  induction L using List.reverseRecOn with
  | nil => simp
  | append_singleton L x ih =>
    rw [List.foldl_append, List.foldl_append]
    simp only [List.foldl_cons, List.foldl_nil]
    rw [← ih]
    have hinv := foldl_cleanStep_false_inv L [] (by simp)
    generalize L.foldl (cleanStep false) [] = S at hinv ⊢
    by_cases h1 : x = [] ∨ x = ['.']
    · simp [cleanStep, h1]
    · by_cases h2 : x = ['.', '.']
      · subst h2
        cases S with
        | nil => simp [cleanStep]
        | cons top rest =>
          by_cases h3 : top = ['.', '.']
          · subst h3
            simp [cleanStep, List.foldl_append]
          · have ht := hinv top (by simp)
            have e1 : cleanStep false (top :: rest) ['.', '.'] = rest := by
              simp [cleanStep, h3]
            rw [e1]
            simp only [List.reverse_cons, List.foldl_append, List.foldl_cons, List.foldl_nil]
            have e2 : ∀ T, cleanStep true T top = top :: T := by
              intro T; simp [cleanStep, ht.1, ht.2, h3]
            rw [e2]
            simp [cleanStep, h3]
      · have e1 : ∀ r T, cleanStep r T x = x :: T := by
          intro r T
          have h1a : x ≠ [] := fun e => h1 (Or.inl e)
          have h1b : x ≠ ['.'] := fun e => h1 (Or.inr e)
          simp [cleanStep, h1a, h1b, h2]
        rw [e1, e1]
        simp [List.foldl_append, e1]

theorem getwd_isAbs (w : World) : isAbs (getwd w) = true := by
  simp [getwd, isAbs_cons]

/-- Go's `filepath.Abs` returns `/` followed by the resolved elements joined. -/
theorem abs_eq_render (w : World) (p : Str) : abs w p = '/' :: joinSep (resolve w p) := by
  unfold abs resolve
  by_cases h : isAbs p = true
  · obtain ⟨t, rfl⟩ := (isAbs_iff p).1 h
    simp [clean, isAbs_cons]
  · simp only [h, if_false, Bool.false_eq_true]
    simp [join, getwd, clean, isAbs_cons]

theorem resolve_render (w : World) (l : List Str) (h : ∀ x ∈ l, validSeg x) :
    resolve w ('/' :: joinSep l) = l := by
  unfold resolve
  simp only [isAbs_cons, decide_True, if_true]
  exact cleanSegs_render l h

theorem resolve_valid (w : World) (p : Str) : ∀ x ∈ resolve w p, validSeg x := by
  unfold resolve
  exact cleanSegs_true_valid _

theorem resolve_abs (w : World) (p : Str) : resolve w (abs w p) = resolve w p := by
  rw [abs_eq_render, resolve_render w _ (resolve_valid w p)]

theorem abs_ne_nil (w : World) (p : Str) : abs w p ≠ [] := by
  rw [abs_eq_render]; simp


theorem mem_cleanStep (r : Bool) (st : List Str) (seg : Str) :
    ∀ x ∈ cleanStep r st seg, x ∈ st ∨ x = seg := by
  unfold cleanStep
  split
  · exact fun x hx => Or.inl hx
  · split
    · cases st with
      | nil => cases r <;> simp
      | cons top rest =>
        simp only
        split
        · cases r
          · intro x hx
            rcases List.mem_cons.1 hx with rfl | hx
            · exact Or.inr rfl
            · exact Or.inl hx
          · exact fun x hx => Or.inl hx
        · exact fun x hx => Or.inl (List.mem_cons_of_mem _ hx)
    · intro x hx
      rcases List.mem_cons.1 hx with rfl | hx
      · exact Or.inr rfl
      · exact Or.inl hx

theorem mem_foldl_cleanStep (r : Bool) (l : List Str) :
    ∀ st, ∀ x ∈ l.foldl (cleanStep r) st, x ∈ st ∨ x ∈ l := by
  induction l with
  | nil => intro st x hx; exact Or.inl (by simpa using hx)
  | cons a t ih =>
    intro st x hx
    rw [List.foldl_cons] at hx
    rcases ih _ x hx with h | h
    · rcases mem_cleanStep r st a x h with h | h
      · exact Or.inl h
      · exact Or.inr (by simp [h])
    · exact Or.inr (List.mem_cons_of_mem _ h)

theorem isAbs_joinSep_false (l : List Str) (h : ∀ x ∈ l, x ≠ [] ∧ '/' ∉ x) :
    isAbs (joinSep l) = false := by
  cases l with
  | nil => simp [joinSep, isAbs_nil]
  | cons a t =>
    obtain ⟨h1, h2⟩ := h a (by simp)
    cases a with
    | nil => exact absurd rfl h1
    | cons c cs =>
      have hc : c ≠ '/' := fun e => h2 (by simp [e])
      cases t with
      | nil => simp [joinSep, isAbs_cons, hc]
      | cons b t => simp [joinSep, isAbs_cons, hc]

/-- Joining a directory path and an entry name names that entry of the
directory. -/
theorem resolve_join (w : World) (d : Str) {n : Str} (hd : d ≠ []) (hn : validSeg n) :
    resolve w (join d n) = resolve w d ++ [n] := by
  have hj : join d n = clean (d ++ '/' :: n) := by simp [join, hd]
  by_cases h : isAbs d = true
  · obtain ⟨t, rfl⟩ := (isAbs_iff d).1 h
    have h1 : clean ('/' :: t ++ '/' :: n) = '/' :: joinSep (cleanSegs true ('/' :: t ++ '/' :: n)) := by
      simp [clean, isAbs_cons]
    rw [hj, h1, resolve_render w _ (cleanSegs_true_valid _), cleanSegs_append_valid _ hn]
    simp [resolve, isAbs_cons]
  · have hd' : isAbs d = false := by simpa using h
    have h0 : isAbs (d ++ '/' :: n) = false := by
      cases d with
      | nil => exact absurd rfl hd
      | cons c cs => simpa [isAbs_cons] using hd'
    have hS : cleanSegs false (d ++ '/' :: n)
        = ((splitSep d).foldl (cleanStep false) []).reverse ++ [n] := by
      unfold cleanSegs
      rw [splitSep_append, List.foldl_append, splitSep_of_noSep hn.2.2.2]
      simp [cleanStep_valid false _ hn]
    have h1 : clean (d ++ '/' :: n)
        = joinSep (((splitSep d).foldl (cleanStep false) []).reverse ++ [n]) := by
      unfold clean
      rw [if_neg (by simp), h0, hS]
      simp only [Bool.false_eq_true, if_false]
      split
      · rename_i e; simp at e
      · rfl
    have hinv : ∀ x ∈ ((splitSep d).foldl (cleanStep false) []).reverse ++ [n],
        x ≠ [] ∧ '/' ∉ x := by
      intro x hx
      rcases List.mem_append.1 hx with hx | hx
      · rw [List.mem_reverse] at hx
        refine ⟨(foldl_cleanStep_false_inv _ [] (by simp) x hx).1, ?_⟩
        rcases mem_foldl_cleanStep false _ [] x hx with h | h
        · simp at h
        · exact noSep_of_mem_splitSep d x h
      · simp only [List.mem_singleton] at hx
        subst hx
        exact ⟨hn.1, hn.2.2.2⟩
    rw [hj, h1]
    unfold resolve
    rw [isAbs_joinSep_false _ hinv, hd']
    simp only [Bool.false_eq_true, if_false]
    unfold cleanSegs
    rw [splitSep_append, splitSep_append, List.foldl_append, List.foldl_append,
      splitSep_joinSep _ (by simp) (fun x hx => (hinv x hx).2), List.foldl_append,
      foldl_cleanStep_rel]
    simp [cleanStep_valid true _ hn]

/-! ## Facts about the file system -/

theorem lookupE_cons (n k : Str) (v : Node) (es : List (Str × Node)) :
    lookupE n ((k, v) :: es) = if k = n then some v else lookupE n es := rfl

theorem lookupE_eq_none_iff (n : Str) (es : List (Str × Node)) :
    lookupE n es = none ↔ n ∉ es.map Prod.fst := by
  induction es with
  | nil => simp [lookupE]
  | cons e es ih =>
    obtain ⟨k, v⟩ := e
    rw [lookupE_cons, List.map_cons, List.mem_cons, not_or]
    by_cases h : k = n
    · rw [if_pos h]
      constructor
      · intro e; cases e
      · intro e; exact absurd h.symm e.1
    · rw [if_neg h, ih]
      exact ⟨fun e => ⟨fun e2 => h e2.symm, e⟩, fun e => e.2⟩

theorem lookupE_modifyE_self (n : Str) (f : Node → Node) (es : List (Str × Node)) :
    lookupE n (modifyE n f es) = (lookupE n es).map f := by
  induction es with
  | nil => rfl
  | cons e es ih =>
    obtain ⟨k, v⟩ := e
    by_cases h : k = n
    · simp only [modifyE, lookupE_cons, if_pos h, Option.map_some']
    · simp only [modifyE, lookupE_cons, if_neg h, ih]

theorem lookupE_modifyE_ne {n m : Str} (h : m ≠ n) (f : Node → Node) (es : List (Str × Node)) :
    lookupE m (modifyE n f es) = lookupE m es := by
  induction es with
  | nil => rfl
  | cons e es ih =>
    obtain ⟨k, v⟩ := e
    by_cases hk : k = n
    · have hkm : ¬ k = m := fun e => h (e.symm.trans hk)
      simp only [modifyE, if_pos hk, lookupE_cons, if_neg hkm]
    · simp only [modifyE, if_neg hk, lookupE_cons, ih]

theorem lookupE_append (m : Str) (es fs : List (Str × Node)) :
    lookupE m (es ++ fs) = match lookupE m es with
      | some v => some v
      | none => lookupE m fs := by
  induction es with
  | nil => rfl
  | cons e es ih =>
    obtain ⟨k, v⟩ := e
    by_cases hk : k = m
    · simp only [List.cons_append, lookupE_cons, if_pos hk]
    · simp only [List.cons_append, lookupE_cons, if_neg hk, ih]

theorem lookupE_eraseE (n m : Str) (es : List (Str × Node)) :
    lookupE m (eraseE n es) = if m = n then none else lookupE m es := by
  induction es with
  | nil => simp [lookupE, eraseE]
  | cons e es ih =>
    obtain ⟨k, v⟩ := e
    by_cases hk : k = n
    · simp only [eraseE, if_pos hk, ih, lookupE_cons]
      by_cases hm : m = n
      · simp only [if_pos hm]
      · have : ¬ k = m := fun e => hm (e.symm.trans hk)
        simp only [if_neg hm, if_neg this]
    · simp only [eraseE, if_neg hk, lookupE_cons, ih]
      by_cases hm : m = n
      · have : ¬ k = m := fun e => hk (e.trans hm)
        simp only [if_pos hm, if_neg this]
      · simp only [if_neg hm]

theorem lookupE_setE_self (n : Str) (r : Option Node) (es : List (Str × Node)) :
    lookupE n (setE n r es) = r := by
  cases r with
  | none => simp only [setE, lookupE_eraseE, if_pos]
  | some v =>
    simp only [setE]
    cases hl : lookupE n es with
    | some x =>
      simp only [Option.isSome_some, if_true]
      rw [lookupE_modifyE_self, hl]; rfl
    | none =>
      simp only [Option.isSome_none, Bool.false_eq_true, if_false]
      rw [lookupE_append, hl]
      simp only [lookupE_cons, if_pos]

theorem lookupE_setE_ne {n m : Str} (h : m ≠ n) (r : Option Node) (es : List (Str × Node)) :
    lookupE m (setE n r es) = lookupE m es := by
  cases r with
  | none => simp only [setE, lookupE_eraseE, if_neg h]
  | some v =>
    simp only [setE]
    cases hl : lookupE n es with
    | some x =>
      simp only [Option.isSome_some, if_true]
      exact lookupE_modifyE_ne h _ _
    | none =>
      have h1 : ¬ n = m := fun e => h e.symm
      simp only [Option.isSome_none, Bool.false_eq_true, if_false]
      rw [lookupE_append]
      cases lookupE m es with
      | some x => rfl
      | none => simp only [lookupE_cons, if_neg h1, lookupE]

theorem Node.stat_append (p q : List Str) : ∀ t : Node,
    t.stat (p ++ q) = match t.stat p with
      | .ok c => c.stat q
      | .error e => .error e := by
  induction p with
  | nil => intro t; simp [Node.stat]
  | cons s p ih =>
    intro t
    cases t with
    | file c => simp [Node.stat]
    | dir es =>
      simp only [List.cons_append, Node.stat]
      cases lookupE s es with
      | none => simp
      | some c => simpa using ih c

theorem Node.stat_child {t : Node} {p : List Str} {es : List (Str × Node)}
    (h : t.stat p = .ok (.dir es)) (n : Str) :
    t.stat (p ++ [n]) = match lookupE n es with
      | none => .error .ENOENT
      | some c => .ok c := by
  rw [Node.stat_append, h]
  simp only [Node.stat]

theorem Node.updateAt_cons (f : Option Node → Except Errno (Option Node))
    (es : List (Str × Node)) (s : Str) {q : List Str} (hq : q ≠ []) :
    (Node.dir es).updateAt f (s :: q) = match lookupE s es with
      | none => .error .ENOENT
      | some c => (c.updateAt f q).map (fun c1 => .dir (modifyE s (fun _ => c1) es)) := by
  cases q with
  | nil => exact absurd rfl hq
  | cons t p => simp [Node.updateAt]


theorem Node.stat_nil (t : Node) : t.stat [] = .ok t := by
  cases t <;> rfl

theorem Node.stat_dir_cons (es : List (Str × Node)) (m : Str) (q : List Str) :
    (Node.dir es).stat (m :: q) = match lookupE m es with
      | none => .error .ENOENT
      | some c => c.stat q := rfl

theorem Node.look_dir_cons (es : List (Str × Node)) (m : Str) (q : List Str) :
    (Node.dir es).look (m :: q) = match lookupE m es with
      | none => .error .ENOENT
      | some c => c.look q := by
  unfold Node.look
  rw [Node.stat_dir_cons]
  cases lookupE m es <;> rfl

theorem Node.look_dir_nil (es : List (Str × Node)) : (Node.dir es).look [] = .ok .dir := rfl

theorem Node.updateAt_single (f : Option Node → Except Errno (Option Node))
    (es : List (Str × Node)) (n : Str) :
    (Node.dir es).updateAt f [n] = (f (lookupE n es)).map (fun r => .dir (setE n r es)) := rfl

theorem Except.map_eq_ok {ε α β : Type} {f : α → β} {x : Except ε α} {b : β}
    (h : x.map f = .ok b) : ∃ a, x = .ok a ∧ f a = b := by
  cases x with
  | error e => cases h
  | ok a => exact ⟨a, rfl, by injection h⟩

/-- Rewriting the entry at `p` changes nothing that is seen at a path that does
not run through `p`. -/
theorem Node.updateAt_frame (f : Option Node → Except Errno (Option Node)) :
    ∀ (p : List Str) (t t1 : Node), t.updateAt f p = .ok t1 →
      ∀ q, ¬ p <+: q → t1.look q = t.look q := by
  intro p
  induction p with
  | nil => intro t t1 h; cases t <;> cases h
  | cons s p ih =>
    intro t t1 h q hq
    cases t with
    | file c => cases h
    | dir es =>
      by_cases hp : p = []
      · subst hp
        rw [Node.updateAt_single] at h
        obtain ⟨r, _, rfl⟩ := Except.map_eq_ok h
        cases q with
        | nil => rfl
        | cons m q =>
          have hm : m ≠ s := by
            intro e; subst e
            exact hq (List.prefix_iff_eq_append.2 (by simp))
          rw [Node.look_dir_cons, Node.look_dir_cons, lookupE_setE_ne hm]
      · rw [Node.updateAt_cons f es s hp] at h
        cases hl : lookupE s es with
        | none => rw [hl] at h; cases h
        | some c =>
          rw [hl] at h
          obtain ⟨c1, hc, rfl⟩ := Except.map_eq_ok h
          cases q with
          | nil => rfl
          | cons m q =>
            rw [Node.look_dir_cons, Node.look_dir_cons]
            by_cases hm : m = s
            · subst hm
              rw [lookupE_modifyE_self, hl]
              simp only [Option.map_some']
              exact ih c c1 hc q (fun hpq => hq ((List.prefix_cons_inj m).2 hpq))
            · rw [lookupE_modifyE_ne hm]

/-- After rewriting the entry at `p`, what `f` answered is found there. -/
theorem Node.updateAt_target (f : Option Node → Except Errno (Option Node)) :
    ∀ (p : List Str) (t t1 : Node), t.updateAt f p = .ok t1 →
      ∃ r, f (match t.stat p with | .ok n => some n | .error _ => none) = .ok r ∧
        t1.stat p = (match r with | some v => .ok v | none => .error .ENOENT) := by
  intro p
  induction p with
  | nil => intro t t1 h; cases t <;> cases h
  | cons s p ih =>
    intro t t1 h
    cases t with
    | file c => cases h
    | dir es =>
      by_cases hp : p = []
      · subst hp
        rw [Node.updateAt_single] at h
        obtain ⟨r, hr, rfl⟩ := Except.map_eq_ok h
        refine ⟨r, ?_, ?_⟩
        · rw [Node.stat_dir_cons]
          cases hl : lookupE s es with
          | none => rw [hl] at hr; exact hr
          | some c => rw [hl] at hr; simp only [Node.stat_nil]; exact hr
        · rw [Node.stat_dir_cons, lookupE_setE_self]
          cases r with
          | none => rfl
          | some v => simp only [Node.stat_nil]
      · rw [Node.updateAt_cons f es s hp] at h
        cases hl : lookupE s es with
        | none => rw [hl] at h; cases h
        | some c =>
          rw [hl] at h
          obtain ⟨c1, hc, rfl⟩ := Except.map_eq_ok h
          obtain ⟨r, hr, hst⟩ := ih c c1 hc
          refine ⟨r, ?_, ?_⟩
          · rw [Node.stat_dir_cons, hl]; exact hr
          · rw [Node.stat_dir_cons, lookupE_modifyE_self, hl]; exact hst

/-- Rewriting an entry of an existing directory succeeds when `f` does. -/
theorem Node.updateAt_ok (f : Option Node → Except Errno (Option Node)) (n : Str) :
    ∀ (I : List Str) (t : Node) (es : List (Str × Node)) (r : Option Node),
      t.stat I = .ok (.dir es) → f (lookupE n es) = .ok r →
      ∃ t1, t.updateAt f (I ++ [n]) = .ok t1 := by
  intro I
  induction I with
  | nil =>
    intro t es r h hf
    cases t with
    | file c => cases h
    | dir es0 =>
      have : es0 = es := by injection h with h; injection h
      subst this
      exact ⟨_, by rw [List.nil_append, Node.updateAt_single, hf]; rfl⟩
  | cons s I ih =>
    intro t es r h hf
    cases t with
    | file c => cases h
    | dir es0 =>
      rw [Node.stat_dir_cons] at h
      cases hl : lookupE s es0 with
      | none => rw [hl] at h; cases h
      | some c =>
        rw [hl] at h
        obtain ⟨c1, hc⟩ := ih c es r h hf
        refine ⟨.dir (modifyE s (fun _ => c1) es0), ?_⟩
        rw [List.cons_append, Node.updateAt_cons f es0 s (by simp), hl]
        simp only [hc]
        rfl

/-- After `MkdirAll` the path names a directory. -/
theorem Node.mkdirAll_stat : ∀ (p : List Str) (t t1 : Node), t.mkdirAll p = .ok t1 →
    ∃ es, t1.stat p = .ok (.dir es) := by
  intro p
  induction p with
  | nil =>
    intro t t1 h
    cases t with
    | file c => cases h
    | dir es => exact ⟨es, by injection h with h; subst h; rfl⟩
  | cons s p ih =>
    intro t t1 h
    cases t with
    | file c => cases h
    | dir es =>
      simp only [Node.mkdirAll] at h
      cases hl : lookupE s es with
      | none =>
        rw [hl] at h
        obtain ⟨c1, hc, rfl⟩ := Except.map_eq_ok h
        obtain ⟨es1, h1⟩ := ih _ c1 hc
        refine ⟨es1, ?_⟩
        rw [Node.stat_dir_cons, lookupE_append, hl]
        simp only [lookupE_cons, if_pos]
        exact h1
      | some c =>
        rw [hl] at h
        obtain ⟨c1, hc, rfl⟩ := Except.map_eq_ok h
        obtain ⟨es1, h1⟩ := ih _ c1 hc
        refine ⟨es1, ?_⟩
        rw [Node.stat_dir_cons, lookupE_modifyE_self, hl]
        exact h1

theorem Node.stat_ok_of_append {t : Node} {p q : List Str} {n : Node}
    (h : t.stat (p ++ q) = .ok n) : ∃ m, t.stat p = .ok m := by
  rw [Node.stat_append] at h
  cases hp : t.stat p with
  | error e => rw [hp] at h; cases h
  | ok m => exact ⟨m, rfl⟩

/-! ## The path check -/

/-- C1 (evaluation at the failing input): with the workspace root `/a/b`, the
normalized path `/a/bc/secret` is neither the root nor the root followed by a
separator and further elements, yet delete, rename, write, copy and move all
accept it, report success and change the file system. -/
theorem sibling_of_root_passes_guard :
    (abs sampleWorld "/a/bc/secret".toList ≠ abs sampleWorld sampleApp.storagePath ∧
      hasPrefix (abs sampleWorld "/a/bc/secret".toList)
        (abs sampleWorld sampleApp.storagePath ++ ['/']) = false ∧
      insideRoot sampleApp sampleWorld "/a/bc/secret".toList = false) ∧
    ((DeleteItem sampleApp sampleWorld "/a/bc/secret".toList).1.Success = true ∧
      lookAt (DeleteItem sampleApp sampleWorld "/a/bc/secret".toList).2 "/a/bc/secret".toList
        = .error .ENOENT) ∧
    ((RenameItem sampleApp sampleWorld "/a/bc/secret".toList "moved".toList).1.Success = true ∧
      lookAt (RenameItem sampleApp sampleWorld "/a/bc/secret".toList "moved".toList).2
        "/a/bc/moved".toList = .ok (.file "s".toList)) ∧
    ((SaveFileContent sampleApp sampleWorld "/a/bc/secret".toList "new".toList).1.Success = true ∧
      lookAt (SaveFileContent sampleApp sampleWorld "/a/bc/secret".toList "new".toList).2
        "/a/bc/secret".toList = .ok (.file "new".toList)) ∧
    ((CopyItem 2 sampleApp sampleWorld "/a/bc/secret".toList "/a/bc/secret".toList).map
        (fun r => (r.1.Success, lookAt r.2 "/a/bc/secret_copy_1".toList))
        = some (true, .ok (.file "s".toList))) ∧
    ((MoveItem sampleApp sampleWorld "/a/bc/secret".toList "/a/b".toList).1.Success = true ∧
      lookAt (MoveItem sampleApp sampleWorld "/a/bc/secret".toList "/a/b".toList).2
        "/a/bc/secret".toList = .error .ENOENT ∧
      lookAt (MoveItem sampleApp sampleWorld "/a/bc/secret".toList "/a/b".toList).2
        "/a/b/secret".toList = .ok (.file "s".toList)) := by
  refine ⟨⟨by decide, by decide, by decide⟩, ⟨by decide, by rfl⟩, ⟨by decide, by rfl⟩,
    ⟨by decide, by rfl⟩, by rfl, ⟨by decide, by rfl, by rfl⟩⟩

/-- C2 (evaluation at the failing input): with the workspace root `/a/b`,
`CreateFile` and `CreateFolder` called with the parent path `/tmp/out`, which
lies outside the root, report success and create `/tmp/out/x.txt` and
`/tmp/out/sub`. -/
theorem create_outside_root_succeeds :
    insideRoot sampleApp sampleWorld "/tmp/out".toList = false ∧
    lookAt sampleWorld "/tmp/out".toList = .error .ENOENT ∧
    (CreateFile 1 sampleApp sampleWorld "json".toList "/tmp/out".toList "x.txt".toList).map
        (fun r => (r.1.Success, r.1.Data.itemPath, lookAt r.2 "/tmp/out/x.txt".toList))
      = some (true, some "/tmp/out/x.txt".toList, .ok (.file [])) ∧
    (CreateFolder 1 sampleApp sampleWorld "json".toList "/tmp/out".toList "sub".toList).map
        (fun r => (r.1.Success, r.1.Data.itemPath, lookAt r.2 "/tmp/out/sub".toList))
      = some (true, some "/tmp/out/sub".toList, .ok .dir) := by
  refine ⟨by decide, by rfl, by rfl, by rfl⟩

/-- C3 (evaluation at the failing input): with the workspace root `/a/b`,
renaming `/a/b/note.txt` to the name `../../y` reports success and moves the
file to `/y`, outside the root. -/
theorem rename_target_escapes_root :
    insideRoot sampleApp sampleWorld "/a/b/note.txt".toList = true ∧
    (RenameItem sampleApp sampleWorld "/a/b/note.txt".toList "../../y".toList).1.Success = true ∧
    (RenameItem sampleApp sampleWorld "/a/b/note.txt".toList "../../y".toList).1.Data.field
      "path".toList = some "/y".toList ∧
    insideRoot sampleApp sampleWorld "/y".toList = false ∧
    lookAt (RenameItem sampleApp sampleWorld "/a/b/note.txt".toList "../../y".toList).2
      "/y".toList = .ok (.file "hello".toList) ∧
    lookAt (RenameItem sampleApp sampleWorld "/a/b/note.txt".toList "../../y".toList).2
      "/a/b/note.txt".toList = .error .ENOENT := by
  refine ⟨by decide, by decide, by rfl, by decide, by rfl, by rfl⟩

/-- C8 (evaluation at the failing input): duplicating the folder `/a/b/v1.0`
reports success with the name `v1_copy_1`: the part `.0` of the folder name is
dropped, and no `v1.0_copy_1` is made. -/
theorem duplicate_folder_drops_extension :
    lookAt sampleWorld "/a/b/v1.0".toList = .ok .dir ∧
    (DuplicateItem 3 sampleApp sampleWorld "/a/b/v1.0".toList).map
        (fun r => (r.1.Success, r.1.Data.field "name".toList,
          lookAt r.2 "/a/b/v1_copy_1".toList, lookAt r.2 "/a/b/v1_copy_1/d/x_1".toList,
          lookAt r.2 "/a/b/v1.0_copy_1".toList))
      = some (true, some "v1_copy_1".toList, .ok .dir, .ok (.file []), .error .ENOENT) := by
  refine ⟨by rfl, by rfl⟩

/-! ## Collisions on rename and move, deleting what is not there -/

theorem joinSep_append_isPrefix (S T : List Str) : joinSep S <+: joinSep (S ++ T) := by
  induction S with
  | nil => exact List.nil_prefix
  | cons a S ih =>
    cases S with
    | nil =>
      cases T with
      | nil => exact List.prefix_refl _
      | cons b T => exact List.prefix_append _ _
    | cons b S =>
      have h1 : joinSep (a :: b :: S) = a ++ '/' :: joinSep (b :: S) := rfl
      have h2 : joinSep (a :: b :: S ++ T) = a ++ '/' :: joinSep (b :: S ++ T) := rfl
      rw [h1, h2]
      exact (List.prefix_append_right_inj a).2 ((List.prefix_cons_inj '/').2 ih)

/-- A path inside the root passes the check `strings.HasPrefix(absPath, absStorage)`. -/
theorem hasPrefix_of_insideRoot {a : App} {w : World} {p : Str}
    (h : insideRoot a w p = true) : hasPrefix (abs w p) (abs w a.storagePath) = true := by
  unfold insideRoot at h
  obtain ⟨T, hT⟩ := List.isPrefixOf_iff_prefix.1 h
  unfold hasPrefix
  rw [ List.isPrefixOf_iff_prefix, abs_eq_render, abs_eq_render, ← hT]
  exact (List.prefix_cons_inj '/').2 (joinSep_append_isPrefix _ _)

/-- C9: when the path check accepts the path and an entry already exists at the
target (`dirname(path)/newName` for rename, `destDir/basename(src)` for move),
rename and move fail with their already-exists message and leave the world as
it was, so the source entry and the existing entry are unchanged. -/
theorem rename_move_collision_fails (a : App) (w : World) :
    (∀ itemPath newName : Str,
      hasPrefix (abs w itemPath) (abs w a.storagePath) = true →
      isOk (stat w (join (dir (abs w itemPath)) newName)) = true →
      RenameItem a w itemPath newName
        = (failure "A file or folder with that name already exists".toList, w)) ∧
    (∀ srcPath destDir : Str,
      hasPrefix (abs w srcPath) (abs w a.storagePath) = true →
      hasPrefix (abs w destDir) (abs w a.storagePath) = true →
      isOk (stat w (join (abs w destDir) (base (abs w srcPath)))) = true →
      MoveItem a w srcPath destDir
        = (failure "A file with that name already exists in the destination".toList, w)) := by
  constructor
  · intro itemPath newName hitem hren
    simp only [RenameItem, hitem, hren, Bool.not_true, Bool.false_eq_true, if_false, if_true]
  · intro srcPath destDir hsrc hdest hmov
    simp only [MoveItem, hsrc, hdest, hmov, Bool.not_true, Bool.or_self, Bool.false_eq_true,
      if_false, if_true]

/-- C9 at a concrete input: renaming `/a/b/x.txt` to the existing name `x_1.txt`,
and moving `/a/b/v1.0/d/x` into `/a/b/v1.0/d`, which holds an `x`. -/
theorem rename_move_collision_fails_witness :
    RenameItem sampleApp sampleWorld "/a/b/x.txt".toList "x_1.txt".toList
      = (failure "A file or folder with that name already exists".toList, sampleWorld) ∧
    MoveItem sampleApp sampleWorld "/a/b/v1.0/d/x".toList "/a/b/v1.0/d".toList
      = (failure "A file with that name already exists in the destination".toList, sampleWorld) :=
  ⟨(rename_move_collision_fails sampleApp sampleWorld).1 "/a/b/x.txt".toList "x_1.txt".toList
      (by decide) (by decide),
    (rename_move_collision_fails sampleApp sampleWorld).2 "/a/b/v1.0/d/x".toList
      "/a/b/v1.0/d".toList (by decide) (by decide) (by decide)⟩

/-- What `os.Stat` answers on a tree: it finds what lies at the path; where
nothing lies, it fails with `ENOTDIR` if the path runs through a regular file
and with `ENOENT` otherwise. -/
theorem Node.stat_eq_find : ∀ (p : List Str) (t : Node),
    t.stat p = match t.find p with
      | some n => .ok n
      | Option.none => if t.throughFile p then .error .ENOTDIR else .error .ENOENT := by
  intro p
  induction p with
  | nil => intro t; cases t <;> rfl
  | cons s p ih =>
    intro t
    cases t with
    | file c => rfl
    | dir es =>
      rw [Node.stat_dir_cons]
      cases h : lookupE s es with
      | none => simp [Node.find, Node.throughFile, h]
      | some c => simp only [Node.find, Node.throughFile, h]; exact ih c

/-- C10 (evaluation at the failing input): in the sample world the workspace
root is `/a/b` and `x.txt` is a regular file in it, so `/a/b/x.txt/y` lies
inside the root and nothing exists there.  `os.Stat` fails there with
`ENOTDIR`: the test `err == nil`, which `RenameItem` and `MoveItem` make, says
that nothing is there, but the test `os.IsNotExist(err)`, which `DeleteItem`
makes under its comment `Check if file/folder exists`, does not.  So
`DeleteItem` goes on to `os.RemoveAll`, which fails, and answers
`Failed to delete`, not that the file or folder does not exist; the world is
left as it was. -/
theorem delete_below_file_is_not_reported_missing :
    insideRoot sampleApp sampleWorld "/a/b/x.txt/y".toList = true ∧
    legalPath (abs sampleWorld "/a/b/x.txt/y".toList) = true ∧
    existsAt sampleWorld "/a/b/x.txt/y".toList = false ∧
    belowFile sampleWorld "/a/b/x.txt/y".toList = true ∧
    lookAt sampleWorld (abs sampleWorld "/a/b/x.txt/y".toList) = .error .ENOTDIR ∧
    isOk (stat sampleWorld (abs sampleWorld "/a/b/x.txt/y".toList)) = false ∧
    isNotExist (stat sampleWorld (abs sampleWorld "/a/b/x.txt/y".toList)) = false ∧
    DeleteItem sampleApp sampleWorld "/a/b/x.txt/y".toList
      = (failure "Failed to delete: not a directory".toList, sampleWorld) :=
  ⟨by decide, by decide, by rfl, by rfl, by rfl, by rfl, by rfl, by rfl⟩

/-- Where delete does answer as C10 says: for a path inside the root that is
missing in the sense of the operating system (the operating system takes the
path, nothing exists at it, and it does not lead below a regular file), delete
fails with the does-not-exist message and leaves the world as it was; so after
any number of repetitions the world is still the same and the call still gives
that failure. -/
theorem delete_missing_is_not_found (a : App) (w : World) (p : Str)
    (hin : insideRoot a w p = true)
    (hmissing : legalPath (abs w p) = true ∧ existsAt w p = false ∧ belowFile w p = false)
    (n : Nat) :
    (fun w1 => (DeleteItem a w1 p).2)^[n] w = w ∧
    DeleteItem a ((fun w1 => (DeleteItem a w1 p).2)^[n] w) p
      = (failure ("File or folder does not exist: ".toList ++ abs w p), w) := by
  obtain ⟨_, hno, hbelow⟩ := hmissing
  have hst : isNotExist (stat w (abs w p)) = true := by
    have hf : w.tree.find (resolve w p) = Option.none := by
      unfold existsAt at hno
      cases h : w.tree.find (resolve w p) with
      | none => rfl
      | some x => rw [h] at hno; cases hno
    unfold belowFile at hbelow
    simp only [stat, abs_ne_nil, if_false, resolve_abs, Node.stat_eq_find, hf, hbelow,
      Bool.false_eq_true, isNotExist]
  have h1 : DeleteItem a w p
      = (failure ("File or folder does not exist: ".toList ++ abs w p), w) := by
    simp only [DeleteItem, hasPrefix_of_insideRoot hin, hst, Bool.not_true, Bool.false_eq_true,
      if_false, if_true]
  have h2 : (fun w1 => (DeleteItem a w1 p).2)^[n] w = w := by
    induction n with
    | zero => rfl
    | succ k ih => rw [Function.iterate_succ_apply', ih, h1]
  exact ⟨h2, by rw [h2, h1]⟩

/-- At a concrete input: nothing exists at `/a/b/nothing`, and three calls of
delete leave the world as it was. -/
theorem delete_missing_is_not_found_witness :
    (fun w1 => (DeleteItem sampleApp w1 "/a/b/nothing".toList).2)^[3] sampleWorld = sampleWorld ∧
    DeleteItem sampleApp
        ((fun w1 => (DeleteItem sampleApp w1 "/a/b/nothing".toList).2)^[3] sampleWorld)
        "/a/b/nothing".toList
      = (failure ("File or folder does not exist: ".toList
          ++ abs sampleWorld "/a/b/nothing".toList), sampleWorld) :=
  delete_missing_is_not_found sampleApp sampleWorld "/a/b/nothing".toList (by decide)
    ⟨by decide, by rfl, by rfl⟩ 3

/-! ## The workspace root survives -/

/-- A path that passes the check `strings.HasPrefix(absPath, absStorage)` and is
not the root itself does not lie on the way to the root. -/
theorem not_prefix_of_guard {w : World} {p r : Str}
    (hg : hasPrefix (abs w p) (abs w r) = true) (hne : abs w p ≠ abs w r) :
    ¬ resolve w p <+: resolve w r := by
  intro hpre
  obtain ⟨T, hT⟩ := hpre
  apply hne
  unfold hasPrefix at hg
  rw [ List.isPrefixOf_iff_prefix] at hg
  have h2 : abs w p <+: abs w r := by
    rw [abs_eq_render, abs_eq_render, ← hT]
    exact (List.prefix_cons_inj '/').2 (joinSep_append_isPrefix _ _)
  exact List.IsPrefix.eq_of_length h2 (Nat.le_antisymm h2.length_le hg.length_le)

theorem Node.look_ok_stat {t : Node} {q : List Str} {e : Entry} (h : t.look q = .ok e) :
    ∃ n, t.stat q = .ok n := by
  unfold Node.look at h
  cases hs : t.stat q with
  | error x => rw [hs] at h; cases h
  | ok n => exact ⟨n, rfl⟩

theorem lookAt_eq_look (w : World) {p : Str} (hp : p ≠ []) :
    lookAt w p = w.tree.look (resolve w p) := by
  simp only [lookAt, stat, hp, if_false, Node.look]

/-- Go's `os.RemoveAll` keeps whatever lies at a path that does not run through the
removed one. -/
theorem removeAll_keeps {w w1 : World} {p : Str} {S : List Str}
    (h : removeAll w p = .ok w1) (hS : ¬ resolve w p <+: S) :
    w1.cwd = w.cwd ∧ w1.tree.look S = w.tree.look S := by
  unfold removeAll at h
  split at h
  · injection h with h; subst h; exact ⟨rfl, rfl⟩
  · split at h
    · cases h
    · split at h
      · injection h with h; subst h; exact ⟨rfl, rfl⟩
      · cases h
      · unfold updatePath at h
        split at h
        · cases h
        · split at h
          · cases h
          · obtain ⟨t1, ht, rfl⟩ := Except.map_eq_ok h
            exact ⟨rfl, Node.updateAt_frame _ _ _ _ ht S hS⟩

/-- Go's `os.Rename` keeps whatever lies at a path that runs neither through the old
nor through the new path. -/
theorem rename_keeps {w w1 : World} {o n : Str} {S : List Str}
    (h : rename w o n = .ok w1) (ho : ¬ resolve w o <+: S) (hn : ¬ resolve w n <+: S) :
    w1.cwd = w.cwd ∧ w1.tree.look S = w.tree.look S := by
  unfold rename at h
  split at h
  · cases h
  · simp only at h
    split at h
    · cases h
    · split at h
      · injection h with h; subst h; exact ⟨rfl, rfl⟩
      · split at h
        · cases h
        · split at h
          · cases h
          · split at h
            · cases h
            · rename_i t1 ht1
              split at h
              · cases h
              · rename_i t2 ht2
                injection h with h; subst h
                refine ⟨rfl, ?_⟩
                rw [Node.updateAt_frame _ _ _ _ ht2 S hn, Node.updateAt_frame _ _ _ _ ht1 S ho]

/-- When `os.Stat` finds nothing at a path, the path does not lead to anything
that exists. -/
theorem not_prefix_of_missing {w : World} {n : Str} {S : List Str} {e : Entry}
    (hn : n ≠ []) (hst : isOk (stat w n) = false) (hS : w.tree.look S = .ok e) :
    ¬ resolve w n <+: S := by
  intro hpre
  obtain ⟨T, hT⟩ := hpre
  obtain ⟨x, hx⟩ := Node.look_ok_stat hS
  rw [← hT] at hx
  obtain ⟨m, hm⟩ := Node.stat_ok_of_append hx
  simp only [stat, hn, if_false, hm, isOk] at hst
  cases hst

theorem rename_nil_right (w : World) (o : Str) : rename w o [] = .error .ENOENT := by
  simp [rename]

/-- C4 (counterexample): the root `/a/b` exists, deleting the root itself
reports success and the root is gone; renaming the root reports success and the
root is gone as well. -/
theorem delete_root_removes_root :
    lookAt sampleWorld (abs sampleWorld sampleApp.storagePath) = .ok .dir ∧
    ((DeleteItem sampleApp sampleWorld "/a/b".toList).1.Success = true ∧
      lookAt (DeleteItem sampleApp sampleWorld "/a/b".toList).2
        (abs sampleWorld sampleApp.storagePath) = .error .ENOENT) ∧
    ((RenameItem sampleApp sampleWorld "/a/b".toList "q".toList).1.Success = true ∧
      lookAt (RenameItem sampleApp sampleWorld "/a/b".toList "q".toList).2
        (abs sampleWorld sampleApp.storagePath) = .error .ENOENT) := by
  refine ⟨by rfl, ⟨by decide, by rfl⟩, ⟨by decide, by rfl⟩⟩

/-- C4 (amended): in a world where the workspace root is a directory, whenever
delete, rename or move reports success for a path (for move: a source path)
whose normalized form is not the root itself, the root is still a directory
afterwards. -/
theorem root_survives (a : App) (w : World)
    (hroot : lookAt w (abs w a.storagePath) = .ok .dir) :
    (∀ p : Str, abs w p ≠ abs w a.storagePath →
      (DeleteItem a w p).1.Success = true →
      lookAt (DeleteItem a w p).2 (abs w a.storagePath) = .ok .dir) ∧
    (∀ p newName : Str, abs w p ≠ abs w a.storagePath →
      (RenameItem a w p newName).1.Success = true →
      lookAt (RenameItem a w p newName).2 (abs w a.storagePath) = .ok .dir) ∧
    (∀ src destDir : Str, abs w src ≠ abs w a.storagePath →
      (MoveItem a w src destDir).1.Success = true →
      lookAt (MoveItem a w src destDir).2 (abs w a.storagePath) = .ok .dir) := by
  have hR := abs_ne_nil w a.storagePath
  have hlook : w.tree.look (resolve w a.storagePath) = .ok .dir := by
    rw [lookAt_eq_look w hR, resolve_abs] at hroot; exact hroot
  have key : ∀ w1 : World, w1.cwd = w.cwd →
      w1.tree.look (resolve w a.storagePath) = w.tree.look (resolve w a.storagePath) →
      lookAt w1 (abs w a.storagePath) = .ok .dir := by
    intro w1 hc hl
    have : resolve w1 (abs w a.storagePath) = resolve w a.storagePath := by
      rw [← resolve_abs w a.storagePath]
      simp only [resolve, getwd, hc]
    rw [lookAt_eq_look w1 hR, this, hl, hlook]
  refine ⟨?_, ?_, ?_⟩
  · intro p hne hs
    unfold DeleteItem at hs ⊢
    simp only at hs ⊢
    split at hs
    · cases hs
    · rename_i hg
      have hg : hasPrefix (abs w p) (abs w a.storagePath) = true := by simpa using hg
      rw [if_neg (by simpa using hg)]
      split at hs
      · cases hs
      · rename_i hex
        rw [if_neg hex]
        cases hrm : removeAll w (abs w p) with
        | error e => rw [hrm] at hs; cases hs
        | ok w1 =>
          simp only
          have hnp := not_prefix_of_guard hg hne
          rw [← resolve_abs w p] at hnp
          obtain ⟨hc, hl⟩ := removeAll_keeps hrm hnp
          exact key w1 hc hl
  · intro p newName hne hs
    unfold RenameItem at hs ⊢
    simp only at hs ⊢
    split at hs
    · cases hs
    · rename_i hg
      have hg : hasPrefix (abs w p) (abs w a.storagePath) = true := by simpa using hg
      rw [if_neg (by simpa using hg)]
      split at hs
      · cases hs
      · rename_i hex
        rw [if_neg hex]
        cases hrm : rename w (abs w p) (join (dir (abs w p)) newName) with
        | error e => rw [hrm] at hs; cases hs
        | ok w1 =>
          simp only
          have hnp := not_prefix_of_guard hg hne
          rw [← resolve_abs w p] at hnp
          have hnn : join (dir (abs w p)) newName ≠ [] := by
            intro e; rw [e, rename_nil_right] at hrm; cases hrm
          have hnq := not_prefix_of_missing hnn (by simpa using hex) hlook
          obtain ⟨hc, hl⟩ := rename_keeps hrm hnp hnq
          exact key w1 hc hl
  · intro src destDir hne hs
    unfold MoveItem at hs ⊢
    simp only at hs ⊢
    split at hs
    · cases hs
    · rename_i hg
      have hg : hasPrefix (abs w src) (abs w a.storagePath) = true := by
        simp only [Bool.or_eq_true, Bool.not_eq_true', not_or, Bool.not_eq_false] at hg
        exact hg.1
      have hg2 : ¬ ((!hasPrefix (abs w src) (abs w a.storagePath) ||
          !hasPrefix (abs w destDir) (abs w a.storagePath)) = true) := by assumption
      rw [if_neg hg2]
      split at hs
      · cases hs
      · rename_i hex
        rw [if_neg hex]
        cases hrm : rename w (abs w src) (join (abs w destDir) (base (abs w src))) with
        | error e => rw [hrm] at hs; cases hs
        | ok w1 =>
          simp only
          have hnp := not_prefix_of_guard hg hne
          rw [← resolve_abs w src] at hnp
          have hnn : join (abs w destDir) (base (abs w src)) ≠ [] := by
            intro e; rw [e, rename_nil_right] at hrm; cases hrm
          have hnq := not_prefix_of_missing hnn (by simpa using hex) hlook
          obtain ⟨hc, hl⟩ := rename_keeps hrm hnp hnq
          exact key w1 hc hl

/-- C4 (amended) at a concrete input: deleting the folder `/a/b/v1.0`, renaming
`/a/b/x.txt` to `y.txt` and moving `/a/b/x.txt` into `/a/b/v1.0` keep the root
`/a/b`. -/
theorem root_survives_witness :
    lookAt (DeleteItem sampleApp sampleWorld "/a/b/v1.0".toList).2
      (abs sampleWorld sampleApp.storagePath) = .ok .dir ∧
    lookAt (RenameItem sampleApp sampleWorld "/a/b/x.txt".toList "y.txt".toList).2
      (abs sampleWorld sampleApp.storagePath) = .ok .dir ∧
    lookAt (MoveItem sampleApp sampleWorld "/a/b/x.txt".toList "/a/b/v1.0".toList).2
      (abs sampleWorld sampleApp.storagePath) = .ok .dir :=
  ⟨(root_survives sampleApp sampleWorld (by rfl)).1 "/a/b/v1.0".toList (by decide) (by decide),
    (root_survives sampleApp sampleWorld (by rfl)).2.1 "/a/b/x.txt".toList "y.txt".toList
      (by decide) (by decide),
    (root_survives sampleApp sampleWorld (by rfl)).2.2 "/a/b/x.txt".toList "/a/b/v1.0".toList
      (by decide) (by decide)⟩

/-! ## Decimal numbers -/

theorem toDigitsCore_append (fuel : Nat) : ∀ (n : Nat) (ds : List Char),
    Nat.toDigitsCore 10 fuel n ds = Nat.toDigitsCore 10 fuel n [] ++ ds := by
  induction fuel with
  | zero => intro n ds; simp [Nat.toDigitsCore]
  | succ f ih =>
    intro n ds
    simp only [Nat.toDigitsCore]
    split
    · simp
    · rw [ih (n / 10) (Nat.digitChar (n % 10) :: ds), ih (n / 10) [Nat.digitChar (n % 10)]]
      simp

theorem digitVal_digitChar {d : Nat} (h : d < 10) : digitVal (Nat.digitChar d) = d := by
  interval_cases d <;> rfl

theorem digitChar_ne_sep {d : Nat} (h : d < 10) : Nat.digitChar d ≠ '/' := by
  interval_cases d <;> decide

theorem atoi_append_single (s : Str) (c : Char) : atoi (s ++ [c]) = 10 * atoi s + digitVal c := by
  simp [atoi, List.foldl_append]

theorem atoi_toDigitsCore (fuel : Nat) : ∀ n, n < fuel →
    atoi (Nat.toDigitsCore 10 fuel n []) = n := by
  induction fuel with
  | zero => intro n h; omega
  | succ f ih =>
    intro n h
    simp only [Nat.toDigitsCore]
    split
    · rename_i h0
      have h1 : n % 10 = n := by omega
      have h2 : n < 10 := by omega
      rw [h1]
      simp [atoi, digitVal_digitChar h2]
    · rename_i h0
      rw [toDigitsCore_append, atoi_append_single, ih (n / 10) (by omega),
        digitVal_digitChar (Nat.mod_lt n (by decide))]
      omega

theorem atoi_itoa (n : Nat) : atoi (itoa n) = n :=
  atoi_toDigitsCore (n + 1) n (Nat.lt_succ_self n)

theorem itoa_injective : Function.Injective itoa := fun a b h => by
  rw [← atoi_itoa a, ← atoi_itoa b, h]

theorem noSep_toDigitsCore (fuel : Nat) : ∀ (n : Nat), '/' ∉ Nat.toDigitsCore 10 fuel n [] := by
  induction fuel with
  | zero => intro n; simp [Nat.toDigitsCore]
  | succ f ih =>
    intro n
    simp only [Nat.toDigitsCore]
    split
    · simp only [List.mem_singleton]
      exact fun e => digitChar_ne_sep (Nat.mod_lt n (by decide)) e.symm
    · rw [toDigitsCore_append]
      simp only [List.mem_append, List.mem_singleton, not_or]
      exact ⟨ih _, fun e => digitChar_ne_sep (Nat.mod_lt n (by decide)) e.symm⟩

theorem noSep_itoa (n : Nat) : '/' ∉ itoa n := noSep_toDigitsCore _ _

/-! ## The probing loop -/

theorem probeSeq_shift {α : Type} (next : Nat → α) (c : Nat) (cur : α) (i : Nat) :
    probeSeq next (c + 1) (next c) i = probeSeq next c cur (i + 1) := by
  cases i with
  | zero => rfl
  | succ i => simp only [probeSeq]; congr 1; omega

/-- The loop stops at the first free candidate, if the fuel reaches that far. -/
theorem probeLoop_first_free {α : Type} (isFree : α → Bool) (next : Nat → α) :
    ∀ (fuel c : Nat) (cur : α) (j : Nat), j < fuel →
      isFree (probeSeq next c cur j) = true →
      (∀ i < j, isFree (probeSeq next c cur i) = false) →
      probeLoop isFree next fuel c cur = some (probeSeq next c cur j, c + j) := by
  intro fuel
  induction fuel with
  | zero => intro c cur j h; omega
  | succ f ih =>
    intro c cur j hj hfree hbefore
    cases j with
    | zero =>
      have : isFree cur = true := hfree
      simp only [probeLoop, this, if_true, probeSeq, Nat.add_zero]
    | succ j =>
      have h0 : isFree cur = false := hbefore 0 (Nat.succ_pos j)
      simp only [probeLoop, h0, Bool.false_eq_true, if_false]
      rw [ih (c + 1) (next c) j (by omega) (by rw [probeSeq_shift]; exact hfree)
        (fun i hi => by rw [probeSeq_shift]; exact hbefore (i + 1) (by omega))]
      rw [probeSeq_shift]
      congr 2; omega

/-- The loop does not stop while every candidate it sees is taken. -/
theorem probeLoop_none {α : Type} (isFree : α → Bool) (next : Nat → α) :
    ∀ (fuel c : Nat) (cur : α),
      (∀ i < fuel, isFree (probeSeq next c cur i) = false) →
      probeLoop isFree next fuel c cur = none := by
  intro fuel
  induction fuel with
  | zero => intro c cur _; rfl
  | succ f ih =>
    intro c cur h
    have h0 : isFree cur = false := h 0 (Nat.succ_pos f)
    simp only [probeLoop, h0, Bool.false_eq_true, if_false]
    exact ih (c + 1) (next c) (fun i hi => by rw [probeSeq_shift]; exact h (i + 1) (by omega))

/-- Among the first `n + 1` of pairwise distinct candidates one is not among `n`
given names; the first such candidate has only taken ones before it. -/
theorem exists_first_free (names : List Str) (cand : Nat → Str)
    (hinj : Function.Injective cand) :
    ∃ k, k ≤ names.length ∧ cand k ∉ names ∧ ∀ j < k, cand j ∈ names := by
  have hex : ∃ k, k ≤ names.length ∧ cand k ∉ names := by
    by_contra hcon
    push_neg at hcon
    have hsub : (List.range (names.length + 1)).map cand ⊆ names := by
      intro x hx
      obtain ⟨k, hk, rfl⟩ := List.mem_map.1 hx
      exact hcon k (by have := List.mem_range.1 hk; omega)
    have hnd : ((List.range (names.length + 1)).map cand).Nodup :=
      (List.nodup_range _).map hinj
    have := (hnd.subperm hsub).length_le
    simp at this
  classical
  have hex2 : ∃ k, cand k ∉ names := by
    obtain ⟨k, _, hk⟩ := hex
    exact ⟨k, hk⟩
  refine ⟨Nat.find hex2, ?_, Nat.find_spec hex2, ?_⟩
  · obtain ⟨k, hk, hk2⟩ := hex
    exact le_trans (Nat.find_min' hex2 hk2) hk
  · intro j hj
    by_contra hcon
    exact Nat.find_min hex2 hj hcon

/-! ## Names and extensions -/

theorem splitExt_append (s : Str) : (splitExt s).1 ++ (splitExt s).2 = s := by
  induction s with
  | nil => rfl
  | cons c cs ih =>
    simp only [splitExt]
    split
    · simp [ih]
    · split
      · simp
      · rename_i h _
        have h2 : (splitExt cs).2 = [] := by simpa using h
        rw [h2] at ih
        simp only [List.append_nil] at ih ⊢
        rw [ih]

theorem ext_eq_splitExt {s : Str} (h : '/' ∉ s) : ext s = (splitExt s).2 := by
  induction s with
  | nil => rfl
  | cons c cs ih =>
    have hcs : '/' ∉ cs := fun e => h (List.mem_cons_of_mem _ e)
    have ih := ih hcs
    simp only [ext, splitExt]
    rw [ih]
    split
    · rfl
    · by_cases hc : c = '.'
      · simp [hcs, hc]
      · simp [hc]

theorem trimSuffix_append (a b : Str) : trimSuffix (a ++ b) b = a := by
  have h : hasSuffix (a ++ b) b = true := by
    unfold hasSuffix
    rw [List.isSuffixOf_iff_suffix]
    exact List.suffix_append a b
  simp [trimSuffix, h]

theorem trimSuffix_ext {s : Str} (h : '/' ∉ s) : trimSuffix s (ext s) = (splitExt s).1 := by
  rw [ext_eq_splitExt h]
  have := trimSuffix_append (splitExt s).1 (splitExt s).2
  rw [splitExt_append] at this
  exact this

theorem noSep_splitExt {s : Str} (h : '/' ∉ s) :
    '/' ∉ (splitExt s).1 ∧ '/' ∉ (splitExt s).2 := by
  rw [← splitExt_append s] at h
  simp only [List.mem_append, not_or] at h
  exact h

/-- A name built as `stem`, an infix containing `_`, a number and `ext` names an
entry. -/
theorem validSeg_numbered (stem mid ext1 : Str) (k : Nat) (hs : '/' ∉ stem) (hm : '/' ∉ mid)
    (he : '/' ∉ ext1) (hu : '_' ∈ mid) :
    validSeg (stem ++ mid ++ itoa k ++ ext1) := by
  have hmem : '_' ∈ stem ++ mid ++ itoa k ++ ext1 := by simp [hu]
  refine ⟨?_, ?_, ?_, ?_⟩
  · intro e; rw [e] at hmem; cases hmem
  · intro e; rw [e] at hmem; simp at hmem
  · intro e; rw [e] at hmem; simp at hmem
  · simp only [List.mem_append, not_or]
    exact ⟨⟨⟨hs, hm⟩, noSep_itoa k⟩, he⟩

theorem numbered_injective (stem mid ext1 : Str) :
    Function.Injective (fun k => stem ++ mid ++ itoa k ++ ext1) := by
  intro i j h
  simp only [List.append_assoc] at h
  have h1 := List.append_cancel_left (List.append_cancel_left h)
  exact itoa_injective (List.append_cancel_right h1)

theorem numbered_ne (stem mid ext1 : Str) (k : Nat) (hm : mid ≠ []) :
    stem ++ ext1 ≠ stem ++ mid ++ itoa k ++ ext1 := by
  intro h
  have := congrArg List.length h
  simp only [List.length_append] at this
  have : mid.length = 0 := by omega
  exact hm (List.length_eq_zero.1 this)

theorem fileCandidate_succ (name : Str) (k : Nat) :
    fileCandidate name (k + 1)
      = (splitExt name).1 ++ ['_'] ++ itoa (k + 1) ++ (splitExt name).2 := by
  simp [fileCandidate]

theorem folderCandidate_succ (name : Str) (k : Nat) :
    folderCandidate name (k + 1) = name ++ ['_'] ++ itoa (k + 1) ++ [] := by
  simp [folderCandidate]

theorem copyCandidate_succ (name : Str) (k : Nat) :
    copyCandidate name (k + 1)
      = (splitExt name).1 ++ "_copy_".toList ++ itoa (k + 1) ++ (splitExt name).2 := by
  simp [copyCandidate]

/-- A sequence that starts with `stem ++ ext` and goes on with numbered names is
free of repetitions. -/
theorem candidate_injective (cand : Nat → Str) (stem mid ext1 : Str) (hm : mid ≠ [])
    (h0 : cand 0 = stem ++ ext1) (hs : ∀ k, cand (k + 1) = stem ++ mid ++ itoa (k + 1) ++ ext1) :
    Function.Injective cand := by
  intro i j h
  cases i with
  | zero =>
    cases j with
    | zero => rfl
    | succ j => rw [h0, hs] at h; exact absurd h (numbered_ne _ _ _ _ hm)
  | succ i =>
    cases j with
    | zero => rw [h0, hs] at h; exact absurd h.symm (numbered_ne _ _ _ _ hm)
    | succ j =>
      rw [hs, hs] at h
      exact numbered_injective stem mid ext1 h

theorem fileCandidate_injective (name : Str) : Function.Injective (fileCandidate name) :=
  candidate_injective _ (splitExt name).1 ['_'] (splitExt name).2 (by simp)
    (by simp [fileCandidate, splitExt_append]) (fileCandidate_succ name)

theorem folderCandidate_injective (name : Str) : Function.Injective (folderCandidate name) :=
  candidate_injective _ name ['_'] [] (by simp) (by simp [folderCandidate])
    (folderCandidate_succ name)

theorem copyCandidate_injective (name : Str) : Function.Injective (copyCandidate name) :=
  candidate_injective _ (splitExt name).1 "_copy_".toList (splitExt name).2 (by simp)
    (by simp [copyCandidate, splitExt_append]) (copyCandidate_succ name)

theorem fileCandidate_valid {name : Str} (h : validSeg name) (k : Nat) :
    validSeg (fileCandidate name k) := by
  cases k with
  | zero => exact h
  | succ k =>
    rw [fileCandidate_succ]
    exact validSeg_numbered _ _ _ _ (noSep_splitExt h.2.2.2).1 (by simp)
      (noSep_splitExt h.2.2.2).2 (by simp)

theorem folderCandidate_valid {name : Str} (h : validSeg name) (k : Nat) :
    validSeg (folderCandidate name k) := by
  cases k with
  | zero => exact h
  | succ k =>
    rw [folderCandidate_succ]
    exact validSeg_numbered _ _ _ _ h.2.2.2 (by simp) (by simp) (by simp)

theorem copyCandidate_valid {name : Str} (h : validSeg name) (k : Nat) :
    validSeg (copyCandidate name k) := by
  cases k with
  | zero => exact h
  | succ k =>
    rw [copyCandidate_succ]
    exact validSeg_numbered _ _ _ _ (noSep_splitExt h.2.2.2).1 (by decide)
      (noSep_splitExt h.2.2.2).2 (by decide)

/-! ## Probing a directory -/

theorem joinSep_ne_nil {l : List Str} (hl : l ≠ []) (h : ∀ x ∈ l, x ≠ []) : joinSep l ≠ [] := by
  cases l with
  | nil => exact absurd rfl hl
  | cons a t =>
    cases t with
    | nil => simpa [joinSep] using h a (by simp)
    | cons b t => simp [joinSep]

theorem clean_ne_nil (p : Str) : clean p ≠ [] := by
  unfold clean
  split
  · simp
  · split
    · simp
    · split
      · simp
      · rename_i segs hne
        apply joinSep_ne_nil
        · intro e; exact hne e
        · intro x hx
          unfold cleanSegs at hx
          rw [List.mem_reverse] at hx
          exact (foldl_cleanStep_false_inv _ [] (by simp) x hx).1

theorem join_ne_nil {d : Str} (n : Str) (hd : d ≠ []) : join d n ≠ [] := by
  simp only [join, hd, ne_eq, not_false_eq_true, if_true]
  exact clean_ne_nil _

theorem stat_ne_nil {w : World} {d : Str} {n : Node} (h : stat w d = .ok n) : d ≠ [] := by
  intro e; subst e; simp [stat] at h

theorem stat_eq_tree {w : World} {d : Str} (hd : d ≠ []) :
    stat w d = w.tree.stat (resolve w d) := by
  simp [stat, hd]

/-- Looking up `dir/name` in a world where `dir` is a directory looks up `name`
among its entries. -/
theorem stat_join_child {w : World} {d : Str} {es : List (Str × Node)}
    (hst : stat w d = .ok (.dir es)) {c : Str} (hc : validSeg c) :
    stat w (join d c) = match lookupE c es with
      | none => .error .ENOENT
      | some x => .ok x := by
  have hd := stat_ne_nil hst
  rw [stat_eq_tree hd] at hst
  rw [stat_eq_tree (join_ne_nil c hd), resolve_join w d hd hc, Node.stat_child hst]

theorem isNotExist_join_child {w : World} {d : Str} {es : List (Str × Node)}
    (hst : stat w d = .ok (.dir es)) {c : Str} (hc : validSeg c) :
    isNotExist (stat w (join d c)) = decide (c ∉ es.map Prod.fst) := by
  rw [stat_join_child hst hc]
  cases hl : lookupE c es with
  | none =>
    have := (lookupE_eq_none_iff c es).1 hl
    simp [isNotExist, this]
  | some x =>
    have : ¬ c ∉ es.map Prod.fst := fun e => by
      rw [(lookupE_eq_none_iff c es).2 e] at hl; cases hl
    simp only [isNotExist, this, decide_False]

/-- In a directory with the entries `es`, a loop that probes `dir/cand 0`,
`dir/cand 1`, ... for pairwise distinct entry names stops at the first name that
is not among the entries, after at most `es.length + 1` probes. -/
theorem probe_directory {w : World} {d : Str} {es : List (Str × Node)}
    (hst : stat w d = .ok (.dir es)) (cand : Nat → Str) (hvalid : ∀ k, validSeg (cand k))
    (hinj : Function.Injective cand) (next : Nat → Str × Str)
    (hnext : ∀ j, next (1 + j) = (cand (j + 1), join d (cand (j + 1))))
    (fuel : Nat) (hfuel : es.length + 1 ≤ fuel) :
    ∃ k, k ≤ es.length ∧ cand k ∉ es.map Prod.fst ∧ (∀ j < k, cand j ∈ es.map Prod.fst) ∧
      probeLoop (fun c : Str × Str => isNotExist (stat w c.2)) next fuel 1
        (cand 0, join d (cand 0)) = some ((cand k, join d (cand k)), 1 + k) := by
  obtain ⟨k, hk, hfree, hbefore⟩ := exists_first_free (es.map Prod.fst) cand hinj
  rw [List.length_map] at hk
  have hseq : ∀ j, probeSeq next 1 (cand 0, join d (cand 0)) j = (cand j, join d (cand j)) := by
    intro j
    cases j with
    | zero => rfl
    | succ j => exact hnext j
  refine ⟨k, hk, hfree, hbefore, ?_⟩
  have := probeLoop_first_free (fun c : Str × Str => isNotExist (stat w c.2)) next fuel 1
    (cand 0, join d (cand 0)) k (by omega)
    (by rw [hseq]; simp only; rw [isNotExist_join_child hst (hvalid k)]; exact decide_eq_true hfree)
    (fun i hi => by
      rw [hseq]; simp only; rw [isNotExist_join_child hst (hvalid i)]
      exact decide_eq_false (fun e => e (hbefore i hi)))
  rw [this, hseq]

theorem resolve_cwd {w w2 : World} (h : w2.cwd = w.cwd) (p : Str) : resolve w2 p = resolve w p := by
  simp only [resolve, getwd, h]

/-- Rewriting the entry `dir/name` of an existing directory `dir`: it succeeds
when `f` does, puts what `f` answers, and changes nothing elsewhere. -/
theorem updatePath_child {w : World} {d : Str} {es : List (Str × Node)}
    (hst : stat w d = .ok (.dir es)) {c : Str} (hc : validSeg c) (atRoot : Errno)
    (f : Option Node → Except Errno (Option Node)) {r : Option Node}
    (hf : f (lookupE c es) = .ok r) :
    ∃ w2, updatePath w (join d c) atRoot f = .ok w2 ∧ w2.cwd = w.cwd ∧
      w2.tree.stat (resolve w d ++ [c]) = foundAt r ∧
      ∀ q, ¬ (resolve w d ++ [c]) <+: q → w2.tree.look q = w.tree.look q := by
  have hd := stat_ne_nil hst
  rw [stat_eq_tree hd] at hst
  obtain ⟨t1, ht1⟩ := Node.updateAt_ok f c (resolve w d) w.tree es r hst hf
  refine ⟨{ w with tree := t1 }, ?_, rfl, ?_, ?_⟩
  · unfold updatePath
    rw [if_neg (join_ne_nil c hd), resolve_join w d hd hc, if_neg (by simp), ht1]
    rfl
  · obtain ⟨r1, hr1, hst1⟩ := Node.updateAt_target f _ _ _ ht1
    rw [Node.stat_child hst] at hr1
    have : r1 = r := by
      cases hl : lookupE c es with
      | none => rw [hl] at hr1 hf; simp only at hr1; rw [hf] at hr1; injection hr1 with e; exact e.symm
      | some x => rw [hl] at hr1 hf; simp only at hr1; rw [hf] at hr1; injection hr1 with e; exact e.symm
    rw [this] at hst1
    rw [hst1]
    cases r <;> rfl
  · intro q hq
    exact Node.updateAt_frame f _ _ _ ht1 q hq

theorem lookAt_join_child {w w2 : World} {d c : Str} (hd : d ≠ []) (hc : validSeg c)
    (hcwd : w2.cwd = w.cwd) {v : Node} (h : w2.tree.stat (resolve w d ++ [c]) = .ok v) :
    lookAt w2 (join d c) = .ok v.entry := by
  rw [lookAt_eq_look w2 (join_ne_nil c hd), resolve_cwd hcwd, resolve_join w d hd hc]
  simp only [Node.look, h]

theorem createFileProbe_spec {w : World} {d : Str} {es : List (Str × Node)}
    (hst : stat w d = .ok (.dir es)) {name : Str} (hname : validSeg name)
    (fuel : Nat) (hfuel : es.length + 1 ≤ fuel) :
    ∃ k, k ≤ es.length ∧ fileCandidate name k ∉ es.map Prod.fst ∧
      (∀ j < k, fileCandidate name j ∈ es.map Prod.fst) ∧
      createFileProbe fuel w d name
        = some ((fileCandidate name k, join d (fileCandidate name k)), 1 + k) := by
  unfold createFileProbe
  exact probe_directory hst (fileCandidate name) (fileCandidate_valid hname)
    (fileCandidate_injective name) _
    (fun j => by
      have h1 := trimSuffix_ext hname.2.2.2
      rw [ext_eq_splitExt hname.2.2.2] at h1
      simp only [h1, ext_eq_splitExt hname.2.2.2, fileCandidate_succ,
        Nat.add_comm 1 j, List.append_assoc, List.singleton_append])
    fuel hfuel

theorem createFolderProbe_spec {w : World} {d : Str} {es : List (Str × Node)}
    (hst : stat w d = .ok (.dir es)) {name : Str} (hname : validSeg name)
    (fuel : Nat) (hfuel : es.length + 1 ≤ fuel) :
    ∃ k, k ≤ es.length ∧ folderCandidate name k ∉ es.map Prod.fst ∧
      (∀ j < k, folderCandidate name j ∈ es.map Prod.fst) ∧
      createFolderProbe fuel w d name
        = some ((folderCandidate name k, join d (folderCandidate name k)), 1 + k) := by
  unfold createFolderProbe
  exact probe_directory hst (folderCandidate name) (folderCandidate_valid hname)
    (folderCandidate_injective name) _
    (fun j => by
      simp only [folderCandidate_succ, Nat.add_comm 1 j, List.append_assoc,
        List.singleton_append, List.append_nil])
    fuel hfuel

/-! ## Names for new files and folders -/

/-- C5 (counterexample): in the workspace `/a/b` no entry has the empty name, so
the empty name is the first name of the sequence that is not present; yet
`CreateFile` and `CreateFolder` asked for the empty name choose `_1`, which is
not the first name of the sequence that is not present.  Asked for `d/x` in the
folder `v1.0`, whose only entry is `d`, `CreateFile` chooses `d/x_2`. -/
theorem create_with_degenerate_name :
    stat sampleWorld "/a/b".toList = .ok (.dir sampleWorkspace) ∧
    fileCandidate [] 0 ∉ sampleWorkspace.map Prod.fst ∧
    (CreateFile 5 sampleApp sampleWorld "json".toList "/a/b".toList []).map
        (fun r => (r.1.Success, r.1.Data.itemName)) = some (true, some "_1".toList) ∧
    (¬ ∃ k, "_1".toList = fileCandidate [] k ∧ fileCandidate [] k ∉ sampleWorkspace.map Prod.fst ∧
      ∀ j < k, fileCandidate [] j ∈ sampleWorkspace.map Prod.fst) ∧
    folderCandidate [] 0 ∉ sampleWorkspace.map Prod.fst ∧
    (CreateFolder 5 sampleApp sampleWorld "json".toList "/a/b".toList []).map
        (fun r => (r.1.Success, r.1.Data.itemName)) = some (true, some "_1".toList) ∧
    fileCandidate "d/x".toList 0 ∉ sampleFolder.map Prod.fst ∧
    (CreateFile 5 sampleApp sampleWorld "json".toList "/a/b/v1.0".toList "d/x".toList).map
        (fun r => (r.1.Success, r.1.Data.itemName)) = some (true, some "d/x_2".toList) := by
  refine ⟨by rfl, by decide, by rfl, ?_, by decide, by rfl, by decide, by rfl⟩
  rintro ⟨k, hk, _, hbefore⟩
  cases k with
  | zero => exact absurd hk (by decide)
  | succ k => exact absurd (hbefore 0 (Nat.succ_pos k)) (by decide)

/-- C5 (amended): for a desired name that is a single path element (not empty,
not `.` or `..`, without `/`) and a target directory that `MkdirAll` could
ensure, with the entries `es`, where the paths of the candidates with the
numbers 0 to `es.length` are paths that the operating system takes
(`legalPath`: no NUL character, no element longer than 255 bytes, fewer than
1024 bytes in all), so that `os.Stat` either finds an entry or answers
`ErrNotExist`: `CreateFile` succeeds with the first name of
`desiredName, stem_1ext, stem_2ext, ...` that no entry of the directory bears and
leaves an empty file of that name in the directory; `CreateFolder` succeeds with
the first such name of `desiredName, desiredName_1, desiredName_2, ...` and
leaves a directory of that name.  The path of the name chosen is one of those
candidates.  Nothing is said of a name whose candidates the operating system
refuses: there `os.Stat` fails with an error that is not `ErrNotExist` and the
loop of the source has no exit. -/
theorem create_picks_first_free_name (a : App) (w w1 : World) (tool parentPath name : Str)
    (es : List (Str × Node)) (fuel : Nat)
    (hname : validSeg name)
    (hmk : mkdirAll w (targetDir a tool parentPath) = .ok w1)
    (hdir : stat w1 (targetDir a tool parentPath) = .ok (.dir es))
    (hfuel : es.length + 1 ≤ fuel)
    (hlegal : ∀ j ≤ es.length,
      legalPath (join (targetDir a tool parentPath) (fileCandidate name j)) = true ∧
      legalPath (join (targetDir a tool parentPath) (folderCandidate name j)) = true) :
    (∃ k w2, fileCandidate name k ∉ es.map Prod.fst ∧
      (∀ j < k, fileCandidate name j ∈ es.map Prod.fst) ∧
      CreateFile fuel a w tool parentPath name
        = some (success (.item (.mk
            (relID a (join (targetDir a tool parentPath) (fileCandidate name k)))
            (fileCandidate name k) "file".toList
            (join (targetDir a tool parentPath) (fileCandidate name k)) [] false)), w2) ∧
      lookAt w2 (join (targetDir a tool parentPath) (fileCandidate name k)) = .ok (.file []) ∧
      legalPath (join (targetDir a tool parentPath) (fileCandidate name k)) = true) ∧
    (∃ k w2, folderCandidate name k ∉ es.map Prod.fst ∧
      (∀ j < k, folderCandidate name j ∈ es.map Prod.fst) ∧
      CreateFolder fuel a w tool parentPath name
        = some (success (.item (.mk
            (relID a (join (targetDir a tool parentPath) (folderCandidate name k)))
            (folderCandidate name k) "folder".toList
            (join (targetDir a tool parentPath) (folderCandidate name k)) [] true)), w2) ∧
      lookAt w2 (join (targetDir a tool parentPath) (folderCandidate name k)) = .ok .dir ∧
      legalPath (join (targetDir a tool parentPath) (folderCandidate name k)) = true) := by
  have hd := stat_ne_nil hdir
  constructor
  · obtain ⟨k, hk, hfree, hbefore, hloop⟩ := createFileProbe_spec hdir hname fuel hfuel
    have hv := fileCandidate_valid hname k
    obtain ⟨w2, hw2, hcwd, hst2, _⟩ := updatePath_child hdir hv .EISDIR (writeEntry [])
      (r := some (.file [])) (by rw [(lookupE_eq_none_iff _ es).2 hfree]; rfl)
    refine ⟨k, w2, hfree, hbefore, ?_, lookAt_join_child hd hv hcwd hst2, (hlegal k hk).1⟩
    have hcr : create w1 (join (targetDir a tool parentPath) (fileCandidate name k)) = .ok w2 := hw2
    unfold targetDir at hmk hloop hcr ⊢
    simp only [CreateFile, hmk, hloop, hcr]
  · obtain ⟨k, hk, hfree, hbefore, hloop⟩ := createFolderProbe_spec hdir hname fuel hfuel
    have hv := folderCandidate_valid hname k
    obtain ⟨w2, hw2, hcwd, hst2, _⟩ := updatePath_child hdir hv .EEXIST mkdirEntry
      (r := some (.dir [])) (by rw [(lookupE_eq_none_iff _ es).2 hfree]; rfl)
    refine ⟨k, w2, hfree, hbefore, ?_, lookAt_join_child hd hv hcwd hst2, (hlegal k hk).2⟩
    have hcr : mkdir w1 (join (targetDir a tool parentPath) (folderCandidate name k)) = .ok w2 :=
      hw2
    unfold targetDir at hmk hloop hcr ⊢
    simp only [CreateFolder, hmk, hloop, hcr]

/-- C5 (amended) at a concrete input: in the workspace `/a/b`, which holds
`x.txt` and `x_1.txt`, the name chosen for `x.txt` is `x_2.txt`; a new folder
asked to be `v1.0` becomes `v1.0_1`. -/
theorem create_picks_first_free_name_witness :
    ((∃ k w2, fileCandidate "x.txt".toList k ∉ sampleWorkspace.map Prod.fst ∧
      (∀ j < k, fileCandidate "x.txt".toList j ∈ sampleWorkspace.map Prod.fst) ∧
      CreateFile 5 sampleApp sampleWorld "json".toList "/a/b".toList "x.txt".toList
        = some (success (.item (.mk
            (relID sampleApp (join (targetDir sampleApp "json".toList "/a/b".toList)
              (fileCandidate "x.txt".toList k)))
            (fileCandidate "x.txt".toList k) "file".toList
            (join (targetDir sampleApp "json".toList "/a/b".toList)
              (fileCandidate "x.txt".toList k)) [] false)), w2) ∧
      lookAt w2 (join (targetDir sampleApp "json".toList "/a/b".toList)
        (fileCandidate "x.txt".toList k)) = .ok (.file []) ∧
      legalPath (join (targetDir sampleApp "json".toList "/a/b".toList)
        (fileCandidate "x.txt".toList k)) = true) ∧
    (∃ k w2, folderCandidate "x.txt".toList k ∉ sampleWorkspace.map Prod.fst ∧
      (∀ j < k, folderCandidate "x.txt".toList j ∈ sampleWorkspace.map Prod.fst) ∧
      CreateFolder 5 sampleApp sampleWorld "json".toList "/a/b".toList "x.txt".toList
        = some (success (.item (.mk
            (relID sampleApp (join (targetDir sampleApp "json".toList "/a/b".toList)
              (folderCandidate "x.txt".toList k)))
            (folderCandidate "x.txt".toList k) "folder".toList
            (join (targetDir sampleApp "json".toList "/a/b".toList)
              (folderCandidate "x.txt".toList k)) [] true)), w2) ∧
      lookAt w2 (join (targetDir sampleApp "json".toList "/a/b".toList)
        (folderCandidate "x.txt".toList k)) = .ok .dir ∧
      legalPath (join (targetDir sampleApp "json".toList "/a/b".toList)
        (folderCandidate "x.txt".toList k)) = true)) ∧
    (CreateFile 5 sampleApp sampleWorld "json".toList "/a/b".toList "x.txt".toList).map
      (fun r => r.1.Data.itemName) = some (some "x_2.txt".toList) ∧
    (CreateFolder 5 sampleApp sampleWorld "json".toList "/a/b".toList "v1.0".toList).map
      (fun r => r.1.Data.itemName) = some (some "v1.0_1".toList) :=
  ⟨create_picks_first_free_name sampleApp sampleWorld sampleWorld "json".toList "/a/b".toList
      "x.txt".toList sampleWorkspace 5 (by decide) (by rfl) (by rfl) (by decide) (by decide),
    by rfl, by rfl⟩

/-- C6 (counterexample): the folder `/a/b/v1.0` has one entry, `d`.  Asked for
the name `d/x`, the loop of `CreateFile` has not stopped after 1 + 1 probes and
stops at the third; the loop of `CreateFolder` does the same.  Asked for the name
`x.txt/y` in the workspace, where `x.txt` is a file, the loop of `CreateFile`
never stops: every probe fails with `ENOTDIR`, which is not `IsNotExist`. -/
theorem probe_exceeds_entries_plus_one :
    stat sampleWorld "/a/b/v1.0".toList = .ok (.dir sampleFolder) ∧
    sampleFolder.length = 1 ∧
    createFileProbe 2 sampleWorld "/a/b/v1.0".toList "d/x".toList = none ∧
    createFileProbe 3 sampleWorld "/a/b/v1.0".toList "d/x".toList
      = some (("d/x_2".toList, "/a/b/v1.0/d/x_2".toList), 3) ∧
    createFolderProbe 2 sampleWorld "/a/b/v1.0".toList "d/x".toList = none ∧
    createFolderProbe 3 sampleWorld "/a/b/v1.0".toList "d/x".toList
      = some (("d/x_2".toList, "/a/b/v1.0/d/x_2".toList), 3) ∧
    ∀ fuel, createFileProbe fuel sampleWorld "/a/b".toList "x.txt/y".toList = none := by
  refine ⟨by rfl, by rfl, by rfl, by rfl, by rfl, by rfl, ?_⟩
  intro fuel
  unfold createFileProbe
  apply probeLoop_none
  intro i _
  have hfile : stat sampleWorld "/a/b/x.txt".toList = .ok (.file "one".toList) := by rfl
  have hkey : ∀ c : Str, validSeg c →
      isNotExist (stat sampleWorld (join "/a/b".toList ("x.txt/".toList ++ c))) = false := by
    intro c hc
    have hj : join "/a/b".toList ("x.txt/".toList ++ c) = join "/a/b/x.txt".toList c := by
      simp [join]
    rw [hj, stat_eq_tree (join_ne_nil c (by simp)),
      resolve_join sampleWorld _ (by simp) hc, Node.stat_append]
    rw [stat_eq_tree (by simp)] at hfile
    rw [hfile]
    rfl
  cases i with
  | zero => exact hkey "y".toList (by decide)
  | succ i =>
    have he : ext "x.txt/y".toList = [] := by rfl
    have hb : trimSuffix "x.txt/y".toList [] = "x.txt/y".toList := by rfl
    simp only [probeSeq, he, hb, List.append_nil]
    have : "x.txt/y".toList ++ '_' :: itoa (1 + i) = "x.txt/".toList ++ ("y".toList ++ ['_'] ++ itoa (1 + i) ++ []) := by
      simp
    rw [this]
    exact hkey _ (validSeg_numbered _ _ _ _ (by decide) (by decide) (by simp) (by simp))

/-- C6 (amended): in a directory with the entries `es`, for a desired name that
is a single path element and whose candidates with the numbers 0 to `es.length`
have paths that the operating system takes (`legalPath`: no NUL character, no
element longer than 255 bytes, fewer than 1024 bytes in all), the name-probing
loops of `CreateFile` and `CreateFolder` stop after at most `es.length + 1`
probes (the counter they return counts the probes), at one of those paths; the
candidates of distinct counters are distinct.  Nothing is said of the names on
which `os.Stat` fails with an error other than `ErrNotExist` (a name that leads
below a regular file, an element that is too long, a NUL character): the loop of
the source leaves only on `os.IsNotExist(err)` and has no exit there. -/
theorem probe_stops_within_entries_plus_one (w : World) (d name : Str)
    (es : List (Str × Node)) (hname : validSeg name) (hdir : stat w d = .ok (.dir es))
    (hlegal : ∀ j ≤ es.length,
      legalPath (join d (fileCandidate name j)) = true ∧
      legalPath (join d (folderCandidate name j)) = true) :
    (∃ r, createFileProbe (es.length + 1) w d name = some r ∧ r.2 ≤ es.length + 1 ∧
      legalPath r.1.2 = true) ∧
    (∃ r, createFolderProbe (es.length + 1) w d name = some r ∧ r.2 ≤ es.length + 1 ∧
      legalPath r.1.2 = true) ∧
    Function.Injective (fileCandidate name) ∧ Function.Injective (folderCandidate name) := by
  obtain ⟨k, hk, _, _, h1⟩ := createFileProbe_spec hdir hname (es.length + 1) (le_refl _)
  obtain ⟨k2, hk2, _, _, h2⟩ := createFolderProbe_spec hdir hname (es.length + 1) (le_refl _)
  exact ⟨⟨_, h1, by simp only; omega, (hlegal k hk).1⟩,
    ⟨_, h2, by simp only; omega, (hlegal k2 hk2).2⟩,
    fileCandidate_injective name, folderCandidate_injective name⟩

/-- C6 (amended) at a concrete input: the workspace `/a/b` has four entries; the
loops stop within five probes for the name `x.txt`. -/
theorem probe_stops_within_entries_plus_one_witness :
    (∃ r, createFileProbe (sampleWorkspace.length + 1) sampleWorld "/a/b".toList "x.txt".toList
        = some r ∧ r.2 ≤ sampleWorkspace.length + 1 ∧ legalPath r.1.2 = true) ∧
    (∃ r, createFolderProbe (sampleWorkspace.length + 1) sampleWorld "/a/b".toList
        "x.txt".toList = some r ∧ r.2 ≤ sampleWorkspace.length + 1 ∧ legalPath r.1.2 = true) ∧
    Function.Injective (fileCandidate "x.txt".toList) ∧
    Function.Injective (folderCandidate "x.txt".toList) :=
  probe_stops_within_entries_plus_one sampleWorld "/a/b".toList "x.txt".toList sampleWorkspace
    (by decide) (by rfl) (by decide)

/-! ## `Dir`, `Base` and `Join` on normalized paths -/

theorem joinSep_concat {I : List Str} (hI : I ≠ []) (n : Str) :
    joinSep (I ++ [n]) = joinSep I ++ '/' :: n := by
  induction I with
  | nil => exact absurd rfl hI
  | cons a t ih =>
    cases t with
    | nil => rfl
    | cons b t =>
      have h1 : joinSep (a :: b :: t ++ [n]) = a ++ '/' :: joinSep (b :: t ++ [n]) := rfl
      have h2 : joinSep (a :: b :: t) = a ++ '/' :: joinSep (b :: t) := rfl
      rw [h1, h2, ih (by simp)]
      simp

theorem splitLast_noSep {n : Str} (h : '/' ∉ n) : splitLast n = ([], n) := by
  induction n with
  | nil => rfl
  | cons c cs ih =>
    have hc : c ≠ '/' := fun e => h (by simp [e])
    have hcs : '/' ∉ cs := fun e => h (List.mem_cons_of_mem _ e)
    simp [splitLast, ih hcs, hc]

theorem splitLast_append (X : Str) {n : Str} (h : '/' ∉ n) :
    splitLast (X ++ '/' :: n) = (X ++ ['/'], n) := by
  induction X with
  | nil => simp [splitLast, splitLast_noSep h]
  | cons c X ih => simp [splitLast, ih]

theorem stripTrailingSep_noSep {n : Str} (h : '/' ∉ n) : stripTrailingSep n = n := by
  induction n with
  | nil => rfl
  | cons c cs ih =>
    have hc : c ≠ '/' := fun e => h (by simp [e])
    have hcs : '/' ∉ cs := fun e => h (List.mem_cons_of_mem _ e)
    simp [stripTrailingSep, ih hcs, hc]

theorem stripTrailingSep_append (Y : Str) {n : Str} (hn : n ≠ []) (h : '/' ∉ n) :
    stripTrailingSep (Y ++ n) = Y ++ n := by
  induction Y with
  | nil => exact stripTrailingSep_noSep h
  | cons c Y ih =>
    have : Y ++ n ≠ [] := by simp [hn]
    simp [stripTrailingSep, ih, this]

/-- A normalized path with a last element is `X/n`. -/
theorem render_concat (I : List Str) (n : Str) :
    ∃ X : Str, '/' :: joinSep (I ++ [n]) = X ++ '/' :: n ∧
      clean (X ++ ['/']) = '/' :: joinSep (cleanSegs true ('/' :: joinSep I)) := by
  cases I with
  | nil => exact ⟨[], rfl, by rfl⟩
  | cons a t =>
    refine ⟨'/' :: joinSep (a :: t), by rw [joinSep_concat (by simp)]; rfl, ?_⟩
    have h1 : clean ('/' :: joinSep (a :: t) ++ ['/'])
        = '/' :: joinSep (cleanSegs true ('/' :: joinSep (a :: t) ++ '/' :: [])) := by
      simp [clean, isAbs_cons]
    rw [h1]
    congr 2
    unfold cleanSegs
    rw [splitSep_append, List.foldl_append]
    simp [splitSep, cleanStep]

theorem dir_render {I : List Str} {n : Str} (hI : ∀ x ∈ I, validSeg x) (hn : validSeg n) :
    dir ('/' :: joinSep (I ++ [n])) = '/' :: joinSep I := by
  obtain ⟨X, hX, hc⟩ := render_concat I n
  unfold dir
  rw [hX, splitLast_append X hn.2.2.2]
  simp only
  rw [hc, cleanSegs_render I hI]

theorem base_render (I : List Str) {n : Str} (hn : validSeg n) :
    base ('/' :: joinSep (I ++ [n])) = n := by
  obtain ⟨X, hX, _⟩ := render_concat I n
  unfold base
  rw [if_neg (by simp)]
  have h1 : stripTrailingSep ('/' :: joinSep (I ++ [n])) = X ++ '/' :: n := by
    rw [hX]
    have := stripTrailingSep_append (X ++ ['/']) hn.1 hn.2.2.2
    simpa using this
  simp only [h1, splitLast_append X hn.2.2.2, hn.1, if_false]

theorem join_render {I : List Str} {n : Str} (hI : ∀ x ∈ I, validSeg x) (hn : validSeg n) :
    join ('/' :: joinSep I) n = '/' :: joinSep (I ++ [n]) := by
  have h1 : join ('/' :: joinSep I) n
      = '/' :: joinSep (cleanSegs true ('/' :: joinSep I ++ '/' :: n)) := by
    simp [join, clean, isAbs_cons]
  rw [h1, cleanSegs_append_valid _ hn, cleanSegs_render I hI]

/-- A normalized path other than `/` is its directory joined with its base, and
its base names an entry. -/
theorem abs_dir_base (w : World) (p : Str) (h : resolve w p ≠ []) :
    validSeg (base (abs w p)) ∧
    join (dir (abs w p)) (base (abs w p)) = abs w p ∧
    resolve w (abs w p) = resolve w (dir (abs w p)) ++ [base (abs w p)] := by
  obtain ⟨I, n, hIn⟩ : ∃ I n, resolve w p = I ++ [n] :=
    ⟨(resolve w p).dropLast, (resolve w p).getLast h, (List.dropLast_append_getLast h).symm⟩
  have hval := resolve_valid w p
  rw [hIn] at hval
  have hI : ∀ x ∈ I, validSeg x := fun x hx => hval x (by simp [hx])
  have hn : validSeg n := hval n (by simp)
  rw [abs_eq_render, hIn, dir_render hI hn, base_render I hn]
  refine ⟨hn, join_render hI hn, ?_⟩
  rw [resolve_render w _ hval, resolve_render w _ hI]

/-! ## Copying -/

theorem probe_directory_path {w : World} {d : Str} {es : List (Str × Node)}
    (hst : stat w d = .ok (.dir es)) (cand : Nat → Str) (hvalid : ∀ k, validSeg (cand k))
    (hinj : Function.Injective cand) (next : Nat → Str)
    (hnext : ∀ j, next (1 + j) = join d (cand (j + 1)))
    (fuel : Nat) (hfuel : es.length + 1 ≤ fuel) :
    ∃ k, k ≤ es.length ∧ cand k ∉ es.map Prod.fst ∧ (∀ j < k, cand j ∈ es.map Prod.fst) ∧
      probeLoop (fun p : Str => isNotExist (stat w p)) next fuel 1 (join d (cand 0))
        = some (join d (cand k), 1 + k) := by
  obtain ⟨k, hk, hfree, hbefore⟩ := exists_first_free (es.map Prod.fst) cand hinj
  rw [List.length_map] at hk
  have hseq : ∀ j, probeSeq next 1 (join d (cand 0)) j = join d (cand j) := by
    intro j
    cases j with
    | zero => rfl
    | succ j => exact hnext j
  refine ⟨k, hk, hfree, hbefore, ?_⟩
  have := probeLoop_first_free (fun p : Str => isNotExist (stat w p)) next fuel 1
    (join d (cand 0)) k (by omega)
    (by rw [hseq]; simp only; rw [isNotExist_join_child hst (hvalid k)]; exact decide_eq_true hfree)
    (fun i hi => by
      rw [hseq]; simp only; rw [isNotExist_join_child hst (hvalid i)]
      exact decide_eq_false (fun e => e (hbefore i hi)))
  rw [this, hseq]

theorem copyProbe_spec {w : World} {dst : Str} {es : List (Str × Node)}
    (hne : resolve w dst ≠ []) (hdir : stat w (dir (abs w dst)) = .ok (.dir es))
    (fuel : Nat) (hfuel : es.length + 1 ≤ fuel) :
    ∃ k, k ≤ es.length ∧ copyCandidate (base (abs w dst)) k ∉ es.map Prod.fst ∧
      (∀ j < k, copyCandidate (base (abs w dst)) j ∈ es.map Prod.fst) ∧
      copyProbe fuel w false (abs w dst)
        = some (join (dir (abs w dst)) (copyCandidate (base (abs w dst)) k), 1 + k) := by
  obtain ⟨hn, hjoin, _⟩ := abs_dir_base w dst hne
  have h := probe_directory_path hdir (copyCandidate (base (abs w dst))) (copyCandidate_valid hn)
    (copyCandidate_injective _)
    (fun counter => join (dir (abs w dst))
      (trimSuffix (base (abs w dst)) (ext (base (abs w dst))) ++ "_copy_".toList ++ itoa counter
        ++ ext (base (abs w dst))))
    (fun j => by
      have h1 := trimSuffix_ext hn.2.2.2
      rw [ext_eq_splitExt hn.2.2.2] at h1
      simp only [h1, ext_eq_splitExt hn.2.2.2, copyCandidate_succ, Nat.add_comm 1 j])
    fuel hfuel
  have h0 : join (dir (abs w dst)) (copyCandidate (base (abs w dst)) 0) = abs w dst := hjoin
  rw [h0] at h
  unfold copyProbe
  simpa using h

theorem Node.stat_of_look_file {t : Node} {q : List Str} {c : Str}
    (h : t.look q = .ok (.file c)) : t.stat q = .ok (.file c) := by
  unfold Node.look at h
  cases hs : t.stat q with
  | error e => rw [hs] at h; cases h
  | ok n =>
    rw [hs] at h
    cases n with
    | file c1 => simp only [Node.entry] at h; injection h with h; injection h with h; rw [h]
    | dir es => simp only [Node.entry] at h; injection h with h; cases h

theorem Node.stat_of_look_dir {t : Node} {q : List Str}
    (h : t.look q = .ok .dir) : ∃ es, t.stat q = .ok (.dir es) := by
  unfold Node.look at h
  cases hs : t.stat q with
  | error e => rw [hs] at h; cases h
  | ok n =>
    rw [hs] at h
    cases n with
    | file c1 => simp only [Node.entry] at h; injection h with h; cases h
    | dir es => exact ⟨es, rfl⟩

theorem Node.look_of_stat {t : Node} {q : List Str} {n : Node}
    (h : t.stat q = .ok n) : t.look q = .ok n.entry := by
  simp only [Node.look, h]

/-- The function `copyFile` of an existing file to a free name `dir/name` of an existing
directory succeeds, leaves the content there, and changes nothing that was
there before. -/
theorem copyFile_child {w : World} {d : Str} {es : List (Str × Node)}
    (hdir : stat w d = .ok (.dir es)) {c : Str} (hc : validSeg c)
    (hfree : c ∉ es.map Prod.fst) {src content : Str}
    (hsrc : stat w src = .ok (.file content)) :
    ∃ w2, copyFile w src (join d c) = (w2, none) ∧
      lookAt w2 (join d c) = .ok (.file content) ∧
      ∀ q e, lookAt w q = .ok e → lookAt w2 q = .ok e := by
  have hd := stat_ne_nil hdir
  have hs := stat_ne_nil hsrc
  have hnone : lookupE c es = none := (lookupE_eq_none_iff c es).2 hfree
  have hdir0 : w.tree.stat (resolve w d) = .ok (.dir es) := by rw [← stat_eq_tree hd]; exact hdir
  have hmiss : w.tree.stat (resolve w d ++ [c]) = .error .ENOENT := by
    rw [Node.stat_child hdir0, hnone]
  -- nothing that exists lies at or below the free name
  have hnp : ∀ Q n, w.tree.stat Q = .ok n → ¬ (resolve w d ++ [c]) <+: Q := by
    intro Q n hQ hpre
    obtain ⟨T, hT⟩ := hpre
    rw [← hT] at hQ
    obtain ⟨m, hm⟩ := Node.stat_ok_of_append hQ
    rw [hmiss] at hm; cases hm
  -- os.Create
  obtain ⟨w1, hw1, hcwd1, hst1, hfr1⟩ := updatePath_child hdir hc .EISDIR (writeEntry [])
    (r := some (.file [])) (by rw [hnone]; rfl)
  have hcr : create w (join d c) = .ok w1 := hw1
  -- the source is still there
  have hsrc0 : w.tree.stat (resolve w src) = .ok (.file content) := by
    rw [← stat_eq_tree hs]; exact hsrc
  have hsrc1 : stat w1 src = .ok (.file content) := by
    rw [stat_eq_tree hs, resolve_cwd hcwd1]
    apply Node.stat_of_look_file
    rw [hfr1 _ (hnp _ _ hsrc0)]
    exact Node.look_of_stat hsrc0
  have hread : readFile w1 src = .ok content := by simp only [readFile, hsrc1]
  -- the directory is still there, now with the new entry
  obtain ⟨es1, hes1⟩ : ∃ es1, w1.tree.stat (resolve w d) = .ok (.dir es1) := by
    apply Node.stat_of_look_dir
    rw [hfr1 _ (hnp _ _ hdir0)]
    exact Node.look_of_stat hdir0
  have hdir1 : stat w1 d = .ok (.dir es1) := by
    rw [stat_eq_tree hd, resolve_cwd hcwd1]; exact hes1
  have hl1 : lookupE c es1 = some (.file []) := by
    have := Node.stat_child hes1 c
    rw [hst1] at this
    cases hl : lookupE c es1 with
    | none => rw [hl] at this; cases this
    | some x => rw [hl] at this; simp only [foundAt] at this; injection this with e; rw [e]
  -- the write
  obtain ⟨w2, hw2, hcwd2, hst2, hfr2⟩ := updatePath_child hdir1 hc .EISDIR (writeEntry content)
    (r := some (.file content)) (by rw [hl1]; rfl)
  have hwr : writeFile w1 (join d c) content = .ok w2 := hw2
  have hres1 : resolve w1 d = resolve w d := resolve_cwd hcwd1 d
  rw [hres1] at hst2 hfr2
  refine ⟨w2, ?_, ?_, ?_⟩
  · simp only [copyFile, hsrc, hcr, hread, hwr]
  · exact lookAt_join_child hd hc (hcwd2.trans hcwd1) hst2
  · intro q e hq
    have hqne : q ≠ [] := by
      intro e0; subst e0; simp [lookAt, stat] at hq
    rw [lookAt_eq_look w hqne] at hq
    obtain ⟨n, hn⟩ := Node.look_ok_stat hq
    have hnq := hnp _ _ hn
    rw [lookAt_eq_look w2 hqne, resolve_cwd (hcwd2.trans hcwd1), hfr2 _ hnq, hfr1 _ hnq]
    exact hq

theorem base_join_dir (w : World) (p : Str) (h : resolve w p ≠ []) {c : Str} (hc : validSeg c) :
    base (join (dir (abs w p)) c) = c := by
  obtain ⟨I, n, hIn⟩ : ∃ I n, resolve w p = I ++ [n] :=
    ⟨(resolve w p).dropLast, (resolve w p).getLast h, (List.dropLast_append_getLast h).symm⟩
  have hval := resolve_valid w p
  rw [hIn] at hval
  have hI : ∀ x ∈ I, validSeg x := fun x hx => hval x (by simp [hx])
  have hn : validSeg n := hval n (by simp)
  rw [abs_eq_render, hIn, dir_render hI hn, join_render hI hc, base_render I hc]

theorem resolve_ne_nil_of_abs {w : World} {p : Str} (h : abs w p ≠ ['/']) : resolve w p ≠ [] := by
  intro e
  apply h
  rw [abs_eq_render, e]
  rfl

/-- C7 (counterexample): `note.txt` exists and the destination
`/a/b/missing/note.txt` is free, but its directory does not exist: the copy
fails and nothing is written to the destination.  For the destination
`/a/b/x.txt/y`, below the file `x.txt`, the loop that looks for a free name
never stops. -/
theorem copy_into_missing_directory_fails :
    lookAt sampleWorld "/a/b/note.txt".toList = .ok (.file "hello".toList) ∧
    lookAt sampleWorld "/a/b/missing/note.txt".toList = .error .ENOENT ∧
    CopyItem 5 sampleApp sampleWorld "/a/b/note.txt".toList "/a/b/missing/note.txt".toList
      = some (failure ("Failed to copy: ".toList ++ Errno.ENOENT.text), sampleWorld) ∧
    ∀ fuel, CopyItem fuel sampleApp sampleWorld "/a/b/note.txt".toList "/a/b/x.txt/y".toList
      = none := by
  refine ⟨by rfl, by rfl, by rfl, ?_⟩
  intro fuel
  have hfile : stat sampleWorld "/a/b/x.txt".toList = .ok (.file "one".toList) := by rfl
  have hkey : ∀ c : Str, validSeg c →
      isNotExist (stat sampleWorld (join "/a/b/x.txt".toList c)) = false := by
    intro c hc
    rw [stat_eq_tree (join_ne_nil c (by simp)),
      resolve_join sampleWorld _ (by simp) hc, Node.stat_append]
    rw [stat_eq_tree (by simp)] at hfile
    rw [hfile]
    rfl
  have hprobe : copyProbe fuel sampleWorld false (abs sampleWorld "/a/b/x.txt/y".toList)
      = none := by
    unfold copyProbe
    apply probeLoop_none
    intro i _
    have habs : abs sampleWorld "/a/b/x.txt/y".toList = "/a/b/x.txt/y".toList := by rfl
    have hdir : dir "/a/b/x.txt/y".toList = "/a/b/x.txt".toList := by rfl
    have hbase : base "/a/b/x.txt/y".toList = "y".toList := by rfl
    have he : ext "y".toList = [] := by rfl
    have hb : trimSuffix "y".toList [] = "y".toList := by rfl
    rw [habs, hdir, hbase, he, hb]
    cases i with
    | zero => exact hkey "y".toList (by decide)
    | succ i =>
      simp only [probeSeq, Bool.false_eq_true, if_false]
      exact hkey _ (validSeg_numbered _ _ _ _ (by decide) (by decide) (by simp) (by decide))
  have hsrc : stat sampleWorld (abs sampleWorld "/a/b/note.txt".toList)
      = .ok (.file "hello".toList) := by rfl
  have hg : (!hasPrefix (abs sampleWorld "/a/b/note.txt".toList)
        (abs sampleWorld sampleApp.storagePath) ||
      !hasPrefix (abs sampleWorld "/a/b/x.txt/y".toList)
        (abs sampleWorld sampleApp.storagePath)) = false := by decide
  simp only [CopyItem, hg, hsrc, Node.isDir, hprobe, Bool.false_eq_true, if_false]

/-- C7 (amended): for a source file that exists and a destination other than
`/`, both accepted by the path check, where the directory of the destination
exists and has the entries `es`, and where the paths of the candidates with the
numbers 0 to `es.length` (the first of them is the destination itself) are
paths that the operating system takes (`legalPath`: no NUL character, no
element longer than 255 bytes, fewer than 1024 bytes in all), so that `os.Stat`
either finds an entry or answers `ErrNotExist`: with `name` the base name of
the destination, copy succeeds with the first name of
`name, stem_copy_1ext, stem_copy_2ext, ...` that no entry of that directory
bears, the file of that name holds the content of the source afterwards, its
path is one of those candidates, and whatever was found at any path before is
found there unchanged afterwards.  When the destination is the source
(duplicate), the number is at least 1.  Nothing is said of a destination on
which `os.Stat` fails with an error other than `ErrNotExist`: the loop of the
source has no exit there. -/
theorem copy_picks_first_free_name (a : App) (w : World) (src dst content : Str)
    (es : List (Str × Node)) (fuel : Nat)
    (hsrcG : hasPrefix (abs w src) (abs w a.storagePath) = true)
    (hdstG : hasPrefix (abs w dst) (abs w a.storagePath) = true)
    (hsrc : stat w (abs w src) = .ok (.file content))
    (hne : abs w dst ≠ ['/'])
    (hdir : stat w (dir (abs w dst)) = .ok (.dir es))
    (hfuel : es.length + 1 ≤ fuel)
    (hlegal : ∀ j ≤ es.length,
      legalPath (join (dir (abs w dst)) (copyCandidate (base (abs w dst)) j)) = true) :
    ∃ k w2, copyCandidate (base (abs w dst)) k ∉ es.map Prod.fst ∧
      (∀ j < k, copyCandidate (base (abs w dst)) j ∈ es.map Prod.fst) ∧
      join (dir (abs w dst)) (copyCandidate (base (abs w dst)) 0) = abs w dst ∧
      (abs w dst = abs w src → 1 ≤ k) ∧
      CopyItem fuel a w src dst
        = some (success (.fields
            [("id".toList, relID a (join (dir (abs w dst)) (copyCandidate (base (abs w dst)) k))),
             ("path".toList, join (dir (abs w dst)) (copyCandidate (base (abs w dst)) k)),
             ("name".toList, copyCandidate (base (abs w dst)) k)]), w2) ∧
      lookAt w2 (join (dir (abs w dst)) (copyCandidate (base (abs w dst)) k))
        = .ok (.file content) ∧
      legalPath (join (dir (abs w dst)) (copyCandidate (base (abs w dst)) k)) = true ∧
      ∀ q e, lookAt w q = .ok e → lookAt w2 q = .ok e := by
  have hres := resolve_ne_nil_of_abs hne
  obtain ⟨hn, hjoin, _⟩ := abs_dir_base w dst hres
  obtain ⟨k, hk, hfree, hbefore, hloop⟩ := copyProbe_spec hres hdir fuel hfuel
  have hv := copyCandidate_valid hn k
  obtain ⟨w2, hcopy, hlook, hframe⟩ := copyFile_child hdir hv hfree hsrc
  refine ⟨k, w2, hfree, hbefore, hjoin, ?_, ?_, hlook, hlegal k hk, hframe⟩
  · intro hsame
    cases k with
    | succ k => omega
    | zero =>
      exfalso
      have h1 := stat_join_child hdir hn
      have h0 : copyCandidate (base (abs w dst)) 0 = base (abs w dst) := rfl
      rw [h0] at hfree
      rw [(lookupE_eq_none_iff _ es).2 hfree, hjoin, hsame, hsrc] at h1
      cases h1
  · have hg : (!hasPrefix (abs w src) (abs w a.storagePath) ||
        !hasPrefix (abs w dst) (abs w a.storagePath)) = false := by simp [hsrcG, hdstG]
    simp only [CopyItem, hg, hsrc, Node.isDir, hloop, hcopy, Bool.false_eq_true, if_false,
      base_join_dir w dst hres hv]

/-- C7 (amended) at a concrete input: duplicating `/a/b/note.txt` makes
`note_copy_1.txt`, duplicating it once more makes `note_copy_2.txt`. -/
theorem copy_picks_first_free_name_witness :
    (∃ k w2, copyCandidate (base (abs sampleWorld "/a/b/note.txt".toList)) k
        ∉ sampleWorkspace.map Prod.fst ∧
      (∀ j < k, copyCandidate (base (abs sampleWorld "/a/b/note.txt".toList)) j
        ∈ sampleWorkspace.map Prod.fst) ∧
      join (dir (abs sampleWorld "/a/b/note.txt".toList))
        (copyCandidate (base (abs sampleWorld "/a/b/note.txt".toList)) 0)
        = abs sampleWorld "/a/b/note.txt".toList ∧
      (abs sampleWorld "/a/b/note.txt".toList = abs sampleWorld "/a/b/note.txt".toList → 1 ≤ k) ∧
      CopyItem 5 sampleApp sampleWorld "/a/b/note.txt".toList "/a/b/note.txt".toList
        = some (success (.fields
            [("id".toList, relID sampleApp (join (dir (abs sampleWorld "/a/b/note.txt".toList))
                (copyCandidate (base (abs sampleWorld "/a/b/note.txt".toList)) k))),
             ("path".toList, join (dir (abs sampleWorld "/a/b/note.txt".toList))
                (copyCandidate (base (abs sampleWorld "/a/b/note.txt".toList)) k)),
             ("name".toList, copyCandidate (base (abs sampleWorld "/a/b/note.txt".toList)) k)]),
          w2) ∧
      lookAt w2 (join (dir (abs sampleWorld "/a/b/note.txt".toList))
          (copyCandidate (base (abs sampleWorld "/a/b/note.txt".toList)) k))
        = .ok (.file "hello".toList) ∧
      legalPath (join (dir (abs sampleWorld "/a/b/note.txt".toList))
          (copyCandidate (base (abs sampleWorld "/a/b/note.txt".toList)) k)) = true ∧
      ∀ q e, lookAt sampleWorld q = .ok e → lookAt w2 q = .ok e) ∧
    (DuplicateItem 5 sampleApp sampleWorld "/a/b/note.txt".toList).map
      (fun r => r.1.Data.field "name".toList) = some (some "note_copy_1.txt".toList) ∧
    ((DuplicateItem 5 sampleApp sampleWorld "/a/b/note.txt".toList).bind
      (fun r => DuplicateItem 5 sampleApp r.2 "/a/b/note.txt".toList)).map
      (fun r => r.1.Data.field "name".toList) = some (some "note_copy_2.txt".toList) :=
  ⟨copy_picks_first_free_name sampleApp sampleWorld "/a/b/note.txt".toList
      "/a/b/note.txt".toList "hello".toList sampleWorkspace 5 (by decide) (by decide) (by rfl)
      (by decide) (by rfl) (by decide) (by decide),
    by rfl, by rfl⟩

/-! ## Directory trees -/

theorem wfEntries_cons (e : Str × Node) (es : List (Str × Node)) :
    wfEntries (e :: es) = true ↔
      validSeg e.1 ∧ lookupE e.1 es = none ∧ e.2.wf = true ∧ wfEntries es = true := by
  simp [wfEntries, and_assoc]

theorem wf_dir (es : List (Str × Node)) : (Node.dir es).wf = wfEntries es := by
  simp [Node.wf]

theorem depth_dir (es : List (Str × Node)) : (Node.dir es).depth = depthEntries es + 1 := by
  simp [Node.depth]

theorem mem_of_lookupE {n : Str} {c : Node} : ∀ {es : List (Str × Node)},
    lookupE n es = some c → (n, c) ∈ es := by
  intro es
  induction es with
  | nil => intro h; cases h
  | cons e es ih =>
    obtain ⟨k, v⟩ := e
    intro h
    rw [lookupE_cons] at h
    by_cases hk : k = n
    · rw [if_pos hk] at h
      injection h with h
      subst hk; subst h
      exact List.mem_cons_self _ _
    · rw [if_neg hk] at h
      exact List.mem_cons_of_mem _ (ih h)

/-- In a well-formed directory an entry is found under its name, its name is a
single path element and its node is well formed. -/
theorem wf_mem {n : Str} {c : Node} : ∀ {es : List (Str × Node)}, wfEntries es = true →
    (n, c) ∈ es → validSeg n ∧ c.wf = true ∧ lookupE n es = some c := by
  intro es
  induction es with
  | nil => intro _ h; cases h
  | cons e es ih =>
    obtain ⟨k, v⟩ := e
    intro hwf hmem
    obtain ⟨hk, hfree, hv, hes⟩ := (wfEntries_cons _ _).1 hwf
    rw [lookupE_cons]
    rcases List.mem_cons.1 hmem with h | h
    · injection h with h1 h2
      subst h1; subst h2
      exact ⟨hk, hv, by rw [if_pos rfl]⟩
    · obtain ⟨h1, h2, h3⟩ := ih hes h
      refine ⟨h1, h2, ?_⟩
      have hne : k ≠ n := by
        intro e
        subst e
        rw [h3] at hfree
        cases hfree
      rw [if_neg hne]
      exact h3

theorem wf_names_nodup : ∀ {es : List (Str × Node)}, wfEntries es = true →
    (es.map Prod.fst).Nodup := by
  intro es
  induction es with
  | nil => intro _; exact List.nodup_nil
  | cons e es ih =>
    intro hwf
    obtain ⟨_, hfree, _, hes⟩ := (wfEntries_cons _ _).1 hwf
    rw [List.map_cons, List.nodup_cons]
    exact ⟨(lookupE_eq_none_iff _ _).1 hfree, ih hes⟩

theorem depth_mem {n : Str} {c : Node} : ∀ {es : List (Str × Node)},
    (n, c) ∈ es → c.depth ≤ depthEntries es := by
  intro es
  induction es with
  | nil => intro h; cases h
  | cons e es ih =>
    intro hmem
    simp only [depthEntries]
    rcases List.mem_cons.1 hmem with h | h
    · subst h
      exact le_max_left _ _
    · exact le_trans (ih h) (le_max_right _ _)

/-- Every node of a well-formed tree is well formed. -/
theorem Node.wf_stat : ∀ (p : List Str) (t n : Node), t.wf = true → t.stat p = .ok n →
    n.wf = true := by
  intro p
  induction p with
  | nil =>
    intro t n hwf h
    rw [Node.stat_nil] at h
    injection h with h
    subst h
    exact hwf
  | cons s p ih =>
    intro t n hwf h
    cases t with
    | file c => simp [Node.stat] at h
    | dir es =>
      simp only [Node.stat] at h
      cases hl : lookupE s es with
      | none => rw [hl] at h; cases h
      | some c =>
        rw [hl] at h
        rw [wf_dir] at hwf
        exact ih c n (wf_mem hwf (mem_of_lookupE hl)).2.1 h

/-- No node of a tree is deeper than the tree. -/
theorem Node.depth_stat : ∀ (p : List Str) (t n : Node), t.stat p = .ok n →
    n.depth ≤ t.depth := by
  intro p
  induction p with
  | nil =>
    intro t n h
    rw [Node.stat_nil] at h
    injection h with h
    subst h
    exact le_refl _
  | cons s p ih =>
    intro t n h
    cases t with
    | file c => simp [Node.stat] at h
    | dir es =>
      simp only [Node.stat] at h
      cases hl : lookupE s es with
      | none => rw [hl] at h; cases h
      | some c =>
        rw [hl] at h
        rw [depth_dir]
        exact le_trans (ih c n h) (le_trans (depth_mem (mem_of_lookupE hl)) (Nat.le_succ _))

/-! ## Relative paths -/

theorem clean_render (l : List Str) (h : ∀ x ∈ l, validSeg x) :
    clean ('/' :: joinSep l) = '/' :: joinSep l := by
  have h1 : clean ('/' :: joinSep l) = '/' :: joinSep (cleanSegs true ('/' :: joinSep l)) := by
    simp [clean, isAbs_cons]
  rw [h1, cleanSegs_render l h]

theorem clean_abs (p : Str) (h : isAbs p = true) :
    clean p = '/' :: joinSep (cleanSegs true p) := by
  obtain ⟨t, rfl⟩ := (isAbs_iff p).1 h
  simp [clean, isAbs_cons]

theorem render_injective {l1 l2 : List Str} (h1 : ∀ x ∈ l1, validSeg x)
    (h2 : ∀ x ∈ l2, validSeg x) (h : ('/' :: joinSep l1 : Str) = '/' :: joinSep l2) :
    l1 = l2 := by
  have := congrArg (cleanSegs true) h
  rwa [cleanSegs_render l1 h1, cleanSegs_render l2 h2] at this

theorem filter_splitSep_render (l : List Str) (h : ∀ x ∈ l, validSeg x) :
    (splitSep ('/' :: joinSep l)).filter (fun s => decide (s ≠ [])) = l := by
  have h0 : splitSep ('/' :: joinSep l) = [] :: splitSep (joinSep l) := by
    simp [splitSep]
  rw [h0]
  cases l with
  | nil => simp [joinSep, splitSep]
  | cons a t =>
    rw [splitSep_joinSep _ (by simp) (fun x hx => (h x hx).2.2.2)]
    rw [List.filter_cons_of_neg (by simp)]
    exact List.filter_eq_self.2 (fun x hx => by simpa using (h x hx).1)

theorem dropCommon_append (l x : List Str) : dropCommon l (l ++ x) = ([], x) := by
  induction l with
  | nil => cases x <;> rfl
  | cons a t ih => simp [dropCommon, ih]

/-- The path relative to an absolute root of a normalized path below the root
is the rest of its elements, joined. -/
theorem rel_render (root : Str) (habs : isAbs root = true) (X : List Str) (hX : X ≠ [])
    (hv : ∀ x ∈ X, validSeg x) :
    rel root ('/' :: joinSep (cleanSegs true root ++ X)) = some (joinSep X) := by
  have hR : ∀ x ∈ cleanSegs true root, validSeg x := cleanSegs_true_valid root
  have hRX : ∀ x ∈ cleanSegs true root ++ X, validSeg x := by
    intro x hx
    rcases List.mem_append.1 hx with h | h
    · exact hR x h
    · exact hv x h
  have hne : ('/' :: joinSep (cleanSegs true root ++ X) : Str)
      ≠ '/' :: joinSep (cleanSegs true root) := by
    intro e
    have := render_injective hRX hR e
    exact hX (by simpa using this)
  unfold rel
  simp only [clean_render _ hRX, clean_abs root habs]
  rw [if_neg hne, if_neg (by simp [isAbs_cons])]
  have e0 : ¬ (('/' :: joinSep (cleanSegs true root) : Str) = ['.']) := by simp
  have e1 := filter_splitSep_render _ hR
  have e2 := filter_splitSep_render _ hRX
  simp only [e0, if_false, e1, e2, dropCommon_append]
  simp

theorem relID_render (a : App) (habs : isAbs a.storagePath = true) (w : World) (X : List Str)
    (hX : X ≠ []) (hv : ∀ x ∈ X, validSeg x) :
    relID a ('/' :: joinSep (resolve w a.storagePath ++ X)) = joinSep X := by
  have hr : resolve w a.storagePath = cleanSegs true a.storagePath := by
    simp [resolve, habs]
  rw [relID, hr, rel_render _ habs X hX hv]
  rfl

/-- Joining an absolute root with a name gives the normalized path of the
entry. -/
theorem join_abs (w : World) (p : Str) (habs : isAbs p = true) {n : Str} (hn : validSeg n) :
    join p n = '/' :: joinSep (resolve w p ++ [n]) := by
  have hr : resolve w p = cleanSegs true p := by simp [resolve, habs]
  obtain ⟨t, rfl⟩ := (isAbs_iff p).1 habs
  have h1 : join ('/' :: t) n = '/' :: joinSep (cleanSegs true ('/' :: t ++ '/' :: n)) := by
    simp [join, clean, isAbs_cons]
  rw [h1, hr, cleanSegs_append_valid _ hn]

/-! ## Listing -/

theorem entryLess_false_iff (x y : Str × Bool) :
    entryLess y x = false ↔ (x.2 = true ∧ y.2 = false) ∨ (x.2 = y.2 ∧ x.1 ≤ y.1) := by
  obtain ⟨n, d⟩ := x
  obtain ⟨m, e⟩ := y
  cases d <;> cases e <;> simp [entryLess]

theorem entryLess_total (x y : Str × Bool) :
    entryLess y x = false ∨ entryLess x y = false := by
  rw [entryLess_false_iff, entryLess_false_iff]
  obtain ⟨n, d⟩ := x
  obtain ⟨m, e⟩ := y
  rcases le_total n m with h | h <;> cases d <;> cases e <;> simp [h]

theorem entryLess_trans (x y z : Str × Bool) (h1 : entryLess y x = false)
    (h2 : entryLess z y = false) : entryLess z x = false := by
  rw [entryLess_false_iff] at h1 h2 ⊢
  obtain ⟨n, d⟩ := x
  obtain ⟨m, e⟩ := y
  obtain ⟨k, f⟩ := z
  rcases h1 with ⟨h1, h1'⟩ | ⟨h1, h1'⟩ <;> rcases h2 with ⟨h2, h2'⟩ | ⟨h2, h2'⟩
  · simp only at h1 h1' h2 h2'
    rw [h1'] at h2; cases h2
  · simp only at h1 h1' h2 h2'
    left; exact ⟨h1, by rw [← h2]; exact h1'⟩
  · simp only at h1 h1' h2 h2'
    left; exact ⟨by rw [h1]; exact h2, h2'⟩
  · simp only at h1 h1' h2 h2'
    right; exact ⟨h1.trans h2, le_trans h1' h2'⟩

theorem sortSlice_perm {α : Type} (less : α → α → Bool) (l : List α) :
    (sortSlice less l).Perm l :=
  List.perm_insertionSort _ l

theorem sortSlice_sorted (l : List (Str × Bool)) :
    (sortSlice entryLess l).Pairwise (fun x y => entryLess y x = false) := by
  haveI : IsTotal (Str × Bool) (fun x y => entryLess y x = false) := ⟨entryLess_total⟩
  haveI : IsTrans (Str × Bool) (fun x y => entryLess y x = false) := ⟨entryLess_trans⟩
  exact List.sorted_insertionSort _ l

/-- Sorting entries with distinct names by the `less` of `readDirRecursive` puts
folders before files and lets the names ascend within each kind. -/
theorem sortSlice_listedBefore (l : List (Str × Bool)) (hnd : (l.map Prod.fst).Nodup) :
    (sortSlice entryLess l).Pairwise listedBefore := by
  have hp := sortSlice_perm entryLess l
  have hnd1 : ((sortSlice entryLess l).map Prod.fst).Nodup := (hp.map _).nodup_iff.2 hnd
  have hpw : (sortSlice entryLess l).Pairwise (fun x y => x.1 ≠ y.1) :=
    List.pairwise_map.1 hnd1
  refine ((sortSlice_sorted l).and hpw).imp ?_
  intro x y h
  rcases (entryLess_false_iff x y).1 h.1 with h1 | h1
  · exact Or.inl h1
  · exact Or.inr ⟨h1.1, lt_of_le_of_ne h1.2 h.2⟩

theorem readDir_dir {w : World} {d : Str} {es : List (Str × Node)}
    (hst : stat w d = .ok (.dir es)) :
    readDir w d = .ok ((es.map (fun e => (e.1, e.2.isDir))).insertionSort
      (fun x y => x.1 ≤ y.1)) := by
  simp only [readDir, hst]

/-- The loop of `readDirRecursive` keeps the entries that are not hidden, in
order, and gives each its type, path, identifier and children. -/
theorem listLoop_spec (a : App) (dirPath : Str)
    (recur : Str → Option (Except Errno (List FileItem))) :
    ∀ l : List (Str × Bool),
      (∀ e ∈ l, isHidden e.1 = false → e.2 = true →
        ∃ cs, recur (join dirPath e.1) = some (.ok cs)) →
      ∃ items, listLoop a dirPath recur l = some items ∧
        items.map FileItem.kind = l.filter (fun e => !isHidden e.1) ∧
        ∀ it ∈ items, (it.Typ = "folder".toList ∨ it.Typ = "file".toList) ∧
          it.Path = join dirPath it.Name ∧ it.ID = relID a it.Path ∧
          (it.Typ = "file".toList → it.Children = []) ∧
          (it.Typ = "folder".toList → recur it.Path = some (.ok it.Children)) := by
  intro l
  induction l with
  | nil => intro _; exact ⟨[], rfl, rfl, fun it h => by cases h⟩
  | cons e rest ih =>
    intro hrec
    obtain ⟨items, hloop, hkind, hall⟩ :=
      ih (fun x hx => hrec x (List.mem_cons_of_mem _ hx))
    by_cases hh : isHidden e.1 = true
    · refine ⟨items, ?_, ?_, hall⟩
      · have : hasPrefix e.1 ['.'] = true := hh
        simp only [listLoop, this, if_true]
        exact hloop
      · rw [List.filter_cons_of_neg (by simp [hh])]
        exact hkind
    · have hh0 : isHidden e.1 = false := by simpa using hh
      have hp : hasPrefix e.1 ['.'] = false := hh0
      obtain ⟨n, d⟩ := e
      cases d with
      | true =>
        obtain ⟨cs, hcs⟩ := hrec (n, true) (List.mem_cons_self _ _) hh0 rfl
        refine ⟨.mk (relID a (join dirPath n)) n "folder".toList (join dirPath n) cs false
          :: items, ?_, ?_, ?_⟩
        · simp only at hp hcs
          simp only [listLoop, hp, Bool.false_eq_true, if_false, if_true, hcs, hloop,
            Option.map_some']
        · rw [List.filter_cons_of_pos (by simpa using hh0), List.map_cons, hkind]
          rfl
        · intro it hit
          rcases List.mem_cons.1 hit with h | h
          · subst h
            exact ⟨Or.inl rfl, rfl, rfl,
              fun h => absurd (show "folder".toList = "file".toList from h) (by decide),
              fun _ => hcs⟩
          · exact hall it h
      | false =>
        refine ⟨.mk (relID a (join dirPath n)) n "file".toList (join dirPath n) [] false
          :: items, ?_, ?_, ?_⟩
        · simp only at hp
          simp only [listLoop, hp, Bool.false_eq_true, if_false, hloop, Option.map_some']
        · rw [List.filter_cons_of_pos (by simpa using hh0), List.map_cons, hkind]
          rfl
        · intro it hit
          rcases List.mem_cons.1 hit with h | h
          · subst h
            exact ⟨Or.inr rfl, rfl, rfl, fun _ => rfl,
              fun h => absurd (show "file".toList = "folder".toList from h) (by decide)⟩
          · exact hall it h

theorem mem_listed {es : List (Str × Node)} (e : Str × Bool) :
    e ∈ sortSlice entryLess ((es.map (fun e => (e.1, e.2.isDir))).insertionSort
        (fun x y => x.1 ≤ y.1)) ↔ ∃ c, (e.1, c) ∈ es ∧ c.isDir = e.2 := by
  rw [(sortSlice_perm _ _).mem_iff, (List.perm_insertionSort _ _).mem_iff, List.mem_map]
  constructor
  · rintro ⟨⟨n, c⟩, hm, rfl⟩
    exact ⟨c, hm, rfl⟩
  · rintro ⟨c, hm, hd⟩
    exact ⟨(e.1, c), hm, Prod.ext rfl hd⟩

theorem listed_names_nodup {es : List (Str × Node)} (hwf : wfEntries es = true) :
    (((es.map (fun e => (e.1, e.2.isDir))).insertionSort
      (fun x y => x.1 ≤ y.1)).map Prod.fst).Nodup := by
  refine ((List.perm_insertionSort _ _).map _).nodup_iff.2 ?_
  rw [List.map_map]
  exact wf_names_nodup hwf

/-- The listing of a directory of a well-formed tree, given fuel for its depth:
`readDirRecursive` returns items that are a listing in the sense of the
specification, with identifiers built from the identifier of the directory. -/
theorem readDirRecursive_spec (a : App) (w : World) (tool : Str) :
    ∀ (fuel : Nat) (dirPath : Str) (es : List (Str × Node)),
      stat w dirPath = .ok (.dir es) → wfEntries es = true → depthEntries es < fuel →
      ∃ items, readDirRecursive fuel a w dirPath tool = some (.ok items) ∧
        Listing w dirPath items ∧
        ∀ P : List Str, P ≠ [] → (∀ x ∈ P, validSeg x) → isAbs a.storagePath = true →
          dirPath = '/' :: joinSep (resolve w a.storagePath ++ P) →
          IdsFrom a.storagePath (joinSep P) items := by
  intro fuel
  induction fuel with
  | zero => intro _ _ _ _ h; exact absurd h (Nat.not_lt_zero _)
  | succ fuel ih =>
    intro dirPath es hst hwf hdep
    have hchild : ∀ n c, (n, c) ∈ es → c.isDir = true →
        ∃ es1, stat w (join dirPath n) = .ok (.dir es1) ∧ wfEntries es1 = true ∧
          depthEntries es1 < fuel := by
      intro n c hm hd
      obtain ⟨hv, hcw, hl⟩ := wf_mem hwf hm
      cases c with
      | file x => simp [Node.isDir] at hd
      | dir es1 =>
        refine ⟨es1, ?_, ?_, ?_⟩
        · rw [stat_join_child hst hv, hl]
        · rwa [wf_dir] at hcw
        · have := depth_mem hm
          rw [depth_dir] at this
          omega
    obtain ⟨items, hloop, hkind, hall⟩ := listLoop_spec a dirPath
      (fun p => readDirRecursive fuel a w p tool)
      (sortSlice entryLess ((es.map (fun e => (e.1, e.2.isDir))).insertionSort
        (fun x y => x.1 ≤ y.1)))
      (by
        intro e he _ hd
        obtain ⟨c, hm, hcd⟩ := (mem_listed e).1 he
        obtain ⟨es1, hst1, hwf1, hdep1⟩ := hchild e.1 c hm (hcd.trans hd)
        obtain ⟨cs, hcs, _⟩ := ih _ es1 hst1 hwf1 hdep1
        exact ⟨cs, hcs⟩)
    have hentry : ∀ it ∈ items, ∃ c, (it.Name, c) ∈ es ∧
        c.isDir = decide (it.Typ = "folder".toList) := by
      intro it hit
      have h1 : it.kind ∈ items.map FileItem.kind := List.mem_map_of_mem _ hit
      rw [hkind] at h1
      exact (mem_listed it.kind).1 (List.mem_filter.1 h1).1
    have hsub : ∀ it ∈ items, it.Typ = "folder".toList →
        ∃ cs, readDirRecursive fuel a w it.Path tool = some (.ok cs) ∧
          Listing w it.Path cs ∧
          ∀ P : List Str, P ≠ [] → (∀ x ∈ P, validSeg x) → isAbs a.storagePath = true →
            it.Path = '/' :: joinSep (resolve w a.storagePath ++ P) →
            IdsFrom a.storagePath (joinSep P) cs := by
      intro it hit htyp
      obtain ⟨c, hm, hcd⟩ := hentry it hit
      rw [htyp] at hcd
      obtain ⟨es1, hst1, hwf1, hdep1⟩ := hchild it.Name c hm (by simpa using hcd)
      rw [← (hall it hit).2.1] at hst1
      exact ih _ es1 hst1 hwf1 hdep1
    have hkids : ∀ it ∈ items, it.Typ = "folder".toList →
        readDirRecursive fuel a w it.Path tool = some (.ok it.Children) :=
      fun it hit htyp => (hall it hit).2.2.2.2 htyp
    refine ⟨items, ?_, ?_, ?_⟩
    · simp only [readDirRecursive, readDir_dir hst, hloop, Option.map_some']
    · refine Listing.intro dirPath items es hst ?_ ?_ (fun it hit => (hall it hit).1)
        (fun it hit => (hall it hit).2.1) (fun it hit => (hall it hit).2.2.2.1) ?_
      · intro n d
        rw [hkind, List.mem_filter, mem_listed]
        simp only [Bool.not_eq_true', and_comm]
      · rw [hkind]
        exact (sortSlice_listedBefore _ (listed_names_nodup hwf)).filter _
      · intro it hit htyp
        obtain ⟨cs, hcs, hl, _⟩ := hsub it hit htyp
        rw [hkids it hit htyp] at hcs
        injection hcs with hcs
        injection hcs with hcs
        rw [hcs]
        exact hl
    · intro P hP hPv habs hdir
      have hRP : ∀ x ∈ resolve w a.storagePath ++ P, validSeg x := by
        intro x hx
        rcases List.mem_append.1 hx with h | h
        · exact resolve_valid w _ x h
        · exact hPv x h
      have hname : ∀ it ∈ items, validSeg it.Name := by
        intro it hit
        obtain ⟨c, hm, _⟩ := hentry it hit
        exact (wf_mem hwf hm).1
      have hpath : ∀ it ∈ items,
          it.Path = '/' :: joinSep (resolve w a.storagePath ++ (P ++ [it.Name])) := by
        intro it hit
        rw [(hall it hit).2.1, hdir, join_render hRP (hname it hit), List.append_assoc]
      have hPn : ∀ it ∈ items, ∀ x ∈ P ++ [it.Name], validSeg x := by
        intro it hit x hx
        rcases List.mem_append.1 hx with h | h
        · exact hPv x h
        · rw [List.mem_singleton.1 h]
          exact hname it hit
      have hid : ∀ it ∈ items, it.ID = joinSep (P ++ [it.Name]) := by
        intro it hit
        rw [(hall it hit).2.2.1, hpath it hit,
          relID_render a habs w _ (by simp) (hPn it hit)]
      refine IdsFrom.intro _ items ?_ ?_ ?_
      · intro it hit
        rw [hid it hit, joinSep_concat hP]
      · intro it hit
        have hr : resolve w a.storagePath = cleanSegs true a.storagePath := by
          simp [resolve, habs]
        rw [hid it hit, hpath it hit, hr]
        exact rel_render _ habs _ (by simp) (hPn it hit)
      · intro it hit
        rcases (hall it hit).1 with htyp | htyp
        · obtain ⟨cs, hcs, _, hids⟩ := hsub it hit htyp
          rw [hkids it hit htyp] at hcs
          injection hcs with hcs
          injection hcs with hcs
          rw [hcs, hid it hit]
          exact hids _ (by simp) (hPn it hit) habs (hpath it hit)
        · rw [(hall it hit).2.2.2.1 htyp]
          exact IdsFrom.intro _ [] (fun _ h => by cases h) (fun _ h => by cases h)
            (fun _ h => by cases h)

theorem wfEntries_modifyE (s : Str) (c1 : Node) (hc : c1.wf = true) :
    ∀ es : List (Str × Node), wfEntries es = true →
      wfEntries (modifyE s (fun _ => c1) es) = true := by
  intro es
  induction es with
  | nil => intro h; exact h
  | cons e es ih =>
    obtain ⟨k, v⟩ := e
    intro h
    obtain ⟨hk, hfree, hv, hes⟩ := (wfEntries_cons _ _).1 h
    simp only [modifyE]
    by_cases hks : k = s
    · rw [if_pos hks]
      exact (wfEntries_cons _ _).2 ⟨hk, hfree, hc, hes⟩
    · rw [if_neg hks]
      refine (wfEntries_cons _ _).2 ⟨hk, ?_, hv, ih hes⟩
      show lookupE k (modifyE s (fun _ => c1) es) = none
      rw [lookupE_modifyE_ne hks]
      exact hfree

theorem wfEntries_concat (s : Str) (c1 : Node) (hs : validSeg s) (hc : c1.wf = true) :
    ∀ es : List (Str × Node), wfEntries es = true → lookupE s es = none →
      wfEntries (es ++ [(s, c1)]) = true := by
  intro es
  induction es with
  | nil =>
    intro _ _
    exact (wfEntries_cons _ _).2 ⟨hs, rfl, hc, rfl⟩
  | cons e es ih =>
    obtain ⟨k, v⟩ := e
    intro h hfree
    obtain ⟨hk, hkfree, hv, hes⟩ := (wfEntries_cons _ _).1 h
    rw [lookupE_cons] at hfree
    by_cases hks : k = s
    · rw [if_pos hks] at hfree
      cases hfree
    · rw [if_neg hks] at hfree
      refine (wfEntries_cons _ _).2 ⟨hk, ?_, hv, ih hes hfree⟩
      show lookupE k (es ++ [(s, c1)]) = none
      rw [lookupE_append, hkfree]
      simp only [lookupE_cons, if_neg (Ne.symm hks)]
      rfl

/-- Go's `os.MkdirAll` keeps a tree well formed. -/
theorem Node.mkdirAll_wf : ∀ (p : List Str) (t t1 : Node), (∀ x ∈ p, validSeg x) →
    t.wf = true → t.mkdirAll p = .ok t1 → t1.wf = true := by
  intro p
  induction p with
  | nil =>
    intro t t1 _ hwf h
    cases t with
    | file c => cases h
    | dir es =>
      injection h with h
      subst h
      exact hwf
  | cons s p ih =>
    intro t t1 hp hwf h
    have hs : validSeg s := hp s (List.mem_cons_self _ _)
    have hp1 : ∀ x ∈ p, validSeg x := fun x hx => hp x (List.mem_cons_of_mem _ hx)
    cases t with
    | file c => cases h
    | dir es =>
      rw [wf_dir] at hwf
      simp only [Node.mkdirAll] at h
      cases hl : lookupE s es with
      | none =>
        rw [hl] at h
        obtain ⟨c1, hc, rfl⟩ := Except.map_eq_ok h
        rw [wf_dir]
        exact wfEntries_concat s c1 hs (ih _ c1 hp1 (by rw [wf_dir]; rfl) hc) es hwf hl
      | some c =>
        rw [hl] at h
        obtain ⟨c1, hc, rfl⟩ := Except.map_eq_ok h
        rw [wf_dir]
        exact wfEntries_modifyE s c1
          (ih _ c1 hp1 (wf_mem hwf (mem_of_lookupE hl)).2.1 hc) es hwf

/-- C11: for a directory of a well-formed tree and fuel for its depth,
`readDirRecursive` returns a listing that holds, at every level, exactly the
entries whose name does not begin with `.`, folders before files and names
ascending within each kind, and whose folders carry the listing of their own
directory in the same sense. -/
theorem listing_is_exact_and_ordered (a : App) (w : World) (tool dirPath : Str)
    (es : List (Str × Node)) (fuel : Nat) (hwf : w.tree.wf = true)
    (hdir : stat w dirPath = .ok (.dir es)) (hfuel : (Node.dir es).depth ≤ fuel) :
    ∃ items, readDirRecursive fuel a w dirPath tool = some (.ok items) ∧
      Listing w dirPath items := by
  have h1 := hdir
  rw [stat_eq_tree (stat_ne_nil hdir)] at h1
  have hwf1 := Node.wf_stat _ _ _ hwf h1
  rw [wf_dir] at hwf1
  rw [depth_dir] at hfuel
  obtain ⟨items, hrun, hl, _⟩ := readDirRecursive_spec a w tool fuel dirPath es hdir hwf1 hfuel
  exact ⟨items, hrun, hl⟩

/-- C11 at the example of the specification: the directory `/ws/json` holds
`.hidden`, `b.txt` and the folder `A`; the listing is `A`, `b.txt`. -/
theorem listing_is_exact_and_ordered_witness :
    (∃ items, readDirRecursive 2 listApp exampleWorld "/ws/json".toList "json".toList
        = some (.ok items) ∧ Listing exampleWorld "/ws/json".toList items) ∧
    readDirRecursive 2 listApp exampleWorld "/ws/json".toList "json".toList
      = some (.ok [.mk "json/A".toList "A".toList "folder".toList "/ws/json/A".toList [] false,
          .mk "json/b.txt".toList "b.txt".toList "file".toList "/ws/json/b.txt".toList []
            false]) :=
  ⟨listing_is_exact_and_ordered listApp exampleWorld "json".toList "/ws/json".toList
      [(".hidden".toList, .file []), ("b.txt".toList, .file []), ("A".toList, .dir [])] 2
      (by decide) (by rfl) (by decide), by rfl⟩

/-! ## Identifiers -/

theorem ids_mk (it : FileItem) : it.ids = it.ID :: idsList it.Children := by
  cases it
  simp [FileItem.ids, FileItem.ID, FileItem.Children]

theorem idsList_eq_flatten (items : List FileItem) :
    idsList items = (items.map FileItem.ids).flatten := by
  induction items with
  | nil => simp [idsList]
  | cons it rest ih => simp [idsList, ih]

/-- Every identifier listed below a parent starts with the identifier of the
parent and a separator. -/
theorem ids_below_parent {root pid : Str} {items : List FileItem} (h : IdsFrom root pid items) :
    ∀ id ∈ idsList items, (pid ++ ['/']) <+: id := by
  induction h with
  | intro pid items hid _ _ ih =>
    intro id hmem
    rw [idsList_eq_flatten, List.mem_flatten] at hmem
    obtain ⟨l, hl, hidl⟩ := hmem
    obtain ⟨it, hit, rfl⟩ := List.mem_map.1 hl
    rw [ids_mk, List.mem_cons] at hidl
    have h0 : (pid ++ ['/']) <+: it.ID := ⟨it.Name, by rw [hid it hit]; simp⟩
    rcases hidl with h | h
    · rw [h]; exact h0
    · exact List.IsPrefix.trans (List.IsPrefix.trans h0 (List.prefix_append _ _)) (ih it hit id h)

/-- Two names without separator that start the same string, each followed by
nothing or by a separator, are the same name. -/
theorem name_eq_of_append_eq : ∀ (n m r s : Str), '/' ∉ n → '/' ∉ m →
    (r = [] ∨ ∃ t, r = '/' :: t) → (s = [] ∨ ∃ t, s = '/' :: t) → n ++ r = m ++ s → n = m := by
  intro n
  induction n with
  | nil =>
    intro m r s _ hm hr hs h
    cases m with
    | nil => rfl
    | cons c t =>
      rcases hr with hr | ⟨t1, hr⟩
      · rw [hr] at h; cases h
      · rw [hr] at h
        injection h with h1 h2
        exact absurd (h1 ▸ List.mem_cons_self _ _) hm
  | cons c t ih =>
    intro m r s hn hm hr hs h
    cases m with
    | nil =>
      rcases hs with hs | ⟨t1, hs⟩
      · rw [hs] at h; cases h
      · rw [hs] at h
        injection h with h1 h2
        exact absurd (h1 ▸ List.mem_cons_self _ _) hn
    | cons d u =>
      injection h with h1 h2
      rw [h1, ih u r s (fun x => hn (List.mem_cons_of_mem _ x))
        (fun x => hm (List.mem_cons_of_mem _ x)) hr hs h2]

/-- An identifier cannot lie at or below two entries of one directory that
have different names. -/
theorem ids_disjoint {pid n m id : Str} (hn : '/' ∉ n) (hm : '/' ∉ m) (hne : n ≠ m)
    (h1 : id = pid ++ '/' :: n ∨ (pid ++ '/' :: n ++ ['/']) <+: id)
    (h2 : id = pid ++ '/' :: m ∨ (pid ++ '/' :: m ++ ['/']) <+: id) : False := by
  have e1 : ∃ r, (r = [] ∨ ∃ t, r = '/' :: t) ∧ id = pid ++ '/' :: (n ++ r) := by
    rcases h1 with h | ⟨t, h⟩
    · exact ⟨[], Or.inl rfl, by simpa using h⟩
    · exact ⟨'/' :: t, Or.inr ⟨t, rfl⟩, by rw [← h]; simp⟩
  have e2 : ∃ r, (r = [] ∨ ∃ t, r = '/' :: t) ∧ id = pid ++ '/' :: (m ++ r) := by
    rcases h2 with h | ⟨t, h⟩
    · exact ⟨[], Or.inl rfl, by simpa using h⟩
    · exact ⟨'/' :: t, Or.inr ⟨t, rfl⟩, by rw [← h]; simp⟩
  obtain ⟨r, hr, hid1⟩ := e1
  obtain ⟨s, hs, hid2⟩ := e2
  rw [hid1] at hid2
  have := List.append_cancel_left hid2
  injection this with _ h3
  exact hne (name_eq_of_append_eq n m r s hn hm hr hs h3)

/-- In a listing of a directory of a well-formed tree, with identifiers built
from the parent as the specification asks, no identifier occurs twice. -/
theorem ids_nodup {w : World} {root : Str} (hwf : w.tree.wf = true) {dirPath : Str}
    {items : List FileItem} (hl : Listing w dirPath items) :
    ∀ pid, IdsFrom root pid items → (idsList items).Nodup := by
  induction hl with
  | intro dirPath items es hdir hexact hsorted htyp hpath hfile hfolder ih =>
    intro pid hids
    cases hids with
    | intro _ _ hid hrel hch =>
      have h1 := hdir
      rw [stat_eq_tree (stat_ne_nil hdir)] at h1
      have hwfes := Node.wf_stat _ _ _ hwf h1
      rw [wf_dir] at hwfes
      have hentry : ∀ x ∈ items.map FileItem.kind, ∃ c, (x.1, c) ∈ es ∧ c.isDir = x.2 :=
        fun x hx => ((hexact x.1 x.2).1 hx).2
      have hnames : (items.map FileItem.kind).Pairwise (fun x y => x.1 ≠ y.1) := by
        refine hsorted.imp_of_mem ?_
        intro x y hx hy hxy heq
        obtain ⟨c, hc, hcd⟩ := hentry x hx
        obtain ⟨c1, hc1, hcd1⟩ := hentry y hy
        have e1 := (wf_mem hwfes hc).2.2
        have e2 := (wf_mem hwfes hc1).2.2
        rw [heq, e2] at e1
        injection e1 with e1
        have hd : x.2 = y.2 := by rw [← hcd, ← hcd1, e1]
        rcases hxy with ⟨ha, hb⟩ | ⟨_, hlt⟩
        · rw [hd, hb] at ha; cases ha
        · rw [heq] at hlt; exact lt_irrefl _ hlt
      have hvalid : ∀ it ∈ items, '/' ∉ it.Name := by
        intro it hit
        obtain ⟨c, hc, _⟩ := hentry it.kind (List.mem_map_of_mem _ hit)
        exact (wf_mem hwfes hc).1.2.2.2
      have hunder : ∀ it ∈ items, ∀ id ∈ it.ids,
          id = pid ++ '/' :: it.Name ∨ (pid ++ '/' :: it.Name ++ ['/']) <+: id := by
        intro it hit id hmem
        rw [ids_mk, List.mem_cons] at hmem
        rcases hmem with h | h
        · exact Or.inl (h.trans (hid it hit))
        · right
          rw [← hid it hit]
          exact ids_below_parent (hch it hit) id h
      rw [idsList_eq_flatten, List.nodup_flatten]
      constructor
      · intro l hl
        obtain ⟨it, hit, rfl⟩ := List.mem_map.1 hl
        rw [ids_mk, List.nodup_cons]
        constructor
        · intro hmem
          have := (ids_below_parent (hch it hit) _ hmem).length_le
          simp at this
        · rcases htyp it hit with ht | ht
          · exact ih it hit ht _ (hch it hit)
          · rw [hfile it hit ht]
            simp [idsList]
      · rw [List.pairwise_map]
        rw [List.pairwise_map] at hnames
        refine hnames.imp_of_mem ?_
        intro x y hx hy hne
        rw [List.disjoint_left]
        intro id h1 h2
        exact ids_disjoint (hvalid x hx) (hvalid y hy) hne (hunder x hx id h1) (hunder y hy id h2)

theorem mkdirAll_ok {w w1 : World} {p : Str} (h : mkdirAll w p = .ok w1) :
    p ≠ [] ∧ w1.cwd = w.cwd ∧ w.tree.mkdirAll (resolve w p) = .ok w1.tree := by
  unfold mkdirAll at h
  by_cases hp : p = []
  · rw [if_pos hp] at h; cases h
  · rw [if_neg hp] at h
    obtain ⟨t, ht, rfl⟩ := Except.map_eq_ok h
    exact ⟨hp, rfl, ht⟩

/-- C12: in the listing that `ReadDirectory` returns for a tool scope (the
workspace root is an absolute path, the tool scope is named by a single path
element, the tree is well formed, `os.MkdirAll` succeeds and the fuel covers the
depth), the identifier of every entry is the identifier of its parent, a
separator and its name, starting from the name of the tool scope; it is the
path of the entry relative to the workspace root; and no identifier occurs
twice in the returned tree. -/
theorem listing_identities (a : App) (w w1 : World) (tool : Str) (fuel : Nat)
    (habs : isAbs a.storagePath = true) (htool : validSeg tool) (hwf : w.tree.wf = true)
    (hmk : mkdirAll w (join a.storagePath tool) = .ok w1) (hfuel : w1.tree.depth ≤ fuel) :
    ∃ items, ReadDirectory fuel a w tool = some (success (.items items), w1) ∧
      IdsFrom a.storagePath tool items ∧ (idsList items).Nodup := by
  obtain ⟨hne, hcwd, htree⟩ := mkdirAll_ok hmk
  have hres : resolve w1 (join a.storagePath tool) = resolve w (join a.storagePath tool) :=
    resolve_cwd hcwd _
  have hwf1 : w1.tree.wf = true :=
    Node.mkdirAll_wf _ _ _ (resolve_valid w _) hwf htree
  obtain ⟨es, hes⟩ := Node.mkdirAll_stat _ _ _ htree
  have hst : stat w1 (join a.storagePath tool) = .ok (.dir es) := by
    rw [stat_eq_tree hne, hres]
    exact hes
  have hwfes := Node.wf_stat _ _ _ hwf1 hes
  rw [wf_dir] at hwfes
  have hdep : depthEntries es < fuel := by
    have := Node.depth_stat _ _ _ hes
    rw [depth_dir] at this
    omega
  obtain ⟨items, hrun, hl, hids⟩ :=
    readDirRecursive_spec a w1 tool fuel _ es hst hwfes hdep
  have hids1 := hids [tool] (by simp) (fun x hx => by rw [List.mem_singleton.1 hx]; exact htool)
    habs (join_abs w1 _ habs htool)
  refine ⟨items, ?_, hids1, ids_nodup hwf1 hl _ hids1⟩
  simp only [ReadDirectory, hmk, hrun]

/-- C12 at a concrete input: the tool scope `json` of the sample world. -/
theorem listing_identities_witness :
    ∃ items, ReadDirectory 5 listApp listWorld "json".toList
        = some (success (.items items), listWorld) ∧
      IdsFrom listApp.storagePath "json".toList items ∧ (idsList items).Nodup :=
  listing_identities listApp listWorld listWorld "json".toList 5 (by decide) (by decide)
    (by decide) (by rfl) (by decide)

/-! ## Search -/

theorem filesEntries_eq_map (P : List Str) (es : List (Str × Node)) :
    filesEntries P es = es.map (fun e => (e.1, e.2.files (P ++ [e.1]))) := by
  induction es with
  | nil => simp [filesEntries]
  | cons e es ih => simp [filesEntries, ih]

theorem files_file (P : List Str) (c : Str) : (Node.file c).files P = [(P, c)] := by
  simp [Node.files]

/-- The files of a directory are the files of its entries, taken by ascending
entry name. -/
theorem files_dir (P : List Str) (es : List (Str × Node)) :
    (Node.dir es).files P =
      ((es.insertionSort (fun x y => x.1 ≤ y.1)).map
        (fun e => e.2.files (P ++ [e.1]))).flatten := by
  have h := List.map_insertionSort (fun x y : Str × Node => x.1 ≤ y.1)
    (fun x y : Str × List (List Str × Str) => x.1 ≤ y.1)
    (fun e : Str × Node => (e.1, e.2.files (P ++ [e.1]))) es
    (fun _ _ _ _ => Iff.rfl)
  simp only [Node.files, filesEntries_eq_map]
  rw [← h, List.map_map]
  rfl

theorem readDir_sorted {w : World} {d : Str} {es : List (Str × Node)}
    (hst : stat w d = .ok (.dir es)) :
    readDir w d = .ok ((es.insertionSort (fun x y => x.1 ≤ y.1)).map
      (fun e => (e.1, e.2.isDir))) := by
  rw [readDir_dir hst]
  have h := List.map_insertionSort (fun x y : Str × Node => x.1 ≤ y.1)
    (fun x y : Str × Bool => x.1 ≤ y.1)
    (fun e : Str × Node => (e.1, e.2.isDir)) es (fun _ _ _ _ => Iff.rfl)
  rw [h]

theorem walkLoop_spec {α : Type} (path : Str) (recur : Str → Option (List α))
    (H : Str × Node → List α) :
    ∀ l : List (Str × Node), (∀ e ∈ l, recur (join path e.1) = some (H e)) →
      walkLoop path recur (l.map (fun e => (e.1, e.2.isDir))) = some ((l.map H).flatten) := by
  intro l
  induction l with
  | nil => intro _; rfl
  | cons e rest ih =>
    intro h
    have h1 := h e (List.mem_cons_self _ _)
    have h2 := ih (fun x hx => h x (List.mem_cons_of_mem _ hx))
    simp only [List.map_cons, walkLoop, h1, h2, Option.map_some', List.flatten_cons]

/-- Go's `filepath.Walk` with a callback that adds nothing for directories, at
a node of a well-formed tree and with fuel for its depth: the callback is run
on every regular file at or below the node, in the order of `Node.files`. -/
theorem walk_spec {α : Type} (fn : Str → Except Errno Node → List α)
    (hfn : ∀ p es, fn p (.ok (.dir es)) = []) (w : World) :
    ∀ (fuel : Nat) (P : List Str) (node : Node), (∀ x ∈ P, validSeg x) →
      w.tree.stat P = .ok node → node.wf = true → node.depth < fuel →
      walk fn fuel w ('/' :: joinSep P) = some (((node.files P).map
        (fun f => fn ('/' :: joinSep f.1) (.ok (.file f.2)))).flatten) := by
  intro fuel
  induction fuel with
  | zero => intro _ _ _ _ _ h; exact absurd h (Nat.not_lt_zero _)
  | succ fuel ih =>
    intro P node hP hnode hwf hdep
    have hst : stat w ('/' :: joinSep P) = .ok node := by
      rw [stat_eq_tree (by simp), resolve_render w P hP]
      exact hnode
    cases node with
    | file c =>
      simp only [walk, hst, Node.isDir, Bool.not_false, if_true, files_file, List.map_cons,
        List.map_nil, List.flatten_cons, List.flatten_nil, List.append_nil]
    | dir es =>
      rw [wf_dir] at hwf
      rw [depth_dir] at hdep
      have hloop := walkLoop_spec ('/' :: joinSep P) (fun p => walk fn fuel w p)
        (fun e => ((e.2.files (P ++ [e.1])).map
          (fun f => fn ('/' :: joinSep f.1) (.ok (.file f.2)))).flatten)
        (es.insertionSort (fun x y => x.1 ≤ y.1))
        (by
          intro e he
          obtain ⟨n, c⟩ := e
          have hm : (n, c) ∈ es := (List.mem_insertionSort _).1 he
          obtain ⟨hv, hcw, hl⟩ := wf_mem hwf hm
          have hP1 : ∀ x ∈ P ++ [n], validSeg x := by
            intro x hx
            rcases List.mem_append.1 hx with h | h
            · exact hP x h
            · rw [List.mem_singleton.1 h]; exact hv
          have hc : w.tree.stat (P ++ [n]) = .ok c := by
            rw [Node.stat_child hnode, hl]
          have hd : c.depth < fuel := by
            have := depth_mem hm
            omega
          show walk fn fuel w (join ('/' :: joinSep P) n) = _
          rw [join_render hP hv]
          exact ih (P ++ [n]) c hP1 hc hcw hd)
      have hd : (Node.dir es).isDir = true := rfl
      simp only [walk, hst, hd, Bool.not_true, Bool.false_eq_true, if_false,
        readDir_sorted hst, hloop, Option.map_some', hfn, List.nil_append, files_dir,
        List.map_flatten, List.flatten_flatten, List.map_map]
      rfl

/-- Every file that `Node.files` gives for a node of a well-formed tree lies at
the path it is given with, which runs below the node through entry names. -/
theorem files_stat : ∀ (d : Nat) (node : Node) (P : List Str), node.depth ≤ d →
    node.wf = true → ∀ f ∈ node.files P,
      ∃ X, f.1 = P ++ X ∧ (∀ x ∈ X, validSeg x) ∧ node.stat X = .ok (.file f.2) := by
  intro d
  induction d with
  | zero =>
    intro node P hd _ f hf
    cases node with
    | file c =>
      rw [files_file, List.mem_singleton] at hf
      subst hf
      exact ⟨[], by simp, fun _ h => absurd h (List.not_mem_nil _), rfl⟩
    | dir es => rw [depth_dir] at hd; omega
  | succ d ih =>
    intro node P hd hwf f hf
    cases node with
    | file c =>
      rw [files_file, List.mem_singleton] at hf
      subst hf
      exact ⟨[], by simp, fun _ h => absurd h (List.not_mem_nil _), rfl⟩
    | dir es =>
      rw [wf_dir] at hwf
      rw [depth_dir] at hd
      rw [files_dir, List.mem_flatten] at hf
      obtain ⟨l, hl, hfl⟩ := hf
      obtain ⟨e, he, rfl⟩ := List.mem_map.1 hl
      obtain ⟨n, c⟩ := e
      have hm : (n, c) ∈ es := (List.mem_insertionSort _).1 he
      obtain ⟨hv, hcw, hlk⟩ := wf_mem hwf hm
      have hcd : c.depth ≤ d := by
        have := depth_mem hm
        omega
      obtain ⟨X, hX, hXv, hst⟩ := ih c (P ++ [n]) hcd hcw f hfl
      refine ⟨n :: X, by rw [hX]; simp, ?_, ?_⟩
      · intro x hx
        rcases List.mem_cons.1 hx with h | h
        · rw [h]; exact hv
        · exact hXv x h
      · rw [Node.stat_dir_cons, hlk]
        exact hst

/-- What the callback of `GlobalSearch` adds for a regular file below the
workspace root. -/
theorem searchVisit_file (lower : Char → Char) (a : App) (w : World) (query tool : Str)
    (habs : isAbs a.storagePath = true) (X : List Str) (hX : X ≠ [])
    (hXv : ∀ x ∈ X, validSeg x) (c : Str)
    (hst : w.tree.stat (resolve w a.storagePath ++ X) = .ok (.file c)) :
    searchVisit (toLower lower) a w (toLower lower query) tool
        ('/' :: joinSep (resolve w a.storagePath ++ X)) (.ok (.file c))
      = if !isHidden ((resolve w a.storagePath ++ X).getLastD []) then
          (searchHit lower (resolve w a.storagePath) query tool
            (resolve w a.storagePath ++ X, c)).toList
        else [] := by
  have hv : ∀ x ∈ resolve w a.storagePath ++ X, validSeg x := by
    intro x hx
    rcases List.mem_append.1 hx with h | h
    · exact resolve_valid w _ x h
    · exact hXv x h
  obtain ⟨I, n, hIn⟩ : ∃ I n, X = I ++ [n] :=
    ⟨X.dropLast, X.getLast hX, (List.dropLast_append_getLast hX).symm⟩
  have hn : validSeg n := hXv n (by rw [hIn]; simp)
  have hlast : (resolve w a.storagePath ++ X).getLastD [] = n := by
    rw [hIn, ← List.append_assoc, List.getLastD_concat]
  have hbase : base ('/' :: joinSep (resolve w a.storagePath ++ X)) = n := by
    rw [hIn, ← List.append_assoc, base_render _ hn]
  have hread : readFile w ('/' :: joinSep (resolve w a.storagePath ++ X)) = .ok c := by
    simp only [readFile, stat_eq_tree (show ('/' :: joinSep (resolve w a.storagePath ++ X) : Str)
      ≠ [] by simp), resolve_render w _ hv, hst]
  have hid := relID_render a habs w X hX hXv
  simp only [searchVisit, Node.isDir, Bool.false_eq_true, if_false, hbase, hread, hid, hlast,
    searchHit, List.drop_left]
  by_cases hh : isHidden n = true
  · have : hasPrefix n ['.'] = true := hh
    simp [hh, this]
  · have hh0 : isHidden n = false := by simpa using hh
    have : hasPrefix n ['.'] = false := hh0
    simp only [this, hh0, Bool.false_eq_true, if_false, Bool.not_false, if_true]
    by_cases hc : count (toLower lower c) (toLower lower query) > 0
    · simp [hc]
    · simp [hc]

theorem flatten_map_eq_filterMap {α β : Type} (G : α → List β) (p : α → Bool)
    (h : α → Option β) :
    ∀ l : List α, (∀ f ∈ l, G f = if p f then (h f).toList else []) →
      (l.map G).flatten = (l.filter p).filterMap h := by
  intro l
  induction l with
  | nil => intro _; rfl
  | cons x l ih =>
    intro hG
    have h1 := hG x (List.mem_cons_self _ _)
    have h2 := ih (fun f hf => hG f (List.mem_cons_of_mem _ hf))
    rw [List.map_cons, List.flatten_cons, h1, h2]
    by_cases hp : p x = true
    · rw [List.filter_cons_of_pos hp, List.filterMap_cons, if_pos hp]
      cases h x <;> rfl
    · rw [List.filter_cons_of_neg hp, if_neg hp]
      rfl

theorem searchVisit_dir (toLow : Str → Str) (a : App) (w : World) (query tool p : Str)
    (es : List (Str × Node)) : searchVisit toLow a w query tool p (.ok (.dir es)) = [] := by
  simp [searchVisit, Node.isDir]

/-- The walk of `GlobalSearch` through one tool scope gives the hits of the
searched files of that scope. -/
theorem walk_tool (lower : Char → Char) (a : App) (w : World) (query tool : Str) (fuel : Nat)
    (habs : isAbs a.storagePath = true) (htool : validSeg tool) (hwf : w.tree.wf = true)
    (hfuel : w.tree.depth < fuel) :
    walk (searchVisit (toLower lower) a w (toLower lower query) tool) fuel w
        (join a.storagePath tool)
      = some ((searchedFiles w (resolve w a.storagePath) tool).filterMap
          (searchHit lower (resolve w a.storagePath) query tool)) := by
  have hv : ∀ x ∈ resolve w a.storagePath ++ [tool], validSeg x := by
    intro x hx
    rcases List.mem_append.1 hx with h | h
    · exact resolve_valid w _ x h
    · rw [List.mem_singleton.1 h]; exact htool
  rw [join_abs w _ habs htool]
  cases hs : w.tree.stat (resolve w a.storagePath ++ [tool]) with
  | error e =>
    obtain ⟨k, rfl⟩ : ∃ k, fuel = k + 1 := ⟨fuel - 1, by omega⟩
    simp only [walk, stat_eq_tree (show ('/' :: joinSep (resolve w a.storagePath ++ [tool]) : Str)
      ≠ [] by simp), resolve_render w _ hv, hs, searchedFiles, List.filterMap_nil]
    rfl
  | ok node =>
    have hnwf := Node.wf_stat _ _ _ hwf hs
    have hnd : node.depth < fuel := lt_of_le_of_lt (Node.depth_stat _ _ _ hs) hfuel
    rw [walk_spec _ (searchVisit_dir _ a w _ tool) w fuel _ node hv hs hnwf hnd]
    simp only [searchedFiles, hs]
    congr 1
    apply flatten_map_eq_filterMap
    intro f hf
    obtain ⟨X, hX, hXv, hst⟩ := files_stat node.depth node _ (le_refl _) hnwf f hf
    have hst1 : w.tree.stat (resolve w a.storagePath ++ ([tool] ++ X)) = .ok (.file f.2) := by
      rw [← List.append_assoc, Node.stat_append, hs]
      exact hst
    have hXv1 : ∀ x ∈ [tool] ++ X, validSeg x := by
      intro x hx
      rcases List.mem_append.1 hx with h | h
      · rw [List.mem_singleton.1 h]; exact htool
      · exact hXv x h
    have h1 := searchVisit_file lower a w query tool habs ([tool] ++ X) (by simp) hXv1 f.2 hst1
    have hf1 : f.1 = resolve w a.storagePath ++ ([tool] ++ X) := by
      rw [hX, List.append_assoc]
    rw [← hf1] at h1
    exact h1

theorem searchLoop_spec (lower : Char → Char) (a : App) (w : World) (query : Str) (fuel : Nat)
    (habs : isAbs a.storagePath = true) (hwf : w.tree.wf = true)
    (hfuel : w.tree.depth < fuel) :
    ∀ tools : List Str, (∀ t ∈ tools, validSeg t) →
      searchLoop (toLower lower) fuel a w (toLower lower query) tools
        = some ((tools.map (fun tool =>
            (searchedFiles w (resolve w a.storagePath) tool).filterMap
              (searchHit lower (resolve w a.storagePath) query tool))).flatten) := by
  intro tools
  induction tools with
  | nil => intro _; rfl
  | cons t rest ih =>
    intro h
    have h1 := walk_tool lower a w query t fuel habs (h t (List.mem_cons_self _ _)) hwf hfuel
    have h2 := ih (fun x hx => h x (List.mem_cons_of_mem _ hx))
    simp only [searchLoop, h1, h2, Option.map_some', List.map_cons, List.flatten_cons]

/-! ### Counting occurrences -/

theorem countFrom_skip (sub : Str) : ∀ (k : Nat) (s : Str),
    countFrom sub k s = countFrom sub 0 (s.drop k) := by
  intro k
  induction k with
  | zero => intro s; rfl
  | succ k ih =>
    intro s
    cases s with
    | nil => simp [countFrom]
    | cons c cs => simp only [countFrom, List.drop_succ_cons]; exact ih cs

theorem index_eq_none_iff (sub : Str) (hsub : sub ≠ []) : ∀ s : Str,
    index sub s = none ↔ ¬ sub <:+: s := by
  intro s
  induction s with
  | nil => simp [index, hsub]
  | cons c cs ih =>
    rw [List.infix_cons_iff, not_or, ← ih]
    by_cases hp : sub.isPrefixOf (c :: cs) = true
    · have hp1 := hp
      rw [ List.isPrefixOf_iff_prefix] at hp1
      simp [index, hp, hp1]
    · have hp1 : ¬ sub <+: c :: cs := by
        rw [← List.isPrefixOf_iff_prefix]; exact hp
      simp [index, hp, hp1]

/-- The count of `strings.Count` for a non-empty `substr`, from left to right
and without overlap: nothing when `substr` does not occur; else one for the
first occurrence and the count of what follows that occurrence. -/
theorem count_eq (sub : Str) (hsub : sub ≠ []) : ∀ s : Str,
    count s sub = match index sub s with
      | none => 0
      | some i => count (s.drop (i + sub.length)) sub + 1 := by
  have hlen : 1 ≤ sub.length := List.length_pos.2 hsub
  intro s
  induction s with
  | nil => simp [count, hsub, index, countFrom]
  | cons c cs ih =>
    by_cases hp : sub.isPrefixOf (c :: cs) = true
    · have h1 : (c :: cs).drop (0 + sub.length) = cs.drop (sub.length - 1) := by
        obtain ⟨k, hk⟩ : ∃ k, sub.length = k + 1 := ⟨sub.length - 1, by omega⟩
        rw [hk]; simp
      simp only [index, hp, if_true, h1]
      simp only [count, hsub, if_false, countFrom, hp, if_true]
      rw [countFrom_skip]
    · have hc : count (c :: cs) sub = count cs sub := by
        simp only [count, hsub, if_false, countFrom, hp, Bool.false_eq_true]
      rw [hc, ih]
      simp only [index, hp, Bool.false_eq_true, if_false]
      cases index sub cs with
      | none => rfl
      | some i =>
        have h1 : (c :: cs).drop (i + 1 + sub.length) = cs.drop (i + sub.length) := by
          rw [show i + 1 + sub.length = (i + sub.length) + 1 by omega, List.drop_succ_cons]
        simp only [Option.map_some', h1]

/-- A non-empty `substr` is counted at least once exactly when it occurs. -/
theorem count_pos_iff (sub : Str) (hsub : sub ≠ []) (s : Str) :
    0 < count s sub ↔ sub <:+: s := by
  rw [count_eq sub hsub s]
  cases hi : index sub s with
  | none =>
    have := (index_eq_none_iff sub hsub s).1 hi
    simp [this]
  | some i =>
    have : ¬ index sub s = none := by rw [hi]; simp
    rw [index_eq_none_iff sub hsub s, not_not] at this
    simp [this]

theorem toLower_ne_nil (lower : Char → Char) {q : Str} (hq : q ≠ []) : toLower lower q ≠ [] := by
  cases q with
  | nil => exact absurd rfl hq
  | cons c cs => simp [toLower]

/-- C13: with an absolute workspace root, a well-formed tree and fuel for its
depth, `GlobalSearch` returns the empty sequence for the empty query; for a
non-empty query it returns exactly the hits of the searched files (every
regular file at or below a tool scope whose own name does not begin with `.`):
one result for a file whose lower-cased content is counted at least once, none
for the others.  The count is positive exactly when the lower-cased query
occurs in the lower-cased content, and it counts from left to right without
overlap: one for the first occurrence and the count of what follows it. -/
theorem search_reports_each_match (lower : Char → Char) (a : App) (w : World) (fuel : Nat)
    (habs : isAbs a.storagePath = true) (hwf : w.tree.wf = true)
    (hfuel : w.tree.depth < fuel) :
    GlobalSearch lower fuel a w [] = some [] ∧
    (∀ q, q ≠ [] → GlobalSearch lower fuel a w q = some (searchSpec lower a w q)) ∧
    (∀ q s, q ≠ [] →
      (0 < count s (toLower lower q) ↔ toLower lower q <:+: s) ∧
      count s (toLower lower q) = match index (toLower lower q) s with
        | none => 0
        | some i => count (s.drop (i + (toLower lower q).length)) (toLower lower q) + 1) := by
  refine ⟨by simp [GlobalSearch], ?_, ?_⟩
  · intro q hq
    simp only [GlobalSearch, hq, if_false, searchSpec]
    exact searchLoop_spec lower a w q fuel habs hwf hfuel searchDirs (by decide)
  · intro q s hq
    exact ⟨count_pos_iff _ (toLower_ne_nil lower hq) s, count_eq _ (toLower_ne_nil lower hq) s⟩

/-- C13 at the example of the specification: in the sample world only
`json/f1.json` holds the query `needle` in a file that is searched, twice (once
in capitals); the hidden file `.hidden` holds it too and is left out. -/
theorem search_reports_each_match_witness :
    (GlobalSearch Char.toLower 6 listApp listWorld [] = some [] ∧
     (∀ q, q ≠ [] → GlobalSearch Char.toLower 6 listApp listWorld q
        = some (searchSpec Char.toLower listApp listWorld q)) ∧
     (∀ q s, q ≠ [] →
      (0 < count s (toLower Char.toLower q) ↔ toLower Char.toLower q <:+: s) ∧
      count s (toLower Char.toLower q) = match index (toLower Char.toLower q) s with
        | none => 0
        | some i => count (s.drop (i + (toLower Char.toLower q).length))
            (toLower Char.toLower q) + 1)) ∧
    GlobalSearch Char.toLower 6 listApp listWorld "needle".toList
      = some [⟨"json/f1.json".toList, "f1.json".toList, "json".toList, 2⟩] :=
  ⟨search_reports_each_match Char.toLower listApp listWorld 6 (by decide) (by decide)
    (by decide), by decide⟩

/-- C14 (evaluation at the failing input): in the sample world the file
`config` lies in the hidden folder `.git` of the tool scope `json` and holds the
query `secret`.  `GlobalSearch` reports it, under the identifier
`json/.git/config`, although the listing that `ReadDirectory` returns for `json`
has no entry with that identifier: it leaves out `.git` with all it holds. -/
theorem search_reports_file_under_hidden_folder :
    GlobalSearch Char.toLower 6 listApp listWorld "secret".toList
      = some [⟨"json/.git/config".toList, "config".toList, "json".toList, 1⟩] ∧
    (∃ items, ReadDirectory 6 listApp listWorld "json".toList
        = some (success (.items items), listWorld) ∧
      idsList items = ["json/A".toList, "json/A/a".toList, "json/A/z.txt".toList,
        "json/b.txt".toList, "json/f1.json".toList] ∧
      "json/.git/config".toList ∉ idsList items) :=
  ⟨by decide, _, rfl, rfl, by decide⟩

/-! ## The XML decoder -/

theorem mapGet_mapSet_self {β : Type} (k : Str) (v : β) :
    ∀ m : List (Str × β), mapGet k (mapSet k v m) = some v := by
  intro m
  induction m with
  | nil => simp [mapSet, mapGet]
  | cons e m ih =>
    obtain ⟨k1, v1⟩ := e
    by_cases h : k1 = k
    · simp [mapSet, mapGet, h]
    · simp [mapSet, mapGet, h, ih]

theorem mapGet_mapSet_ne {β : Type} {k k2 : Str} (hne : k2 ≠ k) (v : β) :
    ∀ m : List (Str × β), mapGet k (mapSet k2 v m) = mapGet k m := by
  intro m
  induction m with
  | nil => simp [mapSet, mapGet, hne]
  | cons e m ih =>
    obtain ⟨k1, v1⟩ := e
    by_cases h : k1 = k2
    · subst h
      simp [mapSet, mapGet, hne]
    · simp only [mapSet, h, if_false, mapGet, ih]

theorem Decoder.eta (d : Decoder) : ({ d with input := d.input } : Decoder) = d := by
  cases d; rfl

/-- What a call of `Decoder.Token` that returns a token has done. -/
theorem Token_token {d d1 : Decoder} {t : Token} (h : d.Token = .token t d1) :
    d.input = t :: d1.input ∧ d1.fail = d.fail ∧
    (∀ s, t = .StartElement s → d1.stk = s.Name :: d.stk) ∧
    (∀ n, t = .EndElement n → d.stk = n :: d1.stk) ∧
    (∀ s, t = .CharData s → d1.stk = d.stk) ∧
    (∀ o, t = .Other o → d1.stk = d.stk) := by
  obtain ⟨input, fail, stk⟩ := d
  cases input with
  | nil =>
    simp only [Decoder.Token] at h
    cases fail with
    | none => by_cases hs : stk = [] <;> simp [hs] at h
    | some e => simp at h
  | cons t0 rest =>
    cases t0 with
    | StartElement s =>
      simp only [Decoder.Token] at h
      injection h with h1 h2
      subst h1; subst h2
      simp
    | EndElement n =>
      cases stk with
      | nil => simp [Decoder.Token] at h
      | cons s st =>
        simp only [Decoder.Token] at h
        by_cases hl : s.Local = n.Local
        · by_cases hsp : s.Space = n.Space
          · simp only [hl, hsp, ne_eq, not_true_eq_false, if_false] at h
            injection h with h1 h2
            subst h1; subst h2
            have : s = n := by
              cases s; cases n; simp_all
            simp [this]
          · simp [hl, hsp] at h
        · simp [hl] at h
    | CharData s =>
      simp only [Decoder.Token] at h
      injection h with h1 h2
      subst h1; subst h2
      simp
    | Other o =>
      simp only [Decoder.Token] at h
      injection h with h1 h2
      subst h1; subst h2
      simp

/-- `Decoder.Token` answers `io.EOF` only at the end of an input without error
and with no element open. -/
theorem Token_eof {d : Decoder} (h : d.Token = .eof) :
    d.input = [] ∧ d.fail = none ∧ d.stk = [] := by
  obtain ⟨input, fail, stk⟩ := d
  cases input with
  | nil =>
    simp only [Decoder.Token] at h
    cases fail with
    | none =>
      by_cases hs : stk = []
      · exact ⟨rfl, rfl, hs⟩
      · simp [hs] at h
    | some e => simp at h
  | cons t0 rest =>
    cases t0 with
    | StartElement s => simp [Decoder.Token] at h
    | EndElement n =>
      cases stk with
      | nil => simp [Decoder.Token] at h
      | cons s st =>
        simp only [Decoder.Token] at h
        by_cases hl : s.Local = n.Local
        · by_cases hsp : s.Space = n.Space
          · simp [hl, hsp] at h
          · simp [hl, hsp] at h
        · simp [hl] at h
    | CharData s => simp [Decoder.Token] at h
    | Other o => simp [Decoder.Token] at h

theorem xmlLoop_eof {fuel : Nat} {d : Decoder} (start : Option StartElement)
    (res : List (Str × Value)) (txt : Str) (h : d.Token = .eof) :
    xmlLoop (fuel + 1) d start res txt = some (.ok (res, d)) := by
  simp only [xmlLoop, h]

theorem xmlLoop_error {fuel : Nat} {d : Decoder} (start : Option StartElement)
    (res : List (Str × Value)) (txt : Str) {e : Str} (h : d.Token = .error e) :
    xmlLoop (fuel + 1) d start res txt = some (.error e) := by
  simp only [xmlLoop, h]

theorem xmlLoop_start {fuel : Nat} {d d1 : Decoder} (start : Option StartElement)
    (res : List (Str × Value)) (txt : Str) {t : StartElement}
    (h : d.Token = .token (.StartElement t) d1) :
    xmlLoop (fuel + 1) d start res txt =
      match xmlLoop fuel d1 (some t) [] [] with
      | Option.none => Option.none
      | some (.error e) => some (.error e)
      | some (.ok (child, d2)) =>
        match start with
        | Option.none =>
          xmlLoop fuel d2 start (mapSet t.Name.Local (.object (addAttributes t child)) res) txt
        | some _ =>
          xmlLoop fuel d2 start (mergeChild t.Name.Local (addAttributes t child) res) txt := by
  simp only [xmlLoop, h]

theorem xmlLoop_chardata {fuel : Nat} {d d1 : Decoder} (start : Option StartElement)
    (res : List (Str × Value)) (txt : Str) {data : Str}
    (h : d.Token = .token (.CharData data) d1) :
    xmlLoop (fuel + 1) d start res txt = xmlLoop fuel d1 start res (txt ++ trimSpace data) := by
  simp only [xmlLoop, h]
  by_cases ht : trimSpace data = []
  · simp [ht]
  · simp [ht]

theorem xmlLoop_other {fuel : Nat} {d d1 : Decoder} (start : Option StartElement)
    (res : List (Str × Value)) (txt : Str) {o : OtherToken}
    (h : d.Token = .token (.Other o) d1) :
    xmlLoop (fuel + 1) d start res txt = xmlLoop fuel d1 start res txt := by
  simp only [xmlLoop, h]

theorem xmlLoop_end {fuel : Nat} {d d1 : Decoder} (start : Option StartElement)
    (res : List (Str × Value)) (txt : Str) {n : Name}
    (h : d.Token = .token (.EndElement n) d1) :
    xmlLoop (fuel + 1) d start res txt =
      match start with
      | some s =>
        if n.Local = s.Name.Local then some (.ok (addText txt res, d1))
        else xmlLoop fuel d1 start res txt
      | Option.none => xmlLoop fuel d1 start res txt := by
  simp only [xmlLoop, h]

/-- The loop of `xmlToMap` stops: with more fuel than there are tokens it
returns, and it leaves a decoder with no more tokens than it found. -/
theorem xmlLoop_total : ∀ (fuel : Nat) (d : Decoder) (start : Option StartElement)
    (res : List (Str × Value)) (txt : Str), d.input.length < fuel →
    ∃ r, xmlLoop fuel d start res txt = some r ∧
      ∀ v d1, r = .ok (v, d1) → d1.input.length ≤ d.input.length := by
  intro fuel
  induction fuel with
  | zero => intro _ _ _ _ h; exact absurd h (Nat.not_lt_zero _)
  | succ fuel ih =>
    intro d start res txt hlen
    cases hT : d.Token with
    | eof =>
      refine ⟨_, xmlLoop_eof start res txt hT, ?_⟩
      intro v d1 h
      injection h with h
      injection h with _ h2
      rw [h2]
    | error e =>
      refine ⟨_, xmlLoop_error start res txt hT, ?_⟩
      intro v d1 h
      cases h
    | token t d1 =>
      have hin := (Token_token hT).1
      have hlen1 : d1.input.length < fuel := by
        rw [hin, List.length_cons] at hlen
        omega
      have hle : d1.input.length ≤ d.input.length := by
        rw [hin, List.length_cons]
        omega
      cases t with
      | StartElement t =>
        rw [xmlLoop_start start res txt hT]
        obtain ⟨r1, hr1, hsh1⟩ := ih d1 (some t) [] [] hlen1
        rw [hr1]
        cases r1 with
        | error e => exact ⟨_, rfl, fun v d1 h => by cases h⟩
        | ok p =>
          obtain ⟨child, d2⟩ := p
          have h2 := hsh1 child d2 rfl
          cases start with
          | none =>
            obtain ⟨r, hr, hsh⟩ := ih d2 Option.none
              (mapSet t.Name.Local (.object (addAttributes t child)) res) txt (by omega)
            exact ⟨r, hr, fun v d3 h => by have := hsh v d3 h; omega⟩
          | some s =>
            obtain ⟨r, hr, hsh⟩ := ih d2 (some s)
              (mergeChild t.Name.Local (addAttributes t child) res) txt (by omega)
            exact ⟨r, hr, fun v d3 h => by have := hsh v d3 h; omega⟩
      | CharData data =>
        rw [xmlLoop_chardata start res txt hT]
        obtain ⟨r, hr, hsh⟩ := ih d1 start res (txt ++ trimSpace data) hlen1
        exact ⟨r, hr, fun v d3 h => by have := hsh v d3 h; omega⟩
      | Other o =>
        rw [xmlLoop_other start res txt hT]
        obtain ⟨r, hr, hsh⟩ := ih d1 start res txt hlen1
        exact ⟨r, hr, fun v d3 h => by have := hsh v d3 h; omega⟩
      | EndElement n =>
        rw [xmlLoop_end start res txt hT]
        cases start with
        | none =>
          obtain ⟨r, hr, hsh⟩ := ih d1 Option.none res txt hlen1
          exact ⟨r, hr, fun v d3 h => by have := hsh v d3 h; omega⟩
        | some s =>
          by_cases hl : n.Local = s.Name.Local
          · refine ⟨.ok (addText txt res, d1), by simp only [hl, if_true], ?_⟩
            intro v d3 h
            injection h with h
            injection h with _ h2
            rw [← h2]
            exact hle
          · obtain ⟨r, hr, hsh⟩ := ih d1 (some s) res txt hlen1
            exact ⟨r, by simp only [hl, if_false]; exact hr,
              fun v d3 h => by have := hsh v d3 h; omega⟩

/-- More fuel does not change what the loop of `xmlToMap` returns. -/
theorem xmlLoop_mono : ∀ (fuel : Nat) (d : Decoder) (start : Option StartElement)
    (res : List (Str × Value)) (txt : Str) (x : Except Str (List (Str × Value) × Decoder)),
    xmlLoop fuel d start res txt = some x → ∀ k, xmlLoop (fuel + k) d start res txt = some x := by
  intro fuel
  induction fuel with
  | zero => intro _ _ _ _ _ h; simp [xmlLoop] at h
  | succ fuel ih =>
    intro d start res txt x h k
    rw [show fuel + 1 + k = (fuel + k) + 1 by omega]
    cases hT : d.Token with
    | eof =>
      rw [xmlLoop_eof start res txt hT] at h
      rw [xmlLoop_eof start res txt hT, h]
    | error e =>
      rw [xmlLoop_error start res txt hT] at h
      rw [xmlLoop_error start res txt hT, h]
    | token t d1 =>
      cases t with
      | StartElement t =>
        rw [xmlLoop_start start res txt hT] at h
        rw [xmlLoop_start start res txt hT]
        cases h1 : xmlLoop fuel d1 (some t) [] [] with
        | none => rw [h1] at h; cases h
        | some r1 =>
          rw [h1] at h
          rw [ih d1 (some t) [] [] r1 h1 k]
          cases r1 with
          | error e => exact h
          | ok p =>
            obtain ⟨child, d2⟩ := p
            cases start with
            | none => exact ih _ _ _ _ x h k
            | some s => exact ih _ _ _ _ x h k
      | CharData data =>
        rw [xmlLoop_chardata start res txt hT] at h
        rw [xmlLoop_chardata start res txt hT]
        exact ih _ _ _ _ x h k
      | Other o =>
        rw [xmlLoop_other start res txt hT] at h
        rw [xmlLoop_other start res txt hT]
        exact ih _ _ _ _ x h k
      | EndElement n =>
        rw [xmlLoop_end start res txt hT] at h
        rw [xmlLoop_end start res txt hT]
        cases start with
        | none => exact ih _ _ _ _ x h k
        | some s =>
          by_cases hl : n.Local = s.Name.Local
          · simp only [hl, if_true] at h ⊢
            exact h
          · simp only [hl, if_false] at h ⊢
            exact ih _ _ _ _ x h k

theorem scan_frame : ∀ (c : List Token) (s s1 u : List Name) (r : List Token),
    scan s c = some s1 → scan (s ++ u) (c ++ r) = scan (s1 ++ u) r := by
  intro c
  induction c with
  | nil =>
    intro s s1 u r h
    cases s <;> simp [scan] at h <;> subst h <;> rfl
  | cons t c ih =>
    intro s s1 u r h
    cases t with
    | StartElement x =>
      have h1 : scan (x.Name :: s) c = some s1 := by
        cases s <;> simpa [scan] using h
      have := ih (x.Name :: s) s1 u r h1
      cases s <;> simpa [scan] using this
    | EndElement n =>
      cases s with
      | nil => simp [scan] at h
      | cons s0 st =>
        by_cases hn : s0 = n
        · have h1 : scan st c = some s1 := by simpa [scan, hn] using h
          have := ih st s1 u r h1
          simpa [scan, hn] using this
        · simp [scan, hn] at h
    | CharData data =>
      have h1 : scan s c = some s1 := by
        cases s <;> simpa [scan] using h
      have := ih s s1 u r h1
      cases s <;> cases u <;> simpa [scan] using this
    | Other o =>
      have h1 : scan s c = some s1 := by
        cases s <;> simpa [scan] using h
      have := ih s s1 u r h1
      cases s <;> cases u <;> simpa [scan] using this

theorem scan_balanced {c : List Token} (h : scan [] c = some []) (u : List Name)
    (r : List Token) : scan u (c ++ r) = scan u r := by
  simpa using scan_frame c [] [] u r h

theorem scan_start (t : StartElement) (s : List Name) (r : List Token) :
    scan s (.StartElement t :: r) = scan (t.Name :: s) r := by
  cases s <;> simp [scan]

theorem scan_end (n : Name) (s : List Name) (r : List Token) :
    scan (n :: s) (.EndElement n :: r) = scan s r := by
  simp [scan]

theorem scan_chardata (data : Str) (s : List Name) (r : List Token) :
    scan s (.CharData data :: r) = scan s r := by
  cases s <;> simp [scan]

theorem scan_other (o : OtherToken) (s : List Name) (r : List Token) :
    scan s (.Other o :: r) = scan s r := by
  cases s <;> simp [scan]

/-- When the loop of `xmlToMap` returns a map, the tokens it has read are
balanced: at the top level the whole input is well nested and ends without
error; inside an element the loop has read balanced tokens and the end tag of
the element. -/
theorem xmlLoop_ok_scan : ∀ (fuel : Nat) (d : Decoder) (start : Option StartElement)
    (res : List (Str × Value)) (txt : Str) (v : List (Str × Value)) (d9 : Decoder),
    xmlLoop fuel d start res txt = some (.ok (v, d9)) →
    (start = none → d.stk = [] → scan [] d.input = some [] ∧ d.fail = none) ∧
    (∀ s st, start = some s → d.stk = s.Name :: st →
      ∃ c0, d.input = c0 ++ .EndElement s.Name :: d9.input ∧ scan [] c0 = some [] ∧
        d9.stk = st ∧ d9.fail = d.fail) := by
  intro fuel
  induction fuel with
  | zero => intro _ _ _ _ _ _ h; simp [xmlLoop] at h
  | succ fuel ih =>
    intro d start res txt v d9 h
    cases hT : d.Token with
    | eof =>
      obtain ⟨hin, hfail, hstk⟩ := Token_eof hT
      have hb : scan [] d.input = some [] := by rw [hin]; simp [scan]
      refine ⟨fun _ _ => ⟨hb, hfail⟩, ?_⟩
      intro s st _ hs
      rw [hstk] at hs
      cases hs
    | error e =>
      rw [xmlLoop_error start res txt hT] at h
      cases h
    | token t d1 =>
      obtain ⟨hin, hfail, hS, hE, hC, hO⟩ := Token_token hT
      cases t with
      | StartElement t =>
        rw [xmlLoop_start start res txt hT] at h
        cases h1 : xmlLoop fuel d1 (some t) [] [] with
        | none => rw [h1] at h; cases h
        | some r1 =>
          rw [h1] at h
          cases r1 with
          | error e => cases h
          | ok p =>
            obtain ⟨child, d2⟩ := p
            obtain ⟨c0, hc0, hb0, hstk2, hfail2⟩ :=
              (ih d1 (some t) [] [] child d2 h1).2 t d.stk rfl (hS t rfl)
            have hin2 : d.input = (.StartElement t :: c0 ++ [.EndElement t.Name]) ++ d2.input := by
              rw [hin, hc0]; simp
            have hbal : scan [] (.StartElement t :: c0 ++ [.EndElement t.Name]) = some [] := by
              rw [List.cons_append, scan_start, scan_balanced hb0, scan_end]
              rfl
            cases start with
            | none =>
              refine ⟨?_, fun s st hs => by cases hs⟩
              intro _ hstk
              obtain ⟨hb2, hf2⟩ := (ih d2 Option.none _ txt v d9 h).1 rfl (by rw [hstk2, hstk])
              refine ⟨?_, by rw [← hfail, ← hfail2]; exact hf2⟩
              rw [hin2, scan_balanced hbal]
              exact hb2
            | some s0 =>
              refine ⟨fun hs => (nomatch hs), ?_⟩
              intro s st hs hstk
              injection hs with hs
              subst hs
              obtain ⟨c1, hc1, hb1, hstk9, hfail9⟩ :=
                (ih d2 (some s0) _ txt v d9 h).2 s0 st rfl (by rw [hstk2, hstk])
              refine ⟨(.StartElement t :: c0 ++ [.EndElement t.Name]) ++ c1, ?_, ?_, hstk9, ?_⟩
              · rw [hin2, hc1]; simp
              · rw [scan_balanced hbal]; exact hb1
              · rw [hfail9, hfail2, hfail]
      | CharData data =>
        rw [xmlLoop_chardata start res txt hT] at h
        obtain ⟨p1, p2⟩ := ih d1 start res _ v d9 h
        have hstk1 := hC data rfl
        refine ⟨?_, ?_⟩
        · intro hs hstk
          obtain ⟨hb, hf⟩ := p1 hs (by rw [hstk1, hstk])
          exact ⟨by rw [hin, scan_chardata]; exact hb, by rw [← hfail]; exact hf⟩
        · intro s st hs hstk
          obtain ⟨c1, hc1, hb1, hstk9, hfail9⟩ := p2 s st hs (by rw [hstk1, hstk])
          exact ⟨.CharData data :: c1, by rw [hin, hc1]; rfl,
            by rw [scan_chardata]; exact hb1, hstk9, by rw [hfail9, hfail]⟩
      | Other o =>
        rw [xmlLoop_other start res txt hT] at h
        obtain ⟨p1, p2⟩ := ih d1 start res _ v d9 h
        have hstk1 := hO o rfl
        refine ⟨?_, ?_⟩
        · intro hs hstk
          obtain ⟨hb, hf⟩ := p1 hs (by rw [hstk1, hstk])
          exact ⟨by rw [hin, scan_other]; exact hb, by rw [← hfail]; exact hf⟩
        · intro s st hs hstk
          obtain ⟨c1, hc1, hb1, hstk9, hfail9⟩ := p2 s st hs (by rw [hstk1, hstk])
          exact ⟨.Other o :: c1, by rw [hin, hc1]; rfl,
            by rw [scan_other]; exact hb1, hstk9, by rw [hfail9, hfail]⟩
      | EndElement n =>
        have hstk1 := hE n rfl
        refine ⟨?_, ?_⟩
        · intro _ hstk
          rw [hstk] at hstk1
          cases hstk1
        · intro s st hs hstk
          subst hs
          rw [hstk] at hstk1
          injection hstk1 with hn hst
          rw [xmlLoop_end (some s) res txt hT] at h
          simp only [← hn, if_true] at h
          injection h with h
          injection h with h
          injection h with _ h2
          subst h2
          exact ⟨[], by rw [hin, hn]; rfl, rfl, hst.symm, hfail⟩

/-- C19: a token stream that is not well nested (an end tag that does not close
the innermost open element, or an element still open at the end), or one that
the tokenizer cannot read to its end, makes `xmlToMap` return an error, given
fuel for its tokens; it never returns a mapping for it. -/
theorem malformed_stream_fails (tokens : List Token) (fail : Option Str) (fuel : Nat)
    (hfuel : tokens.length < fuel) (hbad : wellNested tokens = false ∨ fail ≠ none) :
    ∃ e, xmlToMap fuel ⟨tokens, fail, []⟩ Option.none = some (.error e) := by
  obtain ⟨r, hr, _⟩ := xmlLoop_total fuel ⟨tokens, fail, []⟩ Option.none [] [] hfuel
  cases r with
  | error e => exact ⟨e, hr⟩
  | ok p =>
    obtain ⟨v, d9⟩ := p
    obtain ⟨hb, hf⟩ := (xmlLoop_ok_scan fuel _ _ _ _ v d9 hr).1 rfl rfl
    rcases hbad with h | h
    · simp [wellNested, hb] at h
    · exact absurd hf h

/-- C19 at concrete inputs: the streams of `<a>` (truncated) and `<a></b>`
(unbalanced). -/
theorem malformed_stream_fails_witness :
    (∃ e, xmlToMap 2 ⟨[.StartElement ⟨⟨[], "a".toList⟩, []⟩], Option.none, []⟩ Option.none
      = some (.error e)) ∧
    xmlToMap 2 ⟨[.StartElement ⟨⟨[], "a".toList⟩, []⟩], Option.none, []⟩ Option.none
      = some (.error "XML syntax error: unexpected EOF".toList) ∧
    xmlToMap 3 ⟨[.StartElement ⟨⟨[], "a".toList⟩, []⟩, .EndElement ⟨[], "b".toList⟩],
        Option.none, []⟩ Option.none
      = some (.error "XML syntax error: element <a> closed by </b>".toList) :=
  ⟨malformed_stream_fails [.StartElement ⟨⟨[], "a".toList⟩, []⟩] Option.none 2 (by decide)
    (Or.inl (by decide)), rfl, rfl⟩

/-! ## Decoding a document -/

theorem tokensList_nil : tokensList [] = [] := by simp [tokensList]

theorem tokensList_cons (c : Content) (cs : List Content) :
    tokensList (c :: cs) = c.tokens ++ tokensList cs := by simp [tokensList]

theorem tokens_elem (n : Name) (as : List Attr) (cs : List Content) :
    (Content.elem n as cs).tokens
      = .StartElement ⟨n, as⟩ :: (tokensList cs ++ [.EndElement n]) := by
  simp [Content.tokens]

theorem tokens_text (s : Str) : (Content.text s).tokens = [.CharData s] := by
  simp [Content.tokens]

theorem tokens_other (o : OtherToken) : (Content.other o).tokens = [.Other o] := by
  simp [Content.tokens]

theorem node_elem (n : Name) (as : List Attr) (cs : List Content) :
    (Content.elem n as cs).node = addAttributes ⟨n, as⟩ (addText (textOf cs) (mergeAll cs [])) := by
  simp [Content.node]

theorem mergeAll_nil (r : List (Str × Value)) : mergeAll [] r = r := by simp [mergeAll]

theorem mergeAll_cons (c : Content) (cs : List Content) (r : List (Str × Value)) :
    mergeAll (c :: cs) r = mergeAll cs (match c.tag with
      | some tag => mergeChild tag c.node r
      | Option.none => r) := by
  simp [mergeAll]

theorem textOf_cons (c : Content) (cs : List Content) : textOf (c :: cs) = c.chunk ++ textOf cs := by
  simp [textOf]

theorem Token_of_start {d : Decoder} {t : StartElement} {r : List Token}
    (h : d.input = .StartElement t :: r) :
    d.Token = .token (.StartElement t) { d with input := r, stk := t.Name :: d.stk } := by
  obtain ⟨input, fail, stk⟩ := d
  simp only at h
  subst h
  simp [Decoder.Token]

theorem Token_of_chardata {d : Decoder} {s : Str} {r : List Token}
    (h : d.input = .CharData s :: r) :
    d.Token = .token (.CharData s) { d with input := r } := by
  obtain ⟨input, fail, stk⟩ := d
  simp only at h
  subst h
  simp [Decoder.Token]

theorem Token_of_other {d : Decoder} {o : OtherToken} {r : List Token}
    (h : d.input = .Other o :: r) :
    d.Token = .token (.Other o) { d with input := r } := by
  obtain ⟨input, fail, stk⟩ := d
  simp only at h
  subst h
  simp [Decoder.Token]

theorem Token_of_end {d : Decoder} {n : Name} {r : List Token} {s : List Name}
    (h : d.input = .EndElement n :: r) (hs : d.stk = n :: s) :
    d.Token = .token (.EndElement n) { d with input := r, stk := s } := by
  obtain ⟨input, fail, stk⟩ := d
  simp only at h hs
  subst h
  subst hs
  simp [Decoder.Token]

/-- Reading the token stream of a sequence of content at one level: the loop of
`xmlToMap` takes the elements into the result (merged by tag inside an element,
put under their tag at the top level), adds the trimmed chunks to the text, and
goes on with the tokens that follow. -/
theorem xmlLoop_contents : ∀ (n : Nat) (cs : List Content), (tokensList cs).length ≤ n →
    ∀ (d : Decoder) (rest : List Token) (start : Option StartElement)
      (res : List (Str × Value)) (txt : Str) (f : Nat)
      (x : Except Str (List (Str × Value) × Decoder)),
      d.input = tokensList cs ++ rest →
      xmlLoop f { d with input := rest } start
        (match start with
          | Option.none => putAll cs res
          | some _ => mergeAll cs res) (txt ++ textOf cs) = some x →
      xmlLoop (f + (tokensList cs).length) d start res txt = some x := by
  intro n
  induction n with
  | zero =>
    intro cs hlen d rest start res txt f x hin h
    cases cs with
    | nil =>
      rw [tokensList_nil] at hin
      have hd : ({ d with input := rest } : Decoder) = d := by
        cases d; simp only at hin; subst hin; rfl
      rw [hd] at h
      cases start <;> simpa [tokensList_nil, putAll, mergeAll_nil, textOf] using h
    | cons c cs =>
      rw [tokensList_cons] at hlen
      cases c <;> simp [tokens_elem, tokens_text, tokens_other] at hlen
  | succ n ih =>
    intro cs hlen d rest start res txt f x hin h
    cases cs with
    | nil =>
      rw [tokensList_nil] at hin
      have hd : ({ d with input := rest } : Decoder) = d := by
        cases d; simp only at hin; subst hin; rfl
      rw [hd] at h
      cases start <;> simpa [tokensList_nil, putAll, mergeAll_nil, textOf] using h
    | cons c cs =>
      rw [tokensList_cons] at hlen hin
      cases c with
      | text s =>
        rw [tokens_text] at hlen hin
        have hT := Token_of_chardata (d := d) (r := tokensList cs ++ rest) (by simpa using hin)
        have hfuel : f + (tokensList (Content.text s :: cs)).length
            = (f + (tokensList cs).length) + 1 := by
          rw [tokensList_cons, tokens_text]; simp; omega
        rw [hfuel, xmlLoop_chardata start res txt hT]
        apply ih cs (by simp at hlen; omega) _ rest start res _ f x rfl
        have e1 : (txt ++ trimSpace s) ++ textOf cs = txt ++ textOf (Content.text s :: cs) := by
          rw [textOf_cons]; simp [Content.chunk]
        rw [e1]
        cases start with
        | none => simpa [putAll, Content.tag] using h
        | some s0 => simpa [mergeAll_cons, Content.tag] using h
      | other o =>
        rw [tokens_other] at hlen hin
        have hT := Token_of_other (d := d) (r := tokensList cs ++ rest) (by simpa using hin)
        have hfuel : f + (tokensList (Content.other o :: cs)).length
            = (f + (tokensList cs).length) + 1 := by
          rw [tokensList_cons, tokens_other]; simp; omega
        rw [hfuel, xmlLoop_other start res txt hT]
        apply ih cs (by simp at hlen; omega) _ rest start res _ f x rfl
        have e1 : txt ++ textOf cs = txt ++ textOf (Content.other o :: cs) := by
          rw [textOf_cons]; simp [Content.chunk]
        rw [e1]
        cases start with
        | none => simpa [putAll, Content.tag] using h
        | some s0 => simpa [mergeAll_cons, Content.tag] using h
      | elem nm as ch =>
        rw [tokens_elem] at hlen hin
        have hlen1 : (tokensList ch).length + (tokensList cs).length + 1 ≤ n := by
          simp at hlen; omega
        have hT := Token_of_start (d := d) (t := ⟨nm, as⟩)
          (r := tokensList ch ++ (.EndElement nm :: (tokensList cs ++ rest)))
          (by simpa using hin)
        have hfuel : f + (tokensList (Content.elem nm as ch :: cs)).length
            = ((tokensList ch).length + 1 + (f + (tokensList cs).length)) + 1 := by
          rw [tokensList_cons, tokens_elem]; simp; omega
        rw [hfuel, xmlLoop_start start res txt hT]
        -- the recursive call reads the element up to its end tag
        have hchild : xmlLoop (1 + (tokensList ch).length)
            { d with input := tokensList ch ++ (.EndElement nm :: (tokensList cs ++ rest)),
                     stk := nm :: d.stk } (some ⟨nm, as⟩) [] []
            = some (.ok (addText (textOf ch) (mergeAll ch []),
                { d with input := tokensList cs ++ rest })) := by
          apply ih ch (by omega) _ (.EndElement nm :: (tokensList cs ++ rest)) (some ⟨nm, as⟩)
            [] [] 1 _ rfl
          have hE := Token_of_end
            (d := { d with input := .EndElement nm :: (tokensList cs ++ rest),
                           stk := nm :: d.stk })
            (n := nm) (r := tokensList cs ++ rest) (s := d.stk) rfl rfl
          rw [xmlLoop_end _ _ _ hE]
          simp
        have hchild1 := xmlLoop_mono _ _ _ _ _ _ hchild (f + (tokensList cs).length)
        rw [show 1 + (tokensList ch).length + (f + (tokensList cs).length)
          = (tokensList ch).length + 1 + (f + (tokensList cs).length) by omega] at hchild1
        rw [hchild1]
        have hnode : addAttributes ⟨nm, as⟩ (addText (textOf ch) (mergeAll ch []))
            = (Content.elem nm as ch).node := (node_elem nm as ch).symm
        have e1 : txt ++ textOf cs = txt ++ textOf (Content.elem nm as ch :: cs) := by
          rw [textOf_cons]; simp [Content.chunk]
        rw [← e1] at h
        cases start with
        | none =>
          simp only [hnode]
          have h2 := ih cs (by omega) { d with input := tokensList cs ++ rest } rest
            Option.none (mapSet nm.Local (.object (Content.elem nm as ch).node) res) txt f x rfl
            (by simpa [putAll, Content.tag] using h)
          have h3 := xmlLoop_mono _ _ _ _ _ _ h2 ((tokensList ch).length + 1)
          rw [show f + (tokensList cs).length + ((tokensList ch).length + 1)
            = (tokensList ch).length + 1 + (f + (tokensList cs).length) by omega] at h3
          exact h3
        | some s0 =>
          simp only [hnode]
          have h2 := ih cs (by omega) { d with input := tokensList cs ++ rest } rest
            (some s0) (mergeChild nm.Local (Content.elem nm as ch).node res) txt f x rfl
            (by simpa [mergeAll_cons, Content.tag] using h)
          have h3 := xmlLoop_mono _ _ _ _ _ _ h2 ((tokensList ch).length + 1)
          rw [show f + (tokensList cs).length + ((tokensList ch).length + 1)
            = (tokensList ch).length + 1 + (f + (tokensList cs).length) by omega] at h3
          exact h3

/-- Decoding the token stream of a document, given fuel for its tokens:
`xmlToMap` returns the mapping that the assignments of the top-level elements
leave (`putAll`): each element is put under its local tag name and replaces an
earlier element of the same name. -/
theorem xmlToMap_document (doc : List Content) (fuel : Nat)
    (hfuel : (tokensList doc).length < fuel) :
    xmlToMap fuel ⟨tokensList doc, Option.none, []⟩ Option.none
      = some (.ok (putAll doc [], ⟨[], Option.none, []⟩)) := by
  have h1 := xmlLoop_contents _ doc (le_refl _) ⟨tokensList doc, Option.none, []⟩ []
    Option.none [] [] 1 (.ok (putAll doc [], ⟨[], Option.none, []⟩)) (by simp)
    (by
      have hT : (⟨[], Option.none, []⟩ : Decoder).Token = .eof := by simp [Decoder.Token]
      exact xmlLoop_eof _ _ _ hT)
  have h2 := xmlLoop_mono _ _ _ _ _ _ h1 (fuel - (1 + (tokensList doc).length))
  rw [show 1 + (tokensList doc).length + (fuel - (1 + (tokensList doc).length)) = fuel by omega]
    at h2
  exact h2

theorem putAll_single (c : Content) : putAll [c] [] = match c.tag with
    | some tag => [(tag, .object c.node)]
    | Option.none => [] := by
  cases c <;> simp [putAll, Content.tag, mapSet]

/-- Decoding the token stream of one element: the mapping has the local tag
name of the element as its only key, with the node of the element. -/
theorem xmlToMap_elem (n : Name) (as : List Attr) (cs : List Content) (fuel : Nat)
    (hfuel : (Content.elem n as cs).tokens.length < fuel) :
    xmlToMap fuel ⟨(Content.elem n as cs).tokens, Option.none, []⟩ Option.none
      = some (.ok ([(n.Local, .object (Content.elem n as cs).node)],
          ⟨[], Option.none, []⟩)) := by
  have h := xmlToMap_document [Content.elem n as cs] fuel
    (by simpa [tokensList_cons, tokensList_nil] using hfuel)
  simpa [tokensList_cons, tokensList_nil, putAll_single, Content.tag] using h

/-! ### Sibling normalization -/

theorem mapGet_mergeChild_ne {k tag : Str} (hne : tag ≠ k) (child r : List (Str × Value)) :
    mapGet k (mergeChild tag child r) = mapGet k r := by
  unfold mergeChild
  split <;> exact mapGet_mapSet_ne hne _ _

theorem siblings_concat (l : List (List (Str × Value))) (x : List (Str × Value)) :
    siblings (l ++ [x]) = match siblings l with
      | Option.none => some (.object x)
      | some (.array v) => some (.array (v ++ [.object x]))
      | some v => some (.array [v, .object x]) := by
  cases l with
  | nil => rfl
  | cons a l =>
    cases l with
    | nil => rfl
    | cons b l => simp [siblings]

theorem mapGet_mergeChild_self (tag : Str) (child r : List (Str × Value))
    (l : List (List (Str × Value))) (h : mapGet tag r = siblings l) :
    mapGet tag (mergeChild tag child r) = siblings (l ++ [child]) := by
  rw [siblings_concat, ← h]
  unfold mergeChild
  split
  · rename_i v hv
    rw [hv, mapGet_mapSet_self]
  · rename_i v hnot hv
    rw [hv, mapGet_mapSet_self]
    cases v with
    | array xs => exact absurd rfl (hnot xs)
    | object kv => rfl
    | string s => rfl
    | attrs kv => rfl
  · rename_i hv
    rw [hv, mapGet_mapSet_self]

/-- Merging children keeps, under every tag, the nodes of all children with
that tag, in document order. -/
theorem mapGet_mergeAll (tag : Str) : ∀ (cs : List Content) (r : List (Str × Value))
    (l : List (List (Str × Value))), mapGet tag r = siblings l →
    mapGet tag (mergeAll cs r) = siblings (l ++ childNodes tag cs) := by
  intro cs
  induction cs with
  | nil => intro r l h; simpa [mergeAll_nil, childNodes] using h
  | cons c cs ih =>
    intro r l h
    rw [mergeAll_cons]
    cases hc : c.tag with
    | none =>
      have : childNodes tag (c :: cs) = childNodes tag cs := by
        simp [childNodes, hc]
      rw [this]
      exact ih r l h
    | some t =>
      by_cases ht : t = tag
      · subst ht
        have : childNodes t (c :: cs) = c.node :: childNodes t cs := by
          simp [childNodes, hc]
        rw [this]
        have h1 := ih (mergeChild t c.node r) (l ++ [c.node])
          (mapGet_mergeChild_self t c.node r l h)
        simpa using h1
      · have : childNodes tag (c :: cs) = childNodes tag cs := by
          simp [childNodes, hc, ht]
        rw [this]
        exact ih (mergeChild t c.node r) l (by rw [mapGet_mergeChild_ne ht]; exact h)

theorem mapGet_addText_ne {k : Str} (hk : k ≠ "#text".toList) (txt : Str)
    (r : List (Str × Value)) : mapGet k (addText txt r) = mapGet k r := by
  unfold addText
  split
  · exact mapGet_mapSet_ne (Ne.symm hk) _ _
  · split
    · exact mapGet_mapSet_ne (Ne.symm hk) _ _
    · rfl

theorem mapGet_addAttributes_ne {k : Str} (hk : k ≠ "@attributes".toList) (t : StartElement)
    (r : List (Str × Value)) : mapGet k (addAttributes t r) = mapGet k r := by
  unfold addAttributes
  split
  · exact mapGet_mapSet_ne (Ne.symm hk) _ _
  · rfl

theorem xmlName_ne {tag : Str} (h : xmlName tag) :
    tag ≠ "#text".toList ∧ tag ≠ "@attributes".toList := by
  constructor
  · intro e; rw [e] at h; exact absurd h (by decide)
  · intro e; rw [e] at h; exact absurd h (by decide)

/-- C15: for every element, decoded with fuel for its tokens, `xmlToMap` builds
the node `Content.node` of the element; under every tag name that node holds
nothing when the element has no child element with that tag, the node of the
child when it has one, and the array of the nodes of all those children, in
document order, when it has more: no child is overwritten or lost. -/
theorem siblings_are_normalized (n : Name) (as : List Attr) (cs : List Content) (fuel : Nat)
    (tag : Str) (hfuel : (Content.elem n as cs).tokens.length < fuel) (htag : xmlName tag) :
    xmlToMap fuel ⟨(Content.elem n as cs).tokens, Option.none, []⟩ Option.none
      = some (.ok ([(n.Local, .object (Content.elem n as cs).node)],
          ⟨[], Option.none, []⟩)) ∧
    mapGet tag (Content.elem n as cs).node = siblings (childNodes tag cs) := by
  refine ⟨xmlToMap_elem n as cs fuel hfuel, ?_⟩
  obtain ⟨h1, h2⟩ := xmlName_ne htag
  rw [node_elem, mapGet_addAttributes_ne h2, mapGet_addText_ne h1]
  have := mapGet_mergeAll tag cs [] [] rfl
  simpa using this

/-- C15 at the example of the specification:
`<root><item>a</item><item>b</item></root>` gives `item` an array of two nodes
with the texts `a` and `b`. -/
theorem siblings_are_normalized_witness :
    (xmlToMap 9 ⟨(Content.elem ⟨[], "root".toList⟩ []
        [.elem ⟨[], "item".toList⟩ [] [.text "a".toList],
         .elem ⟨[], "item".toList⟩ [] [.text "b".toList]]).tokens, Option.none, []⟩ Option.none
      = some (.ok ([("root".toList, .object (Content.elem ⟨[], "root".toList⟩ []
          [.elem ⟨[], "item".toList⟩ [] [.text "a".toList],
           .elem ⟨[], "item".toList⟩ [] [.text "b".toList]]).node)],
          ⟨[], Option.none, []⟩)) ∧
     mapGet "item".toList (Content.elem ⟨[], "root".toList⟩ []
        [.elem ⟨[], "item".toList⟩ [] [.text "a".toList],
         .elem ⟨[], "item".toList⟩ [] [.text "b".toList]]).node
      = siblings (childNodes "item".toList
        [.elem ⟨[], "item".toList⟩ [] [.text "a".toList],
         .elem ⟨[], "item".toList⟩ [] [.text "b".toList]])) ∧
    (Content.elem ⟨[], "root".toList⟩ []
        [.elem ⟨[], "item".toList⟩ [] [.text "a".toList],
         .elem ⟨[], "item".toList⟩ [] [.text "b".toList]]).node
      = [("item".toList, .array [.object [("#text".toList, .string "a".toList)],
          .object [("#text".toList, .string "b".toList)]])] :=
  ⟨siblings_are_normalized ⟨[], "root".toList⟩ []
      [.elem ⟨[], "item".toList⟩ [] [.text "a".toList],
       .elem ⟨[], "item".toList⟩ [] [.text "b".toList]] 9 "item".toList (by decide) (by decide),
    rfl⟩

/-! ### Attributes -/

theorem mapGet_foldl_attrs (k : Str) : ∀ (as : List Attr) (m : List (Str × Str)),
    mapGet k (as.foldl (fun attrs x => mapSet x.Name.Local x.Value attrs) m)
      = match lastAttr k as with
        | some v => some v
        | Option.none => mapGet k m := by
  intro as
  induction as with
  | nil => intro m; rfl
  | cons x as ih =>
    intro m
    rw [List.foldl_cons, ih]
    have hlast : lastAttr k (x :: as) = match lastAttr k as with
        | some v => some v
        | Option.none => if x.Name.Local = k then some x.Value else Option.none := by
      unfold lastAttr
      rw [List.reverse_cons, List.find?_append]
      cases h : as.reverse.find? (fun x => decide (x.Name.Local = k)) with
      | some y => simp
      | none =>
        by_cases hx : x.Name.Local = k
        · simp [hx]
        · simp [hx]
    rw [hlast]
    cases h : lastAttr k as with
    | some v => rfl
    | none =>
      by_cases hx : x.Name.Local = k
      · simp only [hx, if_true]
        rw [← hx, mapGet_mapSet_self]
      · simp only [hx, if_false]
        exact mapGet_mapSet_ne hx _ _

/-- The attribute map holds, under every local name, the value of the last
attribute with that local name. -/
theorem mapGet_attrsOf (k : Str) (as : List Attr) : mapGet k (attrsOf as) = lastAttr k as := by
  unfold attrsOf
  rw [mapGet_foldl_attrs]
  cases lastAttr k as <;> rfl

theorem lastAttr_of_nodup {as : List Attr} (hnd : (as.map (fun x => x.Name.Local)).Nodup)
    {x : Attr} (hx : x ∈ as) : lastAttr x.Name.Local as = some x.Value := by
  unfold lastAttr
  cases h : as.reverse.find? (fun y => decide (y.Name.Local = x.Name.Local)) with
  | none =>
    rw [List.find?_eq_none] at h
    exact absurd (by simp) (h x (List.mem_reverse.2 hx))
  | some y =>
    have hy := List.find?_some h
    have hm := List.mem_reverse.1 (List.mem_of_find?_eq_some h)
    have : y = x := List.inj_on_of_nodup_map hnd hm hx (by simpa using hy)
    rw [this]
    rfl

theorem childNodes_of_names {cs : List Content}
    (hkids : ∀ c ∈ cs, ∀ t, c.tag = some t → xmlName t) {k : Str} (hk : ¬ xmlName k) :
    childNodes k cs = [] := by
  unfold childNodes
  rw [List.map_eq_nil_iff, List.filter_eq_nil_iff]
  intro c hc
  simp only [decide_eq_true_eq]
  intro h
  exact hk (hkids c hc k h)

/-- C16, as far as it holds: for every element whose child elements bear XML
names, decoded with fuel for its tokens, the node has the key `@attributes`
exactly when the start tag has an attribute; the value is the attribute map,
which holds under every local name the value of the last attribute with that
local name, hence the value of every attribute when no two attributes share a
local name; and an element without attributes, children and text gives the
empty mapping. -/
theorem attributes_are_attached (n : Name) (as : List Attr) (cs : List Content) (fuel : Nat)
    (hfuel : (Content.elem n as cs).tokens.length < fuel)
    (hkids : ∀ c ∈ cs, ∀ t, c.tag = some t → xmlName t) :
    xmlToMap fuel ⟨(Content.elem n as cs).tokens, Option.none, []⟩ Option.none
      = some (.ok ([(n.Local, .object (Content.elem n as cs).node)],
          ⟨[], Option.none, []⟩)) ∧
    mapGet "@attributes".toList (Content.elem n as cs).node
      = (if as = [] then Option.none else some (.attrs (attrsOf as))) ∧
    (∀ k, mapGet k (attrsOf as) = lastAttr k as) ∧
    ((as.map (fun x => x.Name.Local)).Nodup →
      ∀ x ∈ as, mapGet x.Name.Local (attrsOf as) = some x.Value) ∧
    (as = [] → cs = [] → (Content.elem n as cs).node = []) := by
  refine ⟨xmlToMap_elem n as cs fuel hfuel, ?_, fun k => mapGet_attrsOf k as, ?_, ?_⟩
  · rw [node_elem]
    by_cases ha : as = []
    · subst ha
      have h0 := mapGet_mergeAll "@attributes".toList cs [] [] rfl
      rw [childNodes_of_names hkids (by decide)] at h0
      simp only [addAttributes, List.length_nil, gt_iff_lt, lt_self_iff_false, if_false, if_true]
      rw [mapGet_addText_ne (by decide), h0]
      rfl
    · have hl : as.length > 0 := List.length_pos.2 ha
      simp only [addAttributes, hl, if_true, ha, if_false]
      exact mapGet_mapSet_self _ _ _
  · intro hnd x hx
    rw [mapGet_attrsOf, lastAttr_of_nodup hnd hx]
  · intro ha hc
    subst ha; subst hc
    rfl

/-- C16 at the example of the specification: `<a x="1"><b/></a>` gives
`{"a": {"@attributes": {"x": "1"}, "b": {}}}`. -/
theorem attributes_are_attached_witness :
    (xmlToMap 5 ⟨(Content.elem ⟨[], "a".toList⟩ [⟨⟨[], "x".toList⟩, "1".toList⟩]
        [.elem ⟨[], "b".toList⟩ [] []]).tokens, Option.none, []⟩ Option.none
      = some (.ok ([("a".toList, .object (Content.elem ⟨[], "a".toList⟩
          [⟨⟨[], "x".toList⟩, "1".toList⟩] [.elem ⟨[], "b".toList⟩ [] []]).node)],
          ⟨[], Option.none, []⟩)) ∧
     mapGet "@attributes".toList (Content.elem ⟨[], "a".toList⟩
          [⟨⟨[], "x".toList⟩, "1".toList⟩] [.elem ⟨[], "b".toList⟩ [] []]).node
      = (if [(⟨⟨[], "x".toList⟩, "1".toList⟩ : Attr)] = [] then Option.none
          else some (.attrs (attrsOf [⟨⟨[], "x".toList⟩, "1".toList⟩]))) ∧
     (∀ k, mapGet k (attrsOf [⟨⟨[], "x".toList⟩, "1".toList⟩])
        = lastAttr k [⟨⟨[], "x".toList⟩, "1".toList⟩]) ∧
     (([(⟨⟨[], "x".toList⟩, "1".toList⟩ : Attr)].map (fun x => x.Name.Local)).Nodup →
        ∀ x ∈ [(⟨⟨[], "x".toList⟩, "1".toList⟩ : Attr)],
          mapGet x.Name.Local (attrsOf [⟨⟨[], "x".toList⟩, "1".toList⟩]) = some x.Value) ∧
     (([⟨⟨[], "x".toList⟩, "1".toList⟩] : List Attr) = [] →
        [Content.elem ⟨[], "b".toList⟩ [] []] = [] →
        (Content.elem ⟨[], "a".toList⟩ [⟨⟨[], "x".toList⟩, "1".toList⟩]
          [.elem ⟨[], "b".toList⟩ [] []]).node = [])) ∧
    (Content.elem ⟨[], "a".toList⟩ [⟨⟨[], "x".toList⟩, "1".toList⟩]
        [.elem ⟨[], "b".toList⟩ [] []]).node
      = [("b".toList, .object []), ("@attributes".toList, .attrs [("x".toList, "1".toList)])] :=
  ⟨attributes_are_attached ⟨[], "a".toList⟩ [⟨⟨[], "x".toList⟩, "1".toList⟩]
      [.elem ⟨[], "b".toList⟩ [] []] 5 (by decide)
      (by
        intro c hc t ht
        rw [List.mem_singleton] at hc
        subst hc
        injection ht with ht
        subst ht
        decide),
    rfl⟩

/-- C16 (counterexample): the element `<a p:x="1" q:x="2"/>` has two attributes
with the local name `x`.  The node maps `x` to `2` only: the attribute `p:x`
with the value `1` is not mapped to its value. -/
theorem attribute_with_shared_local_name_is_lost :
    xmlToMap 3 ⟨(Content.elem ⟨[], "a".toList⟩
        [⟨⟨"p".toList, "x".toList⟩, "1".toList⟩, ⟨⟨"q".toList, "x".toList⟩, "2".toList⟩]
        []).tokens, Option.none, []⟩ Option.none
      = some (.ok ([("a".toList,
          .object [("@attributes".toList, .attrs [("x".toList, "2".toList)])])],
          ⟨[], Option.none, []⟩)) ∧
    mapGet "x".toList (attrsOf
        [⟨⟨"p".toList, "x".toList⟩, "1".toList⟩, ⟨⟨"q".toList, "x".toList⟩, "2".toList⟩])
      ≠ some "1".toList :=
  ⟨rfl, by decide⟩

/-! ### Text -/

theorem textOf_ne_nil_iff (cs : List Content) :
    textOf cs ≠ [] ↔ ∃ s, Content.text s ∈ cs ∧ trimSpace s ≠ [] := by
  unfold textOf
  rw [ne_eq, List.flatten_eq_nil_iff]
  constructor
  · intro h
    by_contra hno
    apply h
    intro l hl
    obtain ⟨c, hc, rfl⟩ := List.mem_map.1 hl
    cases c with
    | text s =>
      by_contra hne
      exact hno ⟨s, hc, hne⟩
    | elem n as ch => rfl
    | other o => rfl
  · rintro ⟨s, hs, hne⟩ h
    exact hne (h _ (List.mem_map.2 ⟨_, hs, rfl⟩))

/-- C17: for every element whose child elements bear XML names, decoded with
fuel for its tokens, the node has the key `#text` exactly when some chunk of
character data directly inside the element is not empty after trimming; the
value is the concatenation of the trimmed chunks in document order, whether or
not the element has child elements. -/
theorem text_is_recorded (n : Name) (as : List Attr) (cs : List Content) (fuel : Nat)
    (hfuel : (Content.elem n as cs).tokens.length < fuel)
    (hkids : ∀ c ∈ cs, ∀ t, c.tag = some t → xmlName t) :
    xmlToMap fuel ⟨(Content.elem n as cs).tokens, Option.none, []⟩ Option.none
      = some (.ok ([(n.Local, .object (Content.elem n as cs).node)],
          ⟨[], Option.none, []⟩)) ∧
    mapGet "#text".toList (Content.elem n as cs).node
      = (if textOf cs = [] then Option.none else some (.string (textOf cs))) ∧
    (textOf cs ≠ [] ↔ ∃ s, Content.text s ∈ cs ∧ trimSpace s ≠ []) ∧
    textOf cs = (cs.map Content.chunk).flatten := by
  refine ⟨xmlToMap_elem n as cs fuel hfuel, ?_, textOf_ne_nil_iff cs, rfl⟩
  rw [node_elem, mapGet_addAttributes_ne (by decide)]
  have h0 := mapGet_mergeAll "#text".toList cs [] [] rfl
  rw [childNodes_of_names hkids (by decide)] at h0
  by_cases ht : textOf cs = []
  · simp only [addText, ht, List.length_nil, gt_iff_lt, lt_self_iff_false, and_false, if_false,
      if_true]
    rw [h0]
    rfl
  · have hl : (textOf cs).length > 0 := List.length_pos.2 ht
    simp only [ht, if_false]
    have hadd : addText (textOf cs) (mergeAll cs [])
        = mapSet "#text".toList (.string (textOf cs)) (mergeAll cs []) := by
      unfold addText
      by_cases hr : (mergeAll cs []).length = 0 ∧ (textOf cs).length > 0
      · rw [if_pos hr]
      · rw [if_neg hr, if_pos hl]
    rw [hadd]
    exact mapGet_mapSet_self _ _ _

/-- C17 at a concrete input: `<a> hi <b/> there </a>` has a child element and
the text `hithere`. -/
theorem text_is_recorded_witness :
    (xmlToMap 7 ⟨(Content.elem ⟨[], "a".toList⟩ []
        [.text " hi ".toList, .elem ⟨[], "b".toList⟩ [] [], .text " there ".toList]).tokens,
        Option.none, []⟩ Option.none
      = some (.ok ([("a".toList, .object (Content.elem ⟨[], "a".toList⟩ []
          [.text " hi ".toList, .elem ⟨[], "b".toList⟩ [] [], .text " there ".toList]).node)],
          ⟨[], Option.none, []⟩)) ∧
     mapGet "#text".toList (Content.elem ⟨[], "a".toList⟩ []
          [.text " hi ".toList, .elem ⟨[], "b".toList⟩ [] [], .text " there ".toList]).node
      = (if textOf [.text " hi ".toList, .elem ⟨[], "b".toList⟩ [] [], .text " there ".toList]
            = [] then Option.none
          else some (.string (textOf
            [.text " hi ".toList, .elem ⟨[], "b".toList⟩ [] [], .text " there ".toList]))) ∧
     (textOf [.text " hi ".toList, .elem ⟨[], "b".toList⟩ [] [], .text " there ".toList] ≠ [] ↔
        ∃ s, Content.text s ∈ [Content.text " hi ".toList, .elem ⟨[], "b".toList⟩ [] [],
          .text " there ".toList] ∧ trimSpace s ≠ []) ∧
     textOf [.text " hi ".toList, .elem ⟨[], "b".toList⟩ [] [], .text " there ".toList]
      = ([Content.text " hi ".toList, .elem ⟨[], "b".toList⟩ [] [],
          .text " there ".toList].map Content.chunk).flatten) ∧
    (Content.elem ⟨[], "a".toList⟩ []
        [.text " hi ".toList, .elem ⟨[], "b".toList⟩ [] [], .text " there ".toList]).node
      = [("b".toList, .object []), ("#text".toList, .string "hithere".toList)] :=
  ⟨text_is_recorded ⟨[], "a".toList⟩ []
      [.text " hi ".toList, .elem ⟨[], "b".toList⟩ [] [], .text " there ".toList] 7 (by decide)
      (by
        intro c hc t ht
        simp only [List.mem_cons, List.mem_singleton, List.not_mem_nil, or_false] at hc
        rcases hc with rfl | rfl | rfl
        · cases ht
        · injection ht with ht
          subst ht
          decide
        · cases ht),
    rfl⟩

/-! ### The root of a document -/

/-- The tokens that close the innermost open element: a run of tokens that
leaves fewer elements open than `s :: stk` starts with balanced tokens and the
end tag of `s`. -/
theorem scan_split : ∀ (n : Nat) (toks : List Token) (s : Name) (stk stk1 : List Name),
    toks.length ≤ n → scan (s :: stk) toks = some stk1 → stk1.length ≤ stk.length →
    ∃ c0 r, toks = c0 ++ .EndElement s :: r ∧ scan [] c0 = some [] ∧ scan stk r = some stk1 := by
  intro n
  induction n with
  | zero =>
    intro toks s stk stk1 hlen h hle
    cases toks with
    | nil =>
      simp [scan] at h
      subst h
      simp at hle
    | cons t r => simp at hlen
  | succ n ih =>
    intro toks s stk stk1 hlen h hle
    cases toks with
    | nil =>
      simp [scan] at h
      subst h
      simp at hle
    | cons t rest =>
      have hlen1 : rest.length ≤ n := by simpa using hlen
      cases t with
      | StartElement x =>
        rw [scan_start] at h
        obtain ⟨c0, r1, hr, hb0, h1⟩ := ih rest x.Name (s :: stk) stk1 hlen1 h
          (by simp; omega)
        have hlen2 : r1.length ≤ n := by
          rw [hr] at hlen1
          simp at hlen1
          omega
        obtain ⟨c1, r, hr1, hb1, h2⟩ := ih r1 s stk stk1 hlen2 h1 hle
        refine ⟨(.StartElement x :: c0 ++ [.EndElement x.Name]) ++ c1, r, ?_, ?_, h2⟩
        · rw [hr, hr1]; simp
        · have hbal : scan [] (.StartElement x :: c0 ++ [.EndElement x.Name]) = some [] := by
            rw [List.cons_append, scan_start, scan_balanced hb0, scan_end]
            rfl
          rw [scan_balanced hbal]
          exact hb1
      | EndElement m =>
        by_cases hm : s = m
        · subst hm
          rw [scan_end] at h
          exact ⟨[], rest, rfl, rfl, h⟩
        · simp [scan, hm] at h
      | CharData data =>
        rw [scan_chardata] at h
        obtain ⟨c0, r, hr, hb0, h1⟩ := ih rest s stk stk1 hlen1 h hle
        exact ⟨.CharData data :: c0, r, by rw [hr]; rfl, by rw [scan_chardata]; exact hb0, h1⟩
      | Other o =>
        rw [scan_other] at h
        obtain ⟨c0, r, hr, hb0, h1⟩ := ih rest s stk stk1 hlen1 h hle
        exact ⟨.Other o :: c0, r, by rw [hr]; rfl, by rw [scan_other]; exact hb0, h1⟩

/-- A well-nested token stream is the token stream of a document. -/
theorem exists_document : ∀ (n : Nat) (toks : List Token), toks.length ≤ n →
    scan [] toks = some [] → ∃ doc, tokensList doc = toks := by
  intro n
  induction n with
  | zero =>
    intro toks hlen _
    cases toks with
    | nil => exact ⟨[], tokensList_nil⟩
    | cons t r => simp at hlen
  | succ n ih =>
    intro toks hlen h
    cases toks with
    | nil => exact ⟨[], tokensList_nil⟩
    | cons t rest =>
      have hlen1 : rest.length ≤ n := by simpa using hlen
      cases t with
      | StartElement x =>
        rw [scan_start] at h
        obtain ⟨c0, r, hr, hb0, h1⟩ := scan_split _ rest x.Name [] [] (le_refl _) h (le_refl _)
        have hl0 : c0.length ≤ n := by rw [hr] at hlen1; simp at hlen1; omega
        have hl1 : r.length ≤ n := by rw [hr] at hlen1; simp at hlen1; omega
        obtain ⟨ch, hch⟩ := ih c0 hl0 hb0
        obtain ⟨cs, hcs⟩ := ih r hl1 h1
        refine ⟨.elem x.Name x.Attr ch :: cs, ?_⟩
        rw [tokensList_cons, tokens_elem, hch, hcs, hr]
        simp
      | EndElement m => simp [scan] at h
      | CharData data =>
        rw [scan_chardata] at h
        obtain ⟨cs, hcs⟩ := ih rest hlen1 h
        exact ⟨.text data :: cs, by rw [tokensList_cons, tokens_text, hcs]; rfl⟩
      | Other o =>
        rw [scan_other] at h
        obtain ⟨cs, hcs⟩ := ih rest hlen1 h
        exact ⟨.other o :: cs, by rw [tokensList_cons, tokens_other, hcs]; rfl⟩

theorem putAll_append (l1 l2 : List Content) : ∀ r : List (Str × Value),
    putAll (l1 ++ l2) r = putAll l2 (putAll l1 r) := by
  induction l1 with
  | nil => intro r; rfl
  | cons c l1 ih =>
    intro r
    show putAll (l1 ++ l2) _ = _
    exact ih _

theorem putAll_of_no_element : ∀ (l : List Content) (r : List (Str × Value)),
    (∀ c ∈ l, c.tag = none) → putAll l r = r := by
  intro l
  induction l with
  | nil => intro r _; rfl
  | cons c l ih =>
    intro r h
    have hc := h c (List.mem_cons_self _ _)
    simp only [putAll, hc]
    exact ih r (fun x hx => h x (List.mem_cons_of_mem _ hx))

/-- Reading the mapping of a document under a tag gives the node of the last
top-level element with that tag; where there is none, what the mapping held
before. -/
theorem mapGet_putAll (tag : Str) : ∀ (cs : List Content) (r : List (Str × Value)),
    mapGet tag (putAll cs r) = (lastNode tag cs).or (mapGet tag r) := by
  intro cs
  induction cs with
  | nil => intro r; simp [putAll, lastNode, childNodes]
  | cons c cs ih =>
    intro r
    show mapGet tag (putAll cs _) = _
    rw [ih]
    cases hc : c.tag with
    | none =>
      have : lastNode tag (c :: cs) = lastNode tag cs := by
        simp [lastNode, childNodes, List.filter_cons, hc]
      rw [this]
    | some t =>
      by_cases ht : t = tag
      · subst ht
        have : lastNode t (c :: cs) = (lastNode t cs).or (some (.object c.node)) := by
          simp only [lastNode, childNodes, List.filter_cons, hc, decide_True, if_true,
            List.map_cons]
          cases h : (List.map Content.node (List.filter (fun c => decide (c.tag = some t)) cs)) with
          | nil => simp
          | cons x l =>
            rw [List.getLast?_cons_cons, List.getLast?_eq_getLast _ (List.cons_ne_nil x l)]
            simp
        rw [this]
        simp only [mapGet_mapSet_self]
        cases lastNode t cs <;> simp
      · have : lastNode tag (c :: cs) = lastNode tag cs := by
          simp [lastNode, childNodes, List.filter_cons, hc, ht]
        rw [this]
        simp only [mapGet_mapSet_ne ht]

/-- Two top-level elements of the same name: on the stream of
`<a>1</a><a>2</a>` the mapping holds under `a` the node of the second element
only. -/
theorem top_level_same_name_replaced :
    xmlToMap 7 ⟨tokensList [.elem ⟨[], "a".toList⟩ [] [.text "1".toList],
        .elem ⟨[], "a".toList⟩ [] [.text "2".toList]], Option.none, []⟩ Option.none
      = some (.ok ([("a".toList, .object [("#text".toList, .string "2".toList)])],
          ⟨[], Option.none, []⟩)) :=
  rfl

/-- C18 (counterexample): decoding succeeds on the empty token stream, and the
mapping has no key; it succeeds on the stream of `<a/><b/>`, and the mapping has
two keys. -/
theorem decode_without_single_root :
    xmlToMap 1 ⟨[], Option.none, []⟩ Option.none = some (.ok ([], ⟨[], Option.none, []⟩)) ∧
    xmlToMap 5 ⟨tokensList [.elem ⟨[], "a".toList⟩ [] [], .elem ⟨[], "b".toList⟩ [] []],
        Option.none, []⟩ Option.none
      = some (.ok ([("a".toList, .object []), ("b".toList, .object [])],
          ⟨[], Option.none, []⟩)) :=
  ⟨rfl, rfl⟩

/-- C18, as far as it holds: a token stream on which `xmlToMap`, called with no
open tag, succeeds is the token stream of a document, and the mapping is what
the assignments `result[tag] = node` of the top-level elements leave, taken in
document order: read under a tag, it gives the node of the last top-level
element with that local tag name (an earlier element of the same name is
replaced, not gathered in an array) and nothing when there is no such element;
when the document has exactly one top-level element, the mapping has exactly
one key, the local tag name of that element, and its value is the node built
for the element. -/
theorem single_root_gives_single_key (tokens : List Token) (fail : Option Str) (fuel : Nat)
    (v : List (Str × Value)) (d9 : Decoder)
    (hok : xmlToMap fuel ⟨tokens, fail, []⟩ Option.none = some (.ok (v, d9))) :
    ∃ doc, tokensList doc = tokens ∧ v = putAll doc [] ∧
      (∀ tag, mapGet tag v = lastNode tag doc) ∧
      ∀ pre n as cs post, doc = pre ++ Content.elem n as cs :: post →
        (∀ c ∈ pre ++ post, c.tag = none) →
        v = [(n.Local, .object (Content.elem n as cs).node)] := by
  obtain ⟨hb, hf⟩ := (xmlLoop_ok_scan fuel _ _ _ _ v d9 hok).1 rfl rfl
  simp only at hb hf
  obtain ⟨doc, hdoc⟩ := exists_document _ tokens (le_refl _) hb
  have h1 := xmlToMap_document doc (tokens.length + 1) (by rw [hdoc]; omega)
  rw [hdoc] at h1
  subst hf
  have h2 := xmlLoop_mono _ _ _ _ _ _ hok (tokens.length + 1)
  have h3 := xmlLoop_mono _ _ _ _ _ _ h1 fuel
  rw [show tokens.length + 1 + fuel = fuel + (tokens.length + 1) by omega, h2] at h3
  injection h3 with h3
  injection h3 with h3
  injection h3 with hv _
  refine ⟨doc, hdoc, hv, ?_, ?_⟩
  · intro tag
    rw [hv, mapGet_putAll]
    cases lastNode tag doc <;> rfl
  intro pre n as cs post hd hno
  rw [hv, hd, putAll_append,
    putAll_of_no_element pre [] (fun c hc => hno c (List.mem_append_left _ hc))]
  simp only [putAll, Content.tag]
  rw [putAll_of_no_element post _ (fun c hc => hno c (List.mem_append_right _ hc))]
  rfl

/-- C18 at the example of the specification: the stream of `<a x="1"><b/></a>`
decodes to a mapping with the single key `a`. -/
theorem single_root_gives_single_key_witness :
    ∃ doc, tokensList doc = (Content.elem ⟨[], "a".toList⟩ [⟨⟨[], "x".toList⟩, "1".toList⟩]
        [.elem ⟨[], "b".toList⟩ [] []]).tokens ∧
      [("a".toList, Value.object [("b".toList, .object []),
        ("@attributes".toList, .attrs [("x".toList, "1".toList)])])] = putAll doc [] ∧
      (∀ tag, mapGet tag [("a".toList, Value.object [("b".toList, .object []),
        ("@attributes".toList, .attrs [("x".toList, "1".toList)])])] = lastNode tag doc) ∧
      ∀ pre n as cs post, doc = pre ++ Content.elem n as cs :: post →
        (∀ c ∈ pre ++ post, c.tag = none) →
        [("a".toList, Value.object [("b".toList, .object []),
          ("@attributes".toList, .attrs [("x".toList, "1".toList)])])]
          = [(n.Local, .object (Content.elem n as cs).node)] :=
  single_root_gives_single_key
    (Content.elem ⟨[], "a".toList⟩ [⟨⟨[], "x".toList⟩, "1".toList⟩]
      [.elem ⟨[], "b".toList⟩ [] []]).tokens Option.none 5 _ ⟨[], Option.none, []⟩ rfl

/-! ## The Base64 tool -/

/-- C20 (evaluation at the failing inputs): `isValidUTF8` answers `true` for the
bytes `C0 80` (an overlong encoding of `U+0000`), `ED A0 80` (the surrogate
`U+D800`) and `F4 90 80 80` (beyond `U+10FFFF`), none of which is well-formed
UTF-8; so `DecodeBase64` returns the decoding of `wIA=`, `7aCA` and `9JCAgA==`
without its warning. -/
theorem isValidUTF8_accepts_ill_formed :
    (isValidUTF8 2 [0xC0, 0x80] = some true ∧ wellFormedUTF8 [0xC0, 0x80] = false) ∧
    (isValidUTF8 2 [0xED, 0xA0, 0x80] = some true ∧
      wellFormedUTF8 [0xED, 0xA0, 0x80] = false) ∧
    (isValidUTF8 2 [0xF4, 0x90, 0x80, 0x80] = some true ∧
      wellFormedUTF8 [0xF4, 0x90, 0x80, 0x80] = false) ∧
    DecodeBase64 sampleDecodeString 2 "wIA=".toList = some ⟨[0xC0, 0x80], []⟩ ∧
    DecodeBase64 sampleDecodeString 2 "7aCA".toList = some ⟨[0xED, 0xA0, 0x80], []⟩ ∧
    DecodeBase64 sampleDecodeString 2 "9JCAgA==".toList
      = some ⟨[0xF4, 0x90, 0x80, 0x80], []⟩ := by
  decide

/-! ## The loop of `isValidUTF8` -/

/-- Each turn of the loop of `isValidUTF8` takes between one and four bytes, and
no more than there are. -/
theorem decodeFront_size (data : List Nat) (h : data ≠ []) :
    1 ≤ (decodeFront data).2 ∧ (decodeFront data).2 ≤ 4 ∧
      (decodeFront data).2 ≤ data.length := by
  have hl : 1 ≤ data.length := List.length_pos.2 h
  unfold decodeFront
  simp only
  split_ifs with h0 h2 h3 h4
  · exact ⟨by simp, by simp, h2.2.1⟩
  · exact ⟨by simp, by simp, h3.2.1⟩
  · exact ⟨by simp, by simp, h4.2.1⟩
  · exact ⟨by simp, by simp, hl⟩
  · exact ⟨by simp, by simp, hl⟩

theorem byteAt_of_lt (data : List Nat) (i : Nat) (h : i < data.length) :
    byteAt data i = some (data.getD i 0) := by
  unfold byteAt
  rw [List.getD_eq_getElem?_getD, List.getElem?_eq_getElem h]
  rfl

/-- The index expressions of the loop body never fail: with the run-time checks
counted, the body gives what `decodeFront` gives. -/
theorem decodeFrontChecked_eq (data : List Nat) (h : data ≠ []) :
    decodeFrontChecked data = some (decodeFront data) := by
  have hl : 0 < data.length := List.length_pos.2 h
  have e1 : data.length ≥ 2 → byteAt data 1 = some (data.getD 1 0) :=
    fun hn => byteAt_of_lt data 1 (by omega)
  have e2 : data.length ≥ 3 → byteAt data 2 = some (data.getD 2 0) :=
    fun hn => byteAt_of_lt data 2 (by omega)
  have e3 : data.length ≥ 4 → byteAt data 3 = some (data.getD 3 0) :=
    fun hn => byteAt_of_lt data 3 (by omega)
  unfold decodeFrontChecked decodeFront
  rw [byteAt_of_lt data 0 hl]
  generalize data.getD 0 0 = b0 at *
  generalize data.getD 1 0 = b1 at *
  generalize data.getD 2 0 = b2 at *
  generalize data.getD 3 0 = b3 at *
  generalize byteAt data 1 = o1 at *
  generalize byteAt data 2 = o2 at *
  generalize byteAt data 3 = o3 at *
  generalize data.length = n at *
  simp only [Option.some_bind, andAlso]
  by_cases h0 : b0 ≥ 0x80
  · simp only [h0, if_true]
    by_cases hn2 : n ≥ 2
    · rw [e1 hn2]
      by_cases hn3 : n ≥ 3
      · rw [e2 hn3]
        by_cases hn4 : n ≥ 4
        · rw [e3 hn4]
          by_cases ha : b0 &&& 0xE0 = 0xC0 <;> by_cases hb : b1 &&& 0xC0 = 0x80 <;>
            by_cases hc : b0 &&& 0xF0 = 0xE0 <;> by_cases hd : b2 &&& 0xC0 = 0x80 <;>
            by_cases he : b0 &&& 0xF8 = 0xF0 <;> by_cases hf : b3 &&& 0xC0 = 0x80 <;>
            simp [ha, hb, hc, hd, he, hf, hn2, hn3, hn4]
        · by_cases ha : b0 &&& 0xE0 = 0xC0 <;> by_cases hb : b1 &&& 0xC0 = 0x80 <;>
            by_cases hc : b0 &&& 0xF0 = 0xE0 <;> by_cases hd : b2 &&& 0xC0 = 0x80 <;>
            by_cases he : b0 &&& 0xF8 = 0xF0 <;>
            simp [ha, hb, hc, hd, he, hn2, hn3, hn4]
      · have hn4 : ¬ n ≥ 4 := by omega
        by_cases ha : b0 &&& 0xE0 = 0xC0 <;> by_cases hb : b1 &&& 0xC0 = 0x80 <;>
          by_cases hc : b0 &&& 0xF0 = 0xE0 <;> by_cases he : b0 &&& 0xF8 = 0xF0 <;>
          simp [ha, hb, hc, he, hn2, hn3, hn4]
    · have hn3 : ¬ n ≥ 3 := by omega
      have hn4 : ¬ n ≥ 4 := by omega
      by_cases ha : b0 &&& 0xE0 = 0xC0 <;> by_cases hc : b0 &&& 0xF0 = 0xE0 <;>
        by_cases he : b0 &&& 0xF8 = 0xF0 <;>
        simp [ha, hc, he, hn2, hn3, hn4]
  · simp only [h0, if_false]

theorem isValidUTF8_nil (fuel : Nat) : isValidUTF8 (fuel + 1) [] = some true := by
  simp [isValidUTF8]

/-- One turn of the loop of `isValidUTF8` on data that the body does not
reject. -/
theorem isValidUTF8_step (fuel : Nat) (data : List Nat) (h : data ≠ [])
    (hok : ¬ ((decodeFront data).1 = 0xFFFD ∧ (decodeFront data).2 = 1)) :
    isValidUTF8 (fuel + 1) data = isValidUTF8 fuel (data.drop (decodeFront data).2) := by
  have hl : data.length > 0 := List.length_pos.2 h
  simp only [isValidUTF8, hl, if_true, hok, if_false]

/-- The loop of `isValidUTF8` stops and never fails a run-time check: with more
fuel than bytes it returns a result, the same with the checks counted as
without. -/
theorem isValidUTF8_runs : ∀ (fuel : Nat) (data : List Nat), data.length < fuel →
    ∃ b, isValidUTF8Checked fuel data = .result b ∧ isValidUTF8 fuel data = some b := by
  intro fuel
  induction fuel with
  | zero => intro _ h; exact absurd h (Nat.not_lt_zero _)
  | succ fuel ih =>
    intro data hlen
    by_cases hd : data = []
    · subst hd
      exact ⟨true, by simp [isValidUTF8Checked], by simp [isValidUTF8]⟩
    · have hl : data.length > 0 := List.length_pos.2 hd
      obtain ⟨h1, _, h3⟩ := decodeFront_size data hd
      have hs : sliceFrom data (decodeFront data).2 = some (data.drop (decodeFront data).2) := by
        simp only [sliceFrom, h3, if_true]
      by_cases hrej : (decodeFront data).1 = 0xFFFD ∧ (decodeFront data).2 = 1
      · refine ⟨false, ?_, ?_⟩
        · simp only [isValidUTF8Checked, hl, if_true, decodeFrontChecked_eq data hd, hrej,
            and_self]
        · simp only [isValidUTF8, hl, if_true, hrej, and_self]
      · obtain ⟨b, hb1, hb2⟩ := ih (data.drop (decodeFront data).2)
          (by rw [List.length_drop]; omega)
        refine ⟨b, ?_, ?_⟩
        · simp only [isValidUTF8Checked, hl, if_true, decodeFrontChecked_eq data hd, hrej,
            if_false, hs]
          exact hb1
        · rw [isValidUTF8_step fuel data hd hrej]
          exact hb2

/-! ## Bytes of well-formed UTF-8 -/

theorem decodeFront_one (b0 : Nat) (t : List Nat) (h : b0 < 0x80) :
    decodeFront (b0 :: t) = (b0, 1) := by
  have g0 : (b0 :: t).getD 0 0 = b0 := rfl
  simp only [decodeFront, g0, ge_iff_le, Nat.not_le.2 h, if_false]

theorem decodeFront_two (b0 b1 : Nat) (t : List Nat) (h0 : b0 ≥ 0x80)
    (h1 : b0 &&& 0xE0 = 0xC0) (h2 : b1 &&& 0xC0 = 0x80) :
    (decodeFront (b0 :: b1 :: t)).2 = 2 := by
  have g0 : (b0 :: b1 :: t).getD 0 0 = b0 := rfl
  have g1 : (b0 :: b1 :: t).getD 1 0 = b1 := rfl
  have gl : (b0 :: b1 :: t).length ≥ 2 := by simp
  simp only [decodeFront, g0, g1, h0, h1, h2, gl, and_self, if_true]

theorem decodeFront_three (b0 b1 b2 : Nat) (t : List Nat) (h0 : b0 ≥ 0x80)
    (hn : b0 &&& 0xE0 ≠ 0xC0) (h1 : b0 &&& 0xF0 = 0xE0) (h2 : b1 &&& 0xC0 = 0x80)
    (h3 : b2 &&& 0xC0 = 0x80) :
    (decodeFront (b0 :: b1 :: b2 :: t)).2 = 3 := by
  have g0 : (b0 :: b1 :: b2 :: t).getD 0 0 = b0 := rfl
  have g1 : (b0 :: b1 :: b2 :: t).getD 1 0 = b1 := rfl
  have g2 : (b0 :: b1 :: b2 :: t).getD 2 0 = b2 := rfl
  have gl : (b0 :: b1 :: b2 :: t).length ≥ 3 := by simp
  simp only [decodeFront, g0, g1, g2, h0, hn, h1, h2, h3, gl, and_self, if_true, false_and,
    if_false]

theorem decodeFront_four (b0 b1 b2 b3 : Nat) (t : List Nat) (h0 : b0 ≥ 0x80)
    (hn : b0 &&& 0xE0 ≠ 0xC0) (hm : b0 &&& 0xF0 ≠ 0xE0) (h1 : b0 &&& 0xF8 = 0xF0)
    (h2 : b1 &&& 0xC0 = 0x80) (h3 : b2 &&& 0xC0 = 0x80) (h4 : b3 &&& 0xC0 = 0x80) :
    (decodeFront (b0 :: b1 :: b2 :: b3 :: t)).2 = 4 := by
  have g0 : (b0 :: b1 :: b2 :: b3 :: t).getD 0 0 = b0 := rfl
  have g1 : (b0 :: b1 :: b2 :: b3 :: t).getD 1 0 = b1 := rfl
  have g2 : (b0 :: b1 :: b2 :: b3 :: t).getD 2 0 = b2 := rfl
  have g3 : (b0 :: b1 :: b2 :: b3 :: t).getD 3 0 = b3 := rfl
  have gl : (b0 :: b1 :: b2 :: b3 :: t).length ≥ 4 := by simp
  simp only [decodeFront, g0, g1, g2, g3, h0, hn, hm, h1, h2, h3, h4, gl, and_self, if_true,
    false_and, if_false]

set_option maxRecDepth 100000 in
theorem bits_lead2 : ∀ x < 32, 0xC0 ||| x ≥ 0x80 ∧ (0xC0 ||| x) &&& 0xE0 = 0xC0 := by
  decide

set_option maxRecDepth 100000 in
theorem bits_lead3 : ∀ x < 16, 0xE0 ||| x ≥ 0x80 ∧ (0xE0 ||| x) &&& 0xE0 ≠ 0xC0 ∧
    (0xE0 ||| x) &&& 0xF0 = 0xE0 := by
  decide

set_option maxRecDepth 100000 in
theorem bits_lead4 : ∀ x < 8, 0xF0 ||| x ≥ 0x80 ∧ (0xF0 ||| x) &&& 0xE0 ≠ 0xC0 ∧
    (0xF0 ||| x) &&& 0xF0 ≠ 0xE0 ∧ (0xF0 ||| x) &&& 0xF8 = 0xF0 := by
  decide

set_option maxRecDepth 100000 in
theorem bits_cont : ∀ x < 64, (0x80 ||| x) &&& 0xC0 = 0x80 := by
  decide

theorem and_63_lt (c : Nat) : c &&& 0x3F < 64 :=
  Nat.and_lt_two_pow c (show 0x3F < 2 ^ 6 by decide)

theorem bits_cont_and (c : Nat) : (0x80 ||| (c &&& 0x3F)) &&& 0xC0 = 0x80 :=
  bits_cont _ (and_63_lt c)

/-- What the loop body of `isValidUTF8` makes of the encoding of a code point:
it takes the bytes of the encoding and does not reject them. -/
theorem decodeFront_encodeRune (c : Nat) (hc : c < 0x200000) (rest : List Nat) :
    (decodeFront (encodeRune c ++ rest)).2 = (encodeRune c).length ∧
    ¬ ((decodeFront (encodeRune c ++ rest)).1 = 0xFFFD ∧
        (decodeFront (encodeRune c ++ rest)).2 = 1) := by
  unfold encodeRune
  by_cases h1 : c < 0x80
  · simp only [h1, if_true, List.singleton_append, List.length_singleton]
    rw [decodeFront_one c rest h1]
    exact ⟨rfl, fun h => by have := h.1; simp only at this; omega⟩
  · by_cases h2 : c < 0x800
    · simp only [h1, h2, if_true, if_false, List.cons_append, List.nil_append,
        List.length_cons, List.length_nil]
      have hx : c >>> 6 < 32 := by rw [Nat.shiftRight_eq_div_pow]; omega
      obtain ⟨a1, a2⟩ := bits_lead2 _ hx
      have hs := decodeFront_two _ _ rest a1 a2 (bits_cont_and c)
      exact ⟨hs, fun h => by rw [hs] at h; exact absurd h.2 (by decide)⟩
    · by_cases h3 : c < 0x10000
      · simp only [h1, h2, h3, if_true, if_false, List.cons_append, List.nil_append,
          List.length_cons, List.length_nil]
        have hx : c >>> 12 < 16 := by rw [Nat.shiftRight_eq_div_pow]; omega
        obtain ⟨a1, a2, a3⟩ := bits_lead3 _ hx
        have hs := decodeFront_three _ _ _ rest a1 a2 a3 (bits_cont_and (c >>> 6))
          (bits_cont_and c)
        exact ⟨hs, fun h => by rw [hs] at h; exact absurd h.2 (by decide)⟩
      · simp only [h1, h2, h3, if_false, List.cons_append, List.nil_append,
          List.length_cons, List.length_nil]
        have hx : c >>> 18 < 8 := by rw [Nat.shiftRight_eq_div_pow]; omega
        obtain ⟨a1, a2, a3, a4⟩ := bits_lead4 _ hx
        have hs := decodeFront_four _ _ _ _ rest a1 a2 a3 a4 (bits_cont_and (c >>> 12))
          (bits_cont_and (c >>> 6)) (bits_cont_and c)
        exact ⟨hs, fun h => by rw [hs] at h; exact absurd h.2 (by decide)⟩

theorem encodeRune_length_pos (c : Nat) : 0 < (encodeRune c).length := by
  unfold encodeRune
  split_ifs <;> simp

theorem char_toNat_lt (c : Char) : c.toNat < 0x200000 := by
  have h := c.valid
  have e : c.toNat = c.val.toNat := rfl
  rw [e]
  rcases h with h | h
  · have : c.val.toNat < 0xd800 := h
    omega
  · have : c.val.toNat < 0x110000 := h.2
    omega

/-- The encoding of every string of Unicode scalar values is accepted. -/
theorem isValidUTF8_encodeUTF8 : ∀ (s : Str) (fuel : Nat), (encodeUTF8 s).length < fuel →
    isValidUTF8 fuel (encodeUTF8 s) = some true := by
  intro s
  induction s with
  | nil =>
    intro fuel h
    obtain ⟨k, rfl⟩ : ∃ k, fuel = k + 1 := ⟨fuel - 1, by omega⟩
    exact isValidUTF8_nil k
  | cons c s ih =>
    intro fuel h
    have he : encodeUTF8 (c :: s) = encodeRune c.toNat ++ encodeUTF8 s := by
      simp [encodeUTF8]
    rw [he] at h ⊢
    obtain ⟨k, rfl⟩ : ∃ k, fuel = k + 1 := ⟨fuel - 1, by omega⟩
    obtain ⟨hsize, hok⟩ := decodeFront_encodeRune c.toNat (char_toNat_lt c) (encodeUTF8 s)
    have hpos := encodeRune_length_pos c.toNat
    have hne : encodeRune c.toNat ++ encodeUTF8 s ≠ [] := by
      intro e
      have := congrArg List.length e
      rw [List.length_append, List.length_nil] at this
      omega
    rw [isValidUTF8_step k _ hne hok, hsize, List.drop_left]
    apply ih
    rw [List.length_append] at h
    omega

set_option maxRecDepth 100000 in
theorem range_cont : ∀ b < 256, 0x80 ≤ b → b ≤ 0xBF → b &&& 0xC0 = 0x80 := by
  decide

set_option maxRecDepth 100000 in
theorem range_lead2 : ∀ b < 256, 0xC2 ≤ b → b ≤ 0xDF → b &&& 0xE0 = 0xC0 := by
  decide

set_option maxRecDepth 100000 in
theorem range_lead3 : ∀ b < 256, 0xE0 ≤ b → b ≤ 0xEF →
    b &&& 0xE0 ≠ 0xC0 ∧ b &&& 0xF0 = 0xE0 := by
  decide

set_option maxRecDepth 100000 in
theorem range_lead4 : ∀ b < 256, 0xF0 ≤ b → b ≤ 0xF4 →
    b &&& 0xE0 ≠ 0xC0 ∧ b &&& 0xF0 ≠ 0xE0 ∧ b &&& 0xF8 = 0xF0 := by
  decide

/-- Every well-formed byte sequence is accepted. -/
theorem isValidUTF8_wellFormed : ∀ (fuel : Nat) (data : List Nat), data.length < fuel →
    wellFormedUTF8 data = true → isValidUTF8 fuel data = some true := by
  intro fuel
  induction fuel with
  | zero => intro _ h; exact absurd h (Nat.not_lt_zero _)
  | succ fuel ih =>
    intro data hlen hwf
    cases data with
    | nil => exact isValidUTF8_nil fuel
    | cons b0 t =>
      by_cases h1 : b0 ≤ 0x7F
      · unfold wellFormedUTF8 at hwf
        simp only [h1, if_true] at hwf
        have hd := decodeFront_one b0 t (by omega)
        rw [isValidUTF8_step fuel _ (by simp) (by rw [hd]; simp only; omega), hd]
        exact ih t (by simp at hlen; omega) hwf
      · cases t with
        | nil => unfold wellFormedUTF8 at hwf; simp [h1] at hwf
        | cons b1 t1 =>
          by_cases h2 : (inRange 0xC2 0xDF b0 && inRange 0x80 0xBF b1) = true
          · unfold wellFormedUTF8 at hwf
            simp only [h1, if_false, h2, if_true] at hwf
            simp only [inRange, Bool.and_eq_true, decide_eq_true_eq] at h2
            have hs := decodeFront_two b0 b1 t1 (by omega)
              (range_lead2 b0 (by omega) h2.1.1 h2.1.2)
              (range_cont b1 (by omega) h2.2.1 h2.2.2)
            rw [isValidUTF8_step fuel _ (by simp)
              (fun h => by rw [hs] at h; exact absurd h.2 (by decide)), hs]
            exact ih t1 (by simp at hlen; omega) hwf
          · cases t1 with
            | nil => unfold wellFormedUTF8 at hwf; simp [h1, h2] at hwf
            | cons b2 t2 =>
              by_cases h3 : ((decide (b0 = 0xE0) && inRange 0xA0 0xBF b1 && inRange 0x80 0xBF b2)
                  || (inRange 0xE1 0xEC b0 && inRange 0x80 0xBF b1 && inRange 0x80 0xBF b2)
                  || (decide (b0 = 0xED) && inRange 0x80 0x9F b1 && inRange 0x80 0xBF b2)
                  || (inRange 0xEE 0xEF b0 && inRange 0x80 0xBF b1 && inRange 0x80 0xBF b2))
                  = true
              · unfold wellFormedUTF8 at hwf
                simp only [h1, if_false, h2, h3, if_true] at hwf
                simp only [inRange, Bool.and_eq_true, Bool.or_eq_true, decide_eq_true_eq] at h3
                have r0 : 0xE0 ≤ b0 ∧ b0 ≤ 0xEF := by omega
                have r1 : 0x80 ≤ b1 ∧ b1 ≤ 0xBF := by omega
                have r2 : 0x80 ≤ b2 ∧ b2 ≤ 0xBF := by omega
                obtain ⟨a2, a3⟩ := range_lead3 b0 (by omega) r0.1 r0.2
                have hs := decodeFront_three b0 b1 b2 t2 (by omega) a2 a3
                  (range_cont b1 (by omega) r1.1 r1.2) (range_cont b2 (by omega) r2.1 r2.2)
                rw [isValidUTF8_step fuel _ (by simp)
                  (fun h => by rw [hs] at h; exact absurd h.2 (by decide)), hs]
                exact ih t2 (by simp at hlen; omega) hwf
              · cases t2 with
                | nil => unfold wellFormedUTF8 at hwf; simp [h1, h2, h3] at hwf
                | cons b3 t3 =>
                  by_cases h4 : ((decide (b0 = 0xF0) && inRange 0x90 0xBF b1
                        && inRange 0x80 0xBF b2 && inRange 0x80 0xBF b3)
                      || (inRange 0xF1 0xF3 b0 && inRange 0x80 0xBF b1 && inRange 0x80 0xBF b2
                        && inRange 0x80 0xBF b3)
                      || (decide (b0 = 0xF4) && inRange 0x80 0x8F b1 && inRange 0x80 0xBF b2
                        && inRange 0x80 0xBF b3)) = true
                  · unfold wellFormedUTF8 at hwf
                    simp only [h1, if_false, h2, h3, h4, if_true] at hwf
                    simp only [inRange, Bool.and_eq_true, Bool.or_eq_true, decide_eq_true_eq]
                      at h4
                    have r0 : 0xF0 ≤ b0 ∧ b0 ≤ 0xF4 := by omega
                    have r1 : 0x80 ≤ b1 ∧ b1 ≤ 0xBF := by omega
                    have r2 : 0x80 ≤ b2 ∧ b2 ≤ 0xBF := by omega
                    have r3 : 0x80 ≤ b3 ∧ b3 ≤ 0xBF := by omega
                    obtain ⟨a2, a3, a4⟩ := range_lead4 b0 (by omega) r0.1 r0.2
                    have hs := decodeFront_four b0 b1 b2 b3 t3 (by omega) a2 a3 a4
                      (range_cont b1 (by omega) r1.1 r1.2) (range_cont b2 (by omega) r2.1 r2.2)
                      (range_cont b3 (by omega) r3.1 r3.2)
                    rw [isValidUTF8_step fuel _ (by simp)
                      (fun h => by rw [hs] at h; exact absurd h.2 (by decide)), hs]
                    exact ih t3 (by simp at hlen; omega) hwf
                  · unfold wellFormedUTF8 at hwf
                    simp [h1, h2, h3, h4] at hwf

set_option maxRecDepth 100000 in
theorem or_lead_eq_add : (∀ x < 32, 0xC0 ||| x = 0xC0 + x) ∧ (∀ x < 16, 0xE0 ||| x = 0xE0 + x) ∧
    (∀ x < 8, 0xF0 ||| x = 0xF0 + x) ∧ (∀ x < 64, 0x80 ||| x = 0x80 + x) := by
  decide

theorem and_63_eq_mod (c : Nat) : c &&& 0x3F = c % 64 :=
  Nat.and_pow_two_sub_one_eq_mod c 6

/-- The encoding of a Unicode scalar value is well-formed UTF-8, whatever
follows it being well formed. -/
theorem wellFormedUTF8_encodeRune (c : Nat) (hc : c < 0xD800 ∨ (0xDFFF < c ∧ c < 0x110000))
    (rest : List Nat) (hrest : wellFormedUTF8 rest = true) :
    wellFormedUTF8 (encodeRune c ++ rest) = true := by
  obtain ⟨o2, o3, o4, oc⟩ := or_lead_eq_add
  unfold encodeRune
  by_cases h1 : c < 0x80
  · simp only [h1, if_true, List.singleton_append]
    unfold wellFormedUTF8
    simp only [show c ≤ 0x7F by omega, if_true, hrest]
  · by_cases h2 : c < 0x800
    · simp only [h1, h2, if_true, if_false, List.cons_append, List.nil_append]
      have e0 : 0xC0 ||| (c >>> 6) = 0xC0 + c / 64 := by
        rw [Nat.shiftRight_eq_div_pow]
        exact o2 _ (by omega)
      have e1 : 0x80 ||| (c &&& 0x3F) = 0x80 + c % 64 := by
        rw [and_63_eq_mod]
        exact oc _ (by omega)
      rw [e0, e1]
      unfold wellFormedUTF8
      have c0 : ¬ (0xC0 + c / 64 ≤ 0x7F) := by omega
      have c2 : (inRange 0xC2 0xDF (0xC0 + c / 64) && inRange 0x80 0xBF (0x80 + c % 64))
          = true := by
        simp only [inRange, Bool.and_eq_true, decide_eq_true_eq]
        omega
      simp only [c0, if_false, c2, if_true, hrest]
    · by_cases h3 : c < 0x10000
      · simp only [h1, h2, h3, if_true, if_false, List.cons_append, List.nil_append]
        have e0 : 0xE0 ||| (c >>> 12) = 0xE0 + c / 4096 := by
          rw [Nat.shiftRight_eq_div_pow]
          exact o3 _ (by omega)
        have e1 : 0x80 ||| ((c >>> 6) &&& 0x3F) = 0x80 + c / 64 % 64 := by
          rw [and_63_eq_mod, Nat.shiftRight_eq_div_pow]
          exact oc _ (by omega)
        have e2 : 0x80 ||| (c &&& 0x3F) = 0x80 + c % 64 := by
          rw [and_63_eq_mod]
          exact oc _ (by omega)
        rw [e0, e1, e2]
        unfold wellFormedUTF8
        have c0 : ¬ (0xE0 + c / 4096 ≤ 0x7F) := by omega
        have c2 : ¬ ((inRange 0xC2 0xDF (0xE0 + c / 4096)
            && inRange 0x80 0xBF (0x80 + c / 64 % 64)) = true) := by
          simp only [inRange, Bool.and_eq_true, decide_eq_true_eq]
          omega
        have c3 : ((decide (0xE0 + c / 4096 = 0xE0) && inRange 0xA0 0xBF (0x80 + c / 64 % 64)
              && inRange 0x80 0xBF (0x80 + c % 64))
            || (inRange 0xE1 0xEC (0xE0 + c / 4096) && inRange 0x80 0xBF (0x80 + c / 64 % 64)
              && inRange 0x80 0xBF (0x80 + c % 64))
            || (decide (0xE0 + c / 4096 = 0xED) && inRange 0x80 0x9F (0x80 + c / 64 % 64)
              && inRange 0x80 0xBF (0x80 + c % 64))
            || (inRange 0xEE 0xEF (0xE0 + c / 4096) && inRange 0x80 0xBF (0x80 + c / 64 % 64)
              && inRange 0x80 0xBF (0x80 + c % 64))) = true := by
          simp only [inRange, Bool.and_eq_true, Bool.or_eq_true, decide_eq_true_eq]
          omega
        simp only [c0, if_false, c2, c3, if_true, hrest, Bool.false_eq_true]
      · simp only [h1, h2, h3, if_false, List.cons_append, List.nil_append]
        have e0 : 0xF0 ||| (c >>> 18) = 0xF0 + c / 262144 := by
          rw [Nat.shiftRight_eq_div_pow]
          exact o4 _ (by omega)
        have e1 : 0x80 ||| ((c >>> 12) &&& 0x3F) = 0x80 + c / 4096 % 64 := by
          rw [and_63_eq_mod, Nat.shiftRight_eq_div_pow]
          exact oc _ (by omega)
        have e2 : 0x80 ||| ((c >>> 6) &&& 0x3F) = 0x80 + c / 64 % 64 := by
          rw [and_63_eq_mod, Nat.shiftRight_eq_div_pow]
          exact oc _ (by omega)
        have e3 : 0x80 ||| (c &&& 0x3F) = 0x80 + c % 64 := by
          rw [and_63_eq_mod]
          exact oc _ (by omega)
        rw [e0, e1, e2, e3]
        unfold wellFormedUTF8
        have c0 : ¬ (0xF0 + c / 262144 ≤ 0x7F) := by omega
        have c2 : ¬ ((inRange 0xC2 0xDF (0xF0 + c / 262144)
            && inRange 0x80 0xBF (0x80 + c / 4096 % 64)) = true) := by
          simp only [inRange, Bool.and_eq_true, decide_eq_true_eq]
          omega
        have c3 : ¬ (((decide (0xF0 + c / 262144 = 0xE0)
              && inRange 0xA0 0xBF (0x80 + c / 4096 % 64)
              && inRange 0x80 0xBF (0x80 + c / 64 % 64))
            || (inRange 0xE1 0xEC (0xF0 + c / 262144) && inRange 0x80 0xBF (0x80 + c / 4096 % 64)
              && inRange 0x80 0xBF (0x80 + c / 64 % 64))
            || (decide (0xF0 + c / 262144 = 0xED) && inRange 0x80 0x9F (0x80 + c / 4096 % 64)
              && inRange 0x80 0xBF (0x80 + c / 64 % 64))
            || (inRange 0xEE 0xEF (0xF0 + c / 262144) && inRange 0x80 0xBF (0x80 + c / 4096 % 64)
              && inRange 0x80 0xBF (0x80 + c / 64 % 64))) = true) := by
          simp only [inRange, Bool.and_eq_true, Bool.or_eq_true, decide_eq_true_eq]
          omega
        have c4 : ((decide (0xF0 + c / 262144 = 0xF0) && inRange 0x90 0xBF (0x80 + c / 4096 % 64)
              && inRange 0x80 0xBF (0x80 + c / 64 % 64) && inRange 0x80 0xBF (0x80 + c % 64))
            || (inRange 0xF1 0xF3 (0xF0 + c / 262144) && inRange 0x80 0xBF (0x80 + c / 4096 % 64)
              && inRange 0x80 0xBF (0x80 + c / 64 % 64) && inRange 0x80 0xBF (0x80 + c % 64))
            || (decide (0xF0 + c / 262144 = 0xF4) && inRange 0x80 0x8F (0x80 + c / 4096 % 64)
              && inRange 0x80 0xBF (0x80 + c / 64 % 64) && inRange 0x80 0xBF (0x80 + c % 64)))
            = true := by
          simp only [inRange, Bool.and_eq_true, Bool.or_eq_true, decide_eq_true_eq]
          omega
        simp only [c0, if_false, c2, c3, c4, if_true, hrest, Bool.false_eq_true]

/-- The encoding of every string of Unicode scalar values is well-formed
UTF-8. -/
theorem wellFormedUTF8_encodeUTF8 (s : Str) : wellFormedUTF8 (encodeUTF8 s) = true := by
  induction s with
  | nil => simp [encodeUTF8, wellFormedUTF8]
  | cons c s ih =>
    have he : encodeUTF8 (c :: s) = encodeRune c.toNat ++ encodeUTF8 s := by
      simp [encodeUTF8]
    rw [he]
    apply wellFormedUTF8_encodeRune _ _ _ ih
    have h := c.valid
    have e : c.toNat = c.val.toNat := rfl
    rw [e]
    rcases h with h | h
    · exact Or.inl h
    · exact Or.inr h

/-- C21: for every byte sequence and more fuel than bytes, `isValidUTF8` returns
a result, and it does so without failing a run-time check (counted, the index
and slice expressions give the same run).  Each turn of its loop reads the
bytes it reads inside the slice and takes between one and four bytes, no more
than there are.  The result is `true` for the UTF-8 encoding of every string of
Unicode scalar values and for every sequence that is well-formed UTF-8;
`U+FFFD` is encoded as `EF BF BD`. -/
theorem isValidUTF8_total_and_accepts_well_formed (data : List Nat) (fuel : Nat)
    (hfuel : data.length < fuel) :
    (∃ b, isValidUTF8Checked fuel data = .result b ∧ isValidUTF8 fuel data = some b) ∧
    (data ≠ [] → decodeFrontChecked data = some (decodeFront data) ∧
      1 ≤ (decodeFront data).2 ∧ (decodeFront data).2 ≤ 4 ∧
      (decodeFront data).2 ≤ data.length) ∧
    ((∃ s : Str, data = encodeUTF8 s) → isValidUTF8 fuel data = some true) ∧
    (wellFormedUTF8 data = true → isValidUTF8 fuel data = some true) ∧
    encodeUTF8 [Char.ofNat 0xFFFD] = [0xEF, 0xBF, 0xBD] := by
  refine ⟨isValidUTF8_runs fuel data hfuel, ?_, ?_, isValidUTF8_wellFormed fuel data hfuel,
    by decide⟩
  · intro hd
    exact ⟨decodeFrontChecked_eq data hd, decodeFront_size data hd⟩
  · rintro ⟨s, rfl⟩
    exact isValidUTF8_encodeUTF8 s fuel hfuel

/-- C21 at a concrete input: the bytes `41 EF BF BD`, the encoding of `A` and
`U+FFFD`. -/
theorem isValidUTF8_total_and_accepts_well_formed_witness :
    ((∃ b, isValidUTF8Checked 5 [0x41, 0xEF, 0xBF, 0xBD] = .result b ∧
        isValidUTF8 5 [0x41, 0xEF, 0xBF, 0xBD] = some b) ∧
     (([0x41, 0xEF, 0xBF, 0xBD] : List Nat) ≠ [] →
        decodeFrontChecked [0x41, 0xEF, 0xBF, 0xBD]
          = some (decodeFront [0x41, 0xEF, 0xBF, 0xBD]) ∧
        1 ≤ (decodeFront [0x41, 0xEF, 0xBF, 0xBD]).2 ∧
        (decodeFront [0x41, 0xEF, 0xBF, 0xBD]).2 ≤ 4 ∧
        (decodeFront [0x41, 0xEF, 0xBF, 0xBD]).2 ≤ ([0x41, 0xEF, 0xBF, 0xBD] : List Nat).length) ∧
     ((∃ s : Str, [0x41, 0xEF, 0xBF, 0xBD] = encodeUTF8 s) →
        isValidUTF8 5 [0x41, 0xEF, 0xBF, 0xBD] = some true) ∧
     (wellFormedUTF8 [0x41, 0xEF, 0xBF, 0xBD] = true →
        isValidUTF8 5 [0x41, 0xEF, 0xBF, 0xBD] = some true) ∧
     encodeUTF8 [Char.ofNat 0xFFFD] = [0xEF, 0xBF, 0xBD]) ∧
    encodeUTF8 ['A', Char.ofNat 0xFFFD] = [0x41, 0xEF, 0xBF, 0xBD] ∧
    isValidUTF8 5 [0x41, 0xEF, 0xBF, 0xBD] = some true ∧
    isValidUTF8Checked 5 [0x41, 0xEF, 0xBF, 0xBD] = .result true :=
  ⟨isValidUTF8_total_and_accepts_well_formed [0x41, 0xEF, 0xBF, 0xBD] 5 (by decide),
    by decide, by decide, by decide⟩

end MacDevTools
